import Mathlib

/-!
Verification of the standalone unit propagator (sprop).

This file gives a shallow embedding, in Lean, of the C++ sources of the
standalone-unit-propagator repository: the literal arithmetic
(`literal_ops.h`), the model builder (`model_builder.h`), the stamp set
(`stamp_set.h`), the subsumption eliminator (`eliminate_subsumed.h`) and
the propagator engine (`propagator.h`).  Machine integers are modelled by
`Nat`/`Int`; fallible operations (thrown exceptions, out-of-bounds
accesses, loops whose termination depends on data-structure invariants)
return `Option`.  Theorems about the embedded definitions settle the
specification claims.
-/

namespace Sprop

/-! ### Literal arithmetic (`literal_ops.h`) -/

namespace lit

/-- `lit::negate`: `l ^ 1`. -/
def negate (l : Nat) : Nat := l ^^^ 1

/-- `lit::var`: `l >> 1`. -/
def var (l : Nat) : Nat := l >>> 1

/-- `lit::positive_lit`: `v << 1`. -/
def positive_lit (v : Nat) : Nat := v <<< 1

/-- `lit::negative_lit`: `(v << 1) + 1`. -/
def negative_lit (v : Nat) : Nat := (v <<< 1) + 1

/-- `lit::positive`: `!(l & 1)`. -/
def positive (l : Nat) : Bool := !(l &&& 1 != 0)

/-- `lit::negative`: `l & 1`. -/
def negative (l : Nat) : Bool := l &&& 1 != 0

/-- `lit::absolute`: `l & ~1`, i.e. clear the lowest bit. -/
def absolute (l : Nat) : Nat := 2 * (l >>> 1)

end lit

/-! ### Model builder (`model_builder.h`)

`ModelBuilder` accumulates clauses.  `p_add` normalises the current clause
buffer (sort ascending, remove adjacent duplicates, tautology check) and
routes the result into the unary / binary / long clause buckets.  An empty
buffer throws `UNSATException`, modelled by `Option.none`. -/

/-- The state of a `sprop::ModelBuilder`: the next fresh positive literal,
the three clause buckets, and the current clause buffer. -/
structure ModelBuilder where
  currentLit : Nat
  unaryClauses : List Nat
  binaryClauses : List (List Nat)
  longerClauses : List (List Nat)
  currentClauseBuffer : List Nat
  deriving Repr, DecidableEq

namespace ModelBuilder

/-- A fresh, empty model builder. -/
def empty : ModelBuilder := ⟨0, [], [], [], []⟩

/-- `add_variable`: return `m_current_lit`, bump it by 2. -/
def add_variable (mb : ModelBuilder) : Nat × ModelBuilder :=
  (mb.currentLit, { mb with currentLit := mb.currentLit + 2 })

/-- Remove adjacent duplicates after a kept element `prev`
(the tail behaviour of `std::unique`). -/
def dedupAfter (prev : Nat) : List Nat → List Nat
  | [] => []
  | x :: xs => if x = prev then dedupAfter prev xs else x :: dedupAfter x xs

/-- `std::unique` on the whole buffer: keep the head, then drop adjacent
duplicates. -/
def uniqueAdjacent : List Nat → List Nat
  | [] => []
  | x :: xs => x :: dedupAfter x xs

/-- The tautology-check loop of `ModelBuilder::p_add`:
`prev` is initialised to the front of the buffer and — as in the source —
never updated inside the loop; each later element `cur` is compared
against `negate(prev)`. -/
def tautLoop (prev : Nat) : List Nat → Bool
  | [] => false
  | cur :: rest => if lit.negate prev = cur then true else tautLoop prev rest

/-- `p_add_binary(l1, l2)`: grow `m_binary_clauses` to `m_current_lit`
entries, then push `l2` onto list `l1` and `l1` onto list `l2`. -/
def p_add_binary (mb : ModelBuilder) (l1 l2 : Nat) : ModelBuilder :=
  let grown := mb.binaryClauses ++ List.replicate (mb.currentLit - mb.binaryClauses.length) []
  let after1 := grown.set l1 (grown.getD l1 [] ++ [l2])
  let after2 := after1.set l2 (after1.getD l2 [] ++ [l1])
  { mb with binaryClauses := after2 }

/-- `ModelBuilder::p_add`: finalise the current clause buffer.
Returns `none` when the buffer is empty (the `UNSATException` path). -/
def p_add (mb : ModelBuilder) : Option ModelBuilder :=
  if mb.currentClauseBuffer = [] then
    none
  else
    let sorted := mb.currentClauseBuffer.insertionSort (· ≤ ·)
    let buf := uniqueAdjacent sorted
    if tautLoop (buf.headD 0) buf.tail then
      -- clause is tautology: only the buffer is cleared
      some { mb with currentClauseBuffer := [] }
    else
      let newLit :=
        if mb.currentLit ≤ buf.getLastD 0
        then lit.absolute (buf.getLastD 0) + 2
        else mb.currentLit
      let mb := { mb with currentLit := newLit, currentClauseBuffer := [] }
      match buf with
      | [l] => some { mb with unaryClauses := mb.unaryClauses ++ [l] }
      | [l1, l2] => some (p_add_binary mb l1 l2)
      | _ => some { mb with longerClauses := mb.longerClauses ++ [buf] }

/-- `add_clause(range)`: append the literals to the buffer, then `p_add`. -/
def add_clause (mb : ModelBuilder) (lits : List Nat) : Option ModelBuilder :=
  p_add { mb with currentClauseBuffer := mb.currentClauseBuffer ++ lits }

/-- `add_literal(l)`: push one literal onto the current clause buffer. -/
def add_literal (mb : ModelBuilder) (l : Nat) : ModelBuilder :=
  { mb with currentClauseBuffer := mb.currentClauseBuffer ++ [l] }

/-- `finalize_clause()`: `p_add`. -/
def finalize_clause (mb : ModelBuilder) : Option ModelBuilder :=
  p_add mb

/-- The total number of clauses stored in the builder's buckets.  Binary
clauses are stored twice (once per endpoint), hence the halving used by
the count. -/
def clauseCount (mb : ModelBuilder) : Nat :=
  mb.unaryClauses.length +
    (mb.binaryClauses.map List.length).sum / 2 +
    mb.longerClauses.length

/-- The property used by the specification: after sorting and removing
adjacent duplicates, some adjacent pair is `l, negate l`. -/
def hasTautPair : List Nat → Prop
  | [] => False
  | [_] => False
  | a :: b :: rest => lit.negate a = b ∨ hasTautPair (b :: rest)

instance : DecidablePred hasTautPair := by
  intro l
  induction l with
  | nil => exact isFalse (by simp [hasTautPair])
  | cons a tl ih =>
    cases tl with
    | nil => exact isFalse (by simp [hasTautPair])
    | cons b rest =>
      unfold hasTautPair
      exact inferInstanceAs (Decidable (_ ∨ _))

end ModelBuilder

/-! ### Variable state (`propagator.h`, `detail::VariableState`)

The C++ stores `value_code` in a `std::int32_t`; we keep the 32 machine
bits as a `Nat < 2^32` (two's complement).  The sentinel `-1` (open) is
the all-ones word `mask32`. -/

/-- All-ones 32-bit word; the machine representation of `int32_t(-1)`
and of the `uint32_t` sentinel `NIL`. -/
def mask32 : Nat := 2 ^ 32 - 1

/-- `NIL = std::numeric_limits<std::uint32_t>::max()`. -/
def NIL : Nat := 2 ^ 32 - 1

/-- Interpret 32 machine bits as a signed `int32_t` value. -/
def toInt32 (x : Nat) : Int :=
  if x < 2 ^ 31 then (x : Int) else (x : Int) - 2 ^ 32

/-- 32-bit arithmetic right shift (`>>` on `int32_t`) on machine bits. -/
def asr32 (x k : Nat) : Nat :=
  if x < 2 ^ 31 then x >>> k else (x >>> k) + (2 ^ 32 - 2 ^ (32 - k))

/-- 32-bit bitwise complement (`~`) on machine bits. -/
def not32 (x : Nat) : Nat := mask32 - x % 2 ^ 32

/-- `detail::VariableState`: packed value code (32 machine bits),
conflict-analysis stamp, and trail position. -/
structure VariableState where
  valueCode : Nat := mask32
  stamp : Nat := 0
  trailPos : Nat := NIL
  deriving Repr, DecidableEq

namespace VariableState

/-- `VariableState::assign`: `value_code = (level << 1) + (ltrue & 1)`. -/
def assign (vs : VariableState) (tpos : Nat) (ltrue : Nat) (level : Nat) : VariableState :=
  { vs with valueCode := ((level <<< 1) + (ltrue &&& 1)) % 2 ^ 32, trailPos := tpos }

/-- `VariableState::level`: `value_code >> 1` (arithmetic shift). -/
def level (vs : VariableState) : Int := toInt32 (asr32 vs.valueCode 1)

/-- `VariableState::state`:
`(value_code >> 31) | (1 & (~int32(l) ^ value_code))`. -/
def state (vs : VariableState) (l : Nat) : Int :=
  toInt32 ((asr32 vs.valueCode 31) ||| (1 &&& (not32 l ^^^ vs.valueCode)))

/-- `VariableState::make_open`: `value_code = -1`. -/
def make_open (vs : VariableState) : VariableState :=
  { vs with valueCode := mask32 }

/-- `VariableState::is_open`: `value_code < 0`. -/
def is_open (vs : VariableState) : Bool := 2 ^ 31 ≤ vs.valueCode

/-- `VariableState::is_false(literal)`:
`~(value_code >> 31) & 1 & (int32(literal) ^ value_code)` as a boolean. -/
def is_false (vs : VariableState) (l : Nat) : Bool :=
  not32 (asr32 vs.valueCode 31) &&& 1 &&& ((l % 2 ^ 32) ^^^ vs.valueCode) ≠ 0

/-- `VariableState::is_true(literal)`:
`~(value_code >> 31) & 1 & (~int32(literal) ^ value_code)` as a boolean. -/
def is_true (vs : VariableState) (l : Nat) : Bool :=
  not32 (asr32 vs.valueCode 31) &&& 1 &&& (not32 l ^^^ vs.valueCode) ≠ 0

/-- `VariableState::is_open_or_true(literal)`:
`((value_code >> 31) | (~int32(literal) ^ value_code)) & 1` as a boolean. -/
def is_open_or_true (vs : VariableState) (l : Nat) : Bool :=
  ((asr32 vs.valueCode 31) ||| (not32 l ^^^ vs.valueCode)) &&& 1 ≠ 0

/-- Well-formedness of the packed value code: it is either the open
sentinel or a nonnegative `int32` (`(level << 1) | polarity`). -/
def WF (vs : VariableState) : Prop :=
  vs.valueCode = mask32 ∨ vs.valueCode < 2 ^ 31

end VariableState

/-! ### Stamp set (`stamp_set.h`)

`StampSet<Lit, std::uint16_t>` as used by the subsumption checker: an
array of 16-bit epoch stamps plus the current epoch.  Out-of-range
accesses of the C++ (`m_stamps[v]` with `v` past the end) are totalised
(`List.set` ignores them, `getD` reads `0`); the theorems below only use
in-range values. -/

structure StampSet where
  stamps : List Nat
  currentStamp : Nat
  deriving Repr, DecidableEq

namespace StampSet

/-- A fresh stamp set over a universe of the given size. -/
def init (universeSize : Nat) : StampSet :=
  ⟨List.replicate universeSize 0, 1⟩

/-- `StampSet::clear`: bump the 16-bit epoch; on wrap-around zero all
stamps and restart at epoch 1. -/
def clear (s : StampSet) : StampSet :=
  if (s.currentStamp + 1) % 2 ^ 16 = 0 then ⟨s.stamps.map (fun _ => 0), 1⟩
  else ⟨s.stamps, (s.currentStamp + 1) % 2 ^ 16⟩

/-- `StampSet::insert`: stamp element `v` with the current epoch. -/
def insert (s : StampSet) (v : Nat) : StampSet :=
  { s with stamps := s.stamps.set v s.currentStamp }

/-- `StampSet::count`: `v` is in the set iff its stamp equals the epoch. -/
def count (s : StampSet) (v : Nat) : Bool :=
  s.stamps.getD v 0 == s.currentStamp

/-- `StampSet::assign(begin, end)`: `clear` followed by inserting all. -/
def assign (s : StampSet) (lst : List Nat) : StampSet :=
  lst.foldl insert (clear s)

/-- Stamp-set well-formedness: all stamps at or below the current epoch,
which lies in `[1, 2^16)`. -/
def SWF (s : StampSet) : Prop :=
  (∀ x ∈ s.stamps, x ≤ s.currentStamp) ∧ 1 ≤ s.currentStamp ∧ s.currentStamp < 2 ^ 16

end StampSet

/-! ### Subsumption eliminator (`eliminate_subsumed.h`)

`SubsumptionChecker` keeps the clause list, a stamp set `m_in_clause`
over the `2n` literals, and one watch list of clause indices per literal.
`p_init_watches` reads `cl[0]` of every clause — an out-of-bounds access
when a clause is empty — so initialisation returns an `Option`. -/

/-- Append `x` to the `i`-th inner list (`m_watching_clauses[i].push_back(x)`). -/
def appendAt (ws : List (List Nat)) (i : Nat) (x : Nat) : List (List Nat) :=
  ws.set i (ws.getD i [] ++ [x])

/-- The state of a `SubsumptionChecker`. -/
structure SubChecker where
  clauses : List (List Nat)
  inClause : StampSet
  watching : List (List Nat)
  deriving Repr, DecidableEq

namespace SubChecker

/-- The loop body of `p_walk_watch_list`: walk the entries of one watch
list with an input iterator (the list argument) and an output region
`out`; candidates that fail to subsume are re-watched (appended to the
watch list of their replacement literal) and dropped from this list.
Returns the updated collection of other watch lists, the final output
region, and the subsumption flag. -/
def walkAux (clauses : List (List Nat)) (inCl : StampSet) (index : Nat) :
    List (List Nat) → List Nat → List Nat → (List (List Nat)) × List Nat × Bool
  | watching, out, [] => (watching, out, false)
  | watching, out, cother :: rest =>
    if cother = index then
      walkAux clauses inCl index watching (out ++ [cother]) rest
    else
      let otherLits := clauses.getD cother []
      if otherLits = [] then
        walkAux clauses inCl index watching out rest
      else
        match otherLits.find? (fun lx => !(inCl.count lx)) with
        | none => (watching, out ++ (cother :: rest), true)
        | some repl => walkAux clauses inCl index (appendAt watching repl cother) out rest

/-- `SubsumptionChecker::p_walk_watch_list(index, l)`. -/
def p_walk_watch_list (st : SubChecker) (index : Nat) (l : Nat) : SubChecker × Bool :=
  let (w', out, subsumed) :=
    walkAux st.clauses st.inClause index st.watching [] (st.watching.getD l [])
  ({ st with watching := w'.set l out }, subsumed)

/-- The literal loop of `p_empty_if_subsumed`: walk the watch list of
each literal of the clause; on subsumption clear the clause and stop. -/
def emptyLoop (st : SubChecker) (index : Nat) : List Nat → SubChecker
  | [] => st
  | l :: ls =>
    let res := p_walk_watch_list st index l
    if res.2 then { res.1 with clauses := res.1.clauses.set index [] }
    else emptyLoop res.1 index ls

/-- `SubsumptionChecker::p_empty_if_subsumed(index)`. -/
def p_empty_if_subsumed (st : SubChecker) (index : Nat) : SubChecker :=
  let clause := st.clauses.getD index []
  let st' := { st with inClause := st.inClause.assign clause }
  emptyLoop st' index clause

/-- The index loop of `remove_subsumed`. -/
def removeLoop (st : SubChecker) : Nat → SubChecker
  | 0 => st
  | n + 1 => removeLoop (p_empty_if_subsumed st (st.clauses.length - (n + 1))) n

/-- `SubsumptionChecker::remove_subsumed()`: process every clause index
in order, then erase the emptied clauses. -/
def remove_subsumed (st : SubChecker) : List (List Nat) :=
  ((removeLoop st st.clauses.length).clauses).filter (fun cl => !cl.isEmpty)

/-- `SubsumptionChecker::p_init_watches()`: watch each clause on its
first literal.  Reading `cl[0]` of an empty clause is out of bounds,
hence the `Option`. -/
def p_init_watches (watching : List (List Nat)) :
    List (List Nat) → Nat → Option (List (List Nat))
  | [], _ => some watching
  | cl :: cls, ci =>
    match cl with
    | [] => none
    | l0 :: _ => p_init_watches (appendAt watching l0 ci) cls (ci + 1)

/-- The `SubsumptionChecker` constructor. -/
def init (clauses : List (List Nat)) (nAll : Nat) : Option SubChecker := do
  let watching ← p_init_watches (List.replicate (2 * nAll) []) clauses 0
  pure ⟨clauses, StampSet.init (2 * nAll), watching⟩

end SubChecker

/-- `sprop::eliminate_subsumed(clauses, n_all)`. -/
def eliminate_subsumed (clauses : List (List Nat)) (nAll : Nat) :
    Option (List (List Nat)) :=
  (SubChecker.init clauses nAll).map SubChecker.remove_subsumed

/-! ### Correctness of the subsumption eliminator

Lemmas about one watch-list walk, one clause round, and the whole index
loop, leading to the contract of `eliminate_subsumed`. -/

/-- `a` is a subset of `b` as literal sets. -/
def listSubset (a b : List Nat) : Prop := ∀ x ∈ a, x ∈ b

instance (a b : List Nat) : Decidable (listSubset a b) := by
  unfold listSubset
  infer_instance

namespace SubChecker

/-- The state invariant of the subsumption run, relative to the original
clause list: clause slots hold their original value or are emptied; the
watch structure has the right shape; watch entries are clause indices;
every live clause is watched on one of its own literals. -/
def InvO (orig : List (List Nat)) (nAll : Nat) (st : SubChecker) : Prop :=
  st.clauses.length = orig.length ∧
  (∀ i, i < orig.length →
    st.clauses.getD i [] = orig.getD i [] ∨ st.clauses.getD i [] = []) ∧
  st.watching.length = 2 * nAll ∧
  st.inClause.stamps.length = 2 * nAll ∧
  st.inClause.SWF ∧
  (∀ l' j, j ∈ st.watching.getD l' [] → j < orig.length) ∧
  (∀ j, st.clauses.getD j [] ≠ [] →
    ∃ l'', l'' ∈ st.clauses.getD j [] ∧ j ∈ st.watching.getD l'' [])

end SubChecker

/-! ### Propagator engine (`propagator.h`)

The full state of a `sprop::Propagator`.  Loops whose termination in the
C++ rests on data-structure invariants take a fuel argument and return
`Option`; throwing paths (`std::invalid_argument`, `std::logic_error`)
are `none`.  The `AssignmentHandler` callbacks of the C++ never change
propagator state, so the embedding omits them. -/

/-- A watcher: blocker literal plus clause reference. -/
structure Watcher where
  blocker : Nat
  clause : Nat
  deriving Repr, DecidableEq

/-- `sprop::Reason`: a decision, a unary clause, a binary clause, or a
reference to a longer clause (with its cached length).  The C++ packs
these into a tagged union discriminated by `reason_length`. -/
inductive Reason where
  | decision : Reason
  | unary (lit : Nat) : Reason
  | binary (lit1 lit2 : Nat) : Reason
  | clause (length : Nat) (clause : Nat) : Reason
  deriving Repr, DecidableEq

namespace Reason

/-- `Reason::reason_length`. -/
def reason_length : Reason → Nat
  | decision => 0
  | unary _ => 1
  | binary _ _ => 2
  | clause len _ => len

end Reason

/-- `detail::LevelInfo`: the trail position where the level begins plus
a stamp. -/
structure LevelInfo where
  trailPos : Nat
  stamp : Nat := 0
  deriving Repr, DecidableEq

/-- The state of a `sprop::Propagator`. -/
structure PropState where
  unaryClauses : List Nat
  binaryClauses : List (List Nat)
  largeClauseDb : List Nat
  numVars : Nat
  vars : List VariableState
  watchers : List (List Watcher)
  trailLits : List Nat
  trailReasons : List Reason
  levels : List LevelInfo
  trailQueueHead : Nat
  conflictReason : Reason := Reason.decision
  conflictLit : Nat := NIL
  stampCounter : Nat := 0
  conflicting : Bool := false
  learnBuffer : List Nat := []
  deriving Repr, DecidableEq

namespace PropState

/-- The default (all-open) variable state used for out-of-range reads. -/
def defaultVar : VariableState := ⟨mask32, 0, NIL⟩

/-- `lits_of(clause)`: the literals of a long clause, read from the
arena: `length` slots starting at `clause`, with the length header at
`clause - 1`. -/
def lits_of (st : PropState) (clause : Nat) : List Nat :=
  (st.largeClauseDb.drop clause).take (st.largeClauseDb.getD (clause - 1) 0)

/-- `Reason::lits(db)`: the literals of a reason. -/
def reasonLits (st : PropState) : Reason → List Nat
  | Reason.decision => []
  | Reason.unary l => [l]
  | Reason.binary l1 l2 => [l1, l2]
  | Reason.clause _ cref => st.lits_of cref

/-- `clause_length(clause)`: the length header at `clause - 1`. -/
def clause_length (st : PropState) (clause : Nat) : Nat :=
  st.largeClauseDb.getD (clause - 1) 0

/-- `binary_partners_of(lit)`. -/
def binary_partners_of (st : PropState) (lit : Nat) : List Nat :=
  st.binaryClauses.getD lit []

/-- The stored state of the variable of literal `l`. -/
def varState (st : PropState) (l : Nat) : VariableState :=
  st.vars.getD (lit.var l) defaultVar

/-- `Propagator::value_of(literal)`. -/
def value_of (st : PropState) (literal : Nat) : Option Bool :=
  let s := (st.varState literal).state literal
  if s = 0 then some false
  else if s = 1 then some true
  else none

/-- `Propagator::is_true(literal)`. -/
def is_true (st : PropState) (literal : Nat) : Bool :=
  (st.varState literal).is_true literal

/-- `Propagator::is_false(literal)`. -/
def is_false (st : PropState) (literal : Nat) : Bool :=
  (st.varState literal).is_false literal

/-- `Propagator::is_open(literal)`. -/
def is_open (st : PropState) (literal : Nat) : Bool :=
  (st.varState literal).is_open

/-- `Propagator::is_open_or_true(literal)`. -/
def is_open_or_true (st : PropState) (literal : Nat) : Bool :=
  (st.varState literal).is_open_or_true literal

/-- `Propagator::is_conflicting()`. -/
def is_conflicting (st : PropState) : Bool := st.conflicting

/-- `Propagator::get_current_level()`: `levels.size() - 1`. -/
def get_current_level (st : PropState) : Nat := st.levels.length - 1

/-- `Propagator::get_decision_level(literal)`. -/
def get_decision_level (st : PropState) (literal : Nat) : Int :=
  (st.varState literal).level

/-- `Propagator::get_trail_index(lit)`. -/
def get_trail_index (st : PropState) (l : Nat) : Nat :=
  (st.varState l).trailPos

/-- Write back the state of the variable of literal `l`. -/
def setVarState (st : PropState) (l : Nat) (vs : VariableState) : PropState :=
  { st with vars := st.vars.set (lit.var l) vs }

/-- `p_assign_at(vstate, level, literal, reason)`: stamp the variable
with trail position, polarity and level, and push onto the trail. -/
def p_assign_at (st : PropState) (level : Nat) (literal : Nat) (reason : Reason) :
    PropState :=
  let vs := (st.varState literal).assign st.trailLits.length literal level
  { st.setVarState literal vs with
      trailLits := st.trailLits ++ [literal],
      trailReasons := st.trailReasons ++ [reason] }

/-- `p_reset_conflict()`. -/
def p_reset_conflict (st : PropState) : PropState :=
  { st with conflicting := false, conflictLit := NIL, conflictReason := Reason.decision }

/-- `p_propagate_binary(lfalse, other, level)`: returns the updated
state and `false` on conflict. -/
def p_propagate_binary (st : PropState) (lfalse other : Nat) (level : Nat) :
    PropState × Bool :=
  let vs := st.varState other
  if vs.is_open then
    (st.p_assign_at level other (Reason.binary lfalse other), true)
  else if vs.is_false other then
    ({ st with
        conflicting := true
        conflictReason := Reason.binary lfalse other
        conflictLit := other }, false)
  else
    (st, true)

/-- The partner loop of `p_propagate_through_binaries`. -/
def binWalk (lfalse : Nat) (level : Nat) : PropState → List Nat → PropState × Bool
  | st, [] => (st, true)
  | st, other :: rest =>
    let res := st.p_propagate_binary lfalse other level
    if res.2 then binWalk lfalse level res.1 rest
    else res

/-- `p_propagate_through_binaries(ltrue)`. -/
def p_propagate_through_binaries (st : PropState) (ltrue : Nat) : PropState × Bool :=
  let lfalse := lit.negate ltrue
  binWalk lfalse (st.levels.length - 1) st (st.binary_partners_of lfalse)

/-- Append a watcher to the watch list of literal `l`. -/
def pushWatcher (st : PropState) (l : Nat) (w : Watcher) : PropState :=
  { st with watchers := st.watchers.set l (st.watchers.getD l [] ++ [w]) }

/-- One step of the two-watched-literal walk of
`p_propagate_through_longer`; recursion over the snapshot of the watch
list of `lfalse`, with `out` the surviving watchers.  Mirrors the C++
in/out iterator loop; on conflict the remaining watchers are copied and
the walk stops. -/
def longWalk (lfalse : Nat) (level : Nat) :
    PropState → List Watcher → List Watcher → PropState × List Watcher
  | st, out, [] => (st, out)
  | st, out, w :: rest =>
    if st.is_true w.blocker then
      longWalk lfalse level st (out ++ [w]) rest
    else
      let clause := w.clause
      let len := st.largeClauseDb.getD (clause - 1) 0
      -- make it so lfalse is in lit_array[1]
      let db :=
        if st.largeClauseDb.getD clause 0 = lfalse then
          (st.largeClauseDb.set clause (st.largeClauseDb.getD (clause + 1) 0)).set
            (clause + 1) lfalse
        else st.largeClauseDb
      let st := { st with largeClauseDb := db }
      let first := st.largeClauseDb.getD clause 0
      let newWatcher : Watcher := ⟨first, clause⟩
      let firstState := st.varState first
      if first ≠ w.blocker ∧ firstState.is_true first then
        longWalk lfalse level st (out ++ [newWatcher]) rest
      else
        -- search literals[2..] for an open or true literal
        match (List.range (len - 2)).find? (fun k =>
            st.is_open_or_true (st.largeClauseDb.getD (clause + 2 + k) 0)) with
        | some k =>
          let repl := st.largeClauseDb.getD (clause + 2 + k) 0
          let db' := (st.largeClauseDb.set (clause + 1) repl).set (clause + 2 + k) lfalse
          let st := st.pushWatcher repl newWatcher
          let st := { st with largeClauseDb := db' }
          longWalk lfalse level st out rest
        | none =>
          -- clause is unit on `first`
          let reason := Reason.clause len clause
          if firstState.is_false first then
            ({ st with
                conflicting := true
                conflictLit := first
                conflictReason := reason }, out ++ [newWatcher] ++ rest)
          else
            longWalk lfalse level (st.p_assign_at level first reason)
              (out ++ [newWatcher]) rest

/-- `p_propagate_through_longer(ltrue)`: walk and compact the watch list
of `negate(ltrue)`; returns `false` iff a conflict was recorded. -/
def p_propagate_through_longer (st : PropState) (ltrue : Nat) : PropState × Bool :=
  let lfalse := lit.negate ltrue
  let level := st.levels.length - 1
  let res := longWalk lfalse level st [] (st.watchers.getD lfalse [])
  let st' := { res.1 with watchers := res.1.watchers.set lfalse res.2 }
  (st', !st'.conflicting)

/-- `p_propagate(ltrue)`. -/
def p_propagate (st : PropState) (ltrue : Nat) : PropState × Bool :=
  let res := st.p_propagate_through_binaries ltrue
  if res.2 then res.1.p_propagate_through_longer ltrue
  else res

/-- `Propagator::propagate()`: drain the trail queue; fuel bounds the
number of loop iterations (in valid states `trail length + num_vars`
iterations suffice). -/
def propagate : Nat → PropState → Option (Bool × PropState)
  | 0, _ => none
  | fuel + 1, st =>
    if st.conflicting then some (false, st)
    else if st.trailQueueHead < st.trailLits.length then
      let prop := st.trailLits.getD st.trailQueueHead 0
      let st := { st with trailQueueHead := st.trailQueueHead + 1 }
      let res := st.p_propagate prop
      if res.2 then propagate fuel res.1
      else some (false, res.1)
    else some (true, st)

/-- `Propagator::push_level(decision)`: `none` models the
`std::invalid_argument` thrown when the decision variable is assigned.
Note that — unlike the specification — the source does not reject calls
on a conflicting propagator. -/
def push_level (fuel : Nat) (st : PropState) (decision : Nat) :
    Option (Bool × PropState) :=
  if (st.varState decision).is_open then
    let tpos := st.trailLits.length
    let newLevel := st.levels.length
    let st := { st with levels := st.levels ++ [(⟨tpos, 0⟩ : LevelInfo)] }
    let st := st.p_assign_at newLevel decision Reason.decision
    propagate fuel st
  else
    none

/-- Unassign the variables of the given literals, in the given order
(`variables[lit::var(l)].make_open()`). -/
def undoLits (vars0 : List VariableState) : List Nat → List VariableState
  | [] => vars0
  | l :: ls => undoLits (vars0.set (lit.var l) ((vars0.getD (lit.var l) defaultVar).make_open)) ls

/-- `p_rollback_level`: unassign the top level's trail range (in reverse
order), truncate trail and reasons, pop the level.  The handler
callbacks do not change propagator state and are omitted. -/
def p_rollback_level (st : PropState) : PropState :=
  let beginPos := (st.levels.getLastD ⟨0, 0⟩).trailPos
  if beginPos = 0 then
    { st with
        vars := undoLits st.vars st.trailLits.reverse,
        trailLits := [],
        trailReasons := [],
        levels := st.levels.dropLast }
  else
    { st with
        vars := undoLits st.vars (st.trailLits.drop beginPos).reverse,
        trailLits := st.trailLits.take beginPos,
        trailReasons := st.trailReasons.take beginPos,
        levels := st.levels.dropLast }

/-- `Propagator::pop_level()`: `none` models the `std::invalid_argument`
thrown at level 0. -/
def pop_level (st : PropState) : Option PropState :=
  if st.levels.length = 1 then
    none
  else
    let st := st.p_rollback_level
    let st := { st with trailQueueHead := st.trailLits.length }
    some (if st.conflicting then st.p_reset_conflict else st)

/-- `p_increase_stamp()`: bump by 3, zeroing all variable and level
stamps shortly before the 32-bit counter would wrap. -/
def p_increase_stamp (st : PropState) : Nat × PropState :=
  let st :=
    if st.stampCounter ≥ (2 ^ 32 - 1) - 6 then
      { st with
          vars := st.vars.map (fun vs => { vs with stamp := 0 })
          levels := st.levels.map (fun li => { li with stamp := 0 })
          stampCounter := 0 }
    else st
  (st.stampCounter + 3, { st with stampCounter := st.stampCounter + 3 })

/-- `p_stamp_level(level)`. -/
def p_stamp_level (st : PropState) (level : Nat) : PropState :=
  let li := st.levels.getD level ⟨0, 0⟩
  let li' :=
    if li.stamp < st.stampCounter then { li with stamp := st.stampCounter }
    else { li with stamp := st.stampCounter + 1 }
  { st with levels := st.levels.set level li' }

/-- Overwrite the stamp of variable `v`. -/
def setVarStamp (st : PropState) (v : Nat) (s : Nat) : PropState :=
  { st with vars := st.vars.set v { st.vars.getD v defaultVar with stamp := s } }

/-- The literal loop of `p_stamp_and_count(level, literals)`: stamp the
literals of a reason, counting the current-level ones and pushing
lower-level ones into the learn buffer. -/
def stampAndCountLoop (level : Nat) : PropState → Nat → List Nat → PropState × Nat
  | st, count, [] => (st, count)
  | st, count, l :: ls =>
    let v := lit.var l
    let vs := st.vars.getD v defaultVar
    let vlvl := vs.level
    if vlvl ≥ (level : Int) then
      if vs.stamp ≥ st.stampCounter then
        stampAndCountLoop level st count ls
      else
        stampAndCountLoop level (st.setVarStamp v st.stampCounter) (count + 1) ls
    else
      if vlvl ≤ 0 then
        stampAndCountLoop level st count ls
      else
        if vs.stamp < st.stampCounter then
          let st := st.p_stamp_level vlvl.toNat
          let st := { st with learnBuffer := st.learnBuffer ++ [l] }
          stampAndCountLoop level (st.setVarStamp v st.stampCounter) count ls
        else
          stampAndCountLoop level st count ls

/-- `p_stamp_and_count(level, reason)`. -/
def p_stamp_and_count (st : PropState) (level : Nat) (reason : Reason) :
    PropState × Nat :=
  stampAndCountLoop level st 0 (st.reasonLits reason)

mutual

/-- `p_is_redundant(v)`: recursive redundancy check through the reason
graph, caching results in the variable stamps.  Fuel bounds recursion
depth.  Note that the source copies `variables[rv]` by value into `rvs`,
so its `rvs.stamp_with(stamp_counter + 2)` write is lost; the embedding
mirrors this by not writing. -/
def p_is_redundant : Nat → PropState → Nat → Option (Bool × PropState)
  | 0, _, _ => none
  | fuel + 1, st, v =>
    let vs := st.vars.getD v defaultVar
    if vs.stamp = st.stampCounter + 1 then some (true, st)
    else if vs.stamp = st.stampCounter + 2 then some (false, st)
    else
      let tloc := vs.trailPos
      let r := st.trailReasons.getD tloc Reason.decision
      if r.reason_length = 0 then
        some (false, st.setVarStamp v (st.stampCounter + 2))
      else
        match redundantLoop fuel v st (st.reasonLits r) with
        | none => none
        | some (true, st') => some (true, st'.setVarStamp v (st'.stampCounter + 1))
        | some (false, st') => some (false, st')

/-- The reason-literal loop inside `p_is_redundant`. -/
def redundantLoop : Nat → Nat → PropState → List Nat → Option (Bool × PropState)
  | _, _, st, [] => some (true, st)
  | fuel, v, st, rl :: rest =>
    let rv := lit.var rl
    if rv = v then redundantLoop fuel v st rest
    else
      let rlvl := (st.vars.getD rv defaultVar).level
      if rlvl = 0 then redundantLoop fuel v st rest
      else
        let rs := (st.vars.getD rv defaultVar).stamp
        if rs = st.stampCounter + 2 then some (false, st)
        else if rs < st.stampCounter then
          if (st.levels.getD rlvl.toNat ⟨0, 0⟩).stamp < st.stampCounter then
            some (false, st)
          else
            match p_is_redundant fuel st rv with
            | none => none
            | some (true, st') => redundantLoop fuel v st' rest
            | some (false, st') => some (false, st')
        else redundantLoop fuel v st rest

end

/-- The `remove_if` filter of `p_filter_redundancies`, applied to the
learn-buffer tail; `p_is_redundant` mutates stamps as it runs. -/
def filterRedLoop (fuel : Nat) : PropState → List Nat → Option (PropState × List Nat)
  | st, [] => some (st, [])
  | st, l :: ls =>
    let v := lit.var l
    let vlvl := (st.vars.getD v defaultVar).level
    if vlvl = 0 then
      filterRedLoop fuel st ls
    else if (st.levels.getD vlvl.toNat ⟨0, 0⟩).stamp ≠ st.stampCounter + 1 then
      match filterRedLoop fuel st ls with
      | none => none
      | some (st', kept) => some (st', l :: kept)
    else
      match p_is_redundant fuel st v with
      | none => none
      | some (true, st') => filterRedLoop fuel st' ls
      | some (false, st') =>
        match filterRedLoop fuel st' ls with
        | none => none
        | some (st'', kept) => some (st'', l :: kept)

/-- Swap the first and last elements of a non-empty list
(`std::swap(learn_buffer.back(), learn_buffer.front())`). -/
def swapFrontBack (l : List Nat) : List Nat :=
  (l.set 0 (l.getLastD 0)).set (l.length - 1) (l.headD 0)

/-- `p_filter_redundancies()`: move the conflict-level literal to the
front, then drop redundant literals from the rest of the buffer. -/
def p_filter_redundancies (fuel : Nat) (st : PropState) : Option PropState :=
  let buf := swapFrontBack st.learnBuffer
  let st := { st with learnBuffer := buf }
  match filterRedLoop fuel st buf.tail with
  | none => none
  | some (st', kept) => some { st' with learnBuffer := buf.headD 0 :: kept }

/-- The backward trail walk of `p_compute_conflict_clause`: starting
from the end of the trail, expand stamped literals until only one
stamped literal of the current level remains.  Walks the reversed trail
and reason lists; running past the beginning of the trail (undefined
behaviour in the C++) yields `none`. -/
def conflictWalk (level : Nat) :
    PropState → Nat → List Nat → List Reason → Option (PropState × List Nat × List Reason)
  | st, onCurrentLevel, [], reasonsRev =>
    if onCurrentLevel ≤ 1 then some (st, [], reasonsRev) else none
  | st, onCurrentLevel, l :: trailRev', reasonsRev =>
    if onCurrentLevel ≤ 1 then some (st, l :: trailRev', reasonsRev)
    else
      match reasonsRev with
      | [] => none
      | r :: reasonsRev' =>
        let v := lit.var l
        if (st.vars.getD v defaultVar).stamp ≥ st.stampCounter then
          let res := stampAndCountLoop level st 0 (st.reasonLits r)
          conflictWalk level res.1 (onCurrentLevel + res.2 - 1) trailRev' reasonsRev'
        else
          conflictWalk level st onCurrentLevel trailRev' reasonsRev'

/-- The second backward scan of `p_compute_conflict_clause`: find the
UIP, the next stamped literal going down the trail. -/
def findUIP (st : PropState) : List Nat → Option Nat
  | [] => none
  | l :: trailRev' =>
    if (st.vars.getD (lit.var l) defaultVar).stamp ≥ st.stampCounter then some l
    else findUIP st trailRev'

/-- `p_compute_conflict_clause()`: stamp the conflict reason, walk the
trail backwards to the first UIP, push its negation, and minimise. -/
def p_compute_conflict_clause (fuel : Nat) (st : PropState) : Option PropState := do
  let (_, st) := st.p_increase_stamp
  let level := st.levels.length - 1
  let res := stampAndCountLoop level st 0 (st.reasonLits st.conflictReason)
  let st := res.1
  let onCurrentLevel := res.2
  let (st, trailRev, _) ← conflictWalk level st onCurrentLevel
    st.trailLits.reverse st.trailReasons.reverse
  let uip ← findUIP st trailRev
  let st := { st with learnBuffer := st.learnBuffer ++ [lit.negate uip] }
  p_filter_redundancies fuel st

/-- `p_target_level()`: the maximal level among the non-UIP literals of
the learn buffer, together with the literal at that level. -/
def p_target_level (st : PropState) : Nat × Nat :=
  st.learnBuffer.tail.foldl
    (fun acc l =>
      let lvl := (st.vars.getD (lit.var l) defaultVar).level
      if lvl > (acc.1 : Int) then (lvl.toNat, l) else acc)
    (0, st.learnBuffer.headD 0)

/-- The rollback loop of `p_jumpback_to_target`:
`while (levels.size() > tlvl + 1) p_rollback_level(...)`. -/
def rollbackTo (tlvl : Nat) : Nat → PropState → PropState
  | 0, st => st
  | fuel + 1, st =>
    if tlvl + 1 < st.levels.length then rollbackTo tlvl fuel st.p_rollback_level
    else st

/-- `p_jumpback_to_target(handler)`: pick the target, roll back the
conflict level and all levels above the target, reset the queue head. -/
def p_jumpback_to_target (st : PropState) : (Nat × Nat) × PropState :=
  let t := st.p_target_level
  let st := st.p_rollback_level
  let st := rollbackTo t.1 st.levels.length st
  let st := { st with trailQueueHead := st.trailLits.length }
  (t, st)

/-- `p_insert_conflict_clause()`: route the learnt clause into the
unary store, the binary partner lists, or the long-clause arena;
returns `NIL` except for long clauses. -/
def p_insert_conflict_clause (st : PropState) : Nat × PropState :=
  match st.learnBuffer with
  | [l] => (NIL, { st with unaryClauses := st.unaryClauses ++ [l] })
  | [l1, l2] =>
    let b1 := st.binaryClauses.set l1 (st.binaryClauses.getD l1 [] ++ [l2])
    let b2 := b1.set l2 (b1.getD l2 [] ++ [l1])
    (NIL, { st with binaryClauses := b2 })
  | buf =>
    let ref := st.largeClauseDb.length + 1
    (ref, { st with largeClauseDb := st.largeClauseDb ++ [buf.length] ++ buf })

/-- `p_new_watch(learnt, target_lit, clause)`: swap the target literal
into position 1 and add the two watchers.  `none` models the failed
`assert`/out-of-bounds search when the target literal is absent. -/
def p_new_watch (st : PropState) (learnt target : Nat) (clause : Nat) :
    Option PropState :=
  let len := st.largeClauseDb.getD (clause - 1) 0
  match (List.range (len - 1)).find? (fun k =>
      st.largeClauseDb.getD (clause + 1 + k) 0 = target) with
  | none => none
  | some k =>
    let other := clause + 1 + k
    let db := (st.largeClauseDb.set (clause + 1) (st.largeClauseDb.getD other 0)).set
      other (st.largeClauseDb.getD (clause + 1) 0)
    let st := { st with largeClauseDb := db }
    let st := st.pushWatcher learnt ⟨target, clause⟩
    some (st.pushWatcher target ⟨learnt, clause⟩)

/-- `p_handle_conflict_clause(handler)`: insert the learnt clause, jump
back, assert the learnt literal with the right reason, install watches
for long learnt clauses, and clear the buffer. -/
def p_handle_conflict_clause (st : PropState) : Option PropState := do
  let (crefIfLong, st) := st.p_insert_conflict_clause
  let ((tlvl, tlit), st) := st.p_jumpback_to_target
  let learned := st.learnBuffer.headD 0
  let len := st.learnBuffer.length
  let st' ←
    match st.learnBuffer with
    | [_] => pure (st.p_assign_at tlvl learned (Reason.unary learned))
    | [_, l2] => pure (st.p_assign_at tlvl learned (Reason.binary learned l2))
    | _ => do
      let st := st.p_assign_at tlvl learned (Reason.clause len crefIfLong)
      st.p_new_watch learned tlit crefIfLong
  pure { st' with learnBuffer := [] }

/-- `Propagator::resolve_conflicts()` (with the trivial handler, whose
callbacks do not affect propagator state).  The outer fuel bounds the
number of conflicts handled; the inner fuels bound propagation and the
redundancy recursion. -/
def resolve_conflicts : Nat → PropState → Option (Bool × PropState)
  | 0, _ => none
  | fuel + 1, st =>
    if !st.conflicting then some (true, st)
    else if st.levels.length = 1 then some (false, st)
    else do
      let st ← p_compute_conflict_clause (fuel + 1 + st.trailLits.length) st
      let st ← st.p_handle_conflict_clause
      let st := st.p_reset_conflict
      match ← propagate (st.trailLits.length + st.numVars + 1) st with
      | (true, st') => some (true, st')
      | (false, st') => resolve_conflicts fuel st'

/-- `p_assign_at_0(forced_true)`: assign the literal at level 0,
returning `false` when the literal is already false. -/
def p_assign_at_0 (st : PropState) (forced_true : Nat) : PropState × Bool :=
  let vs := st.varState forced_true
  if vs.is_open then
    ({ st.setVarState forced_true (vs.assign st.trailLits.length forced_true 0) with
        trailLits := st.trailLits ++ [forced_true]
        trailReasons := st.trailReasons ++ [Reason.unary forced_true] }, true)
  else if vs.is_false forced_true then
    ({ st with conflicting := true }, false)
  else
    (st, true)

/-- The loop of `p_init_unaries`. -/
def initUnariesLoop : PropState → List Nat → PropState
  | st, [] => st
  | st, l :: ls =>
    let res := st.p_assign_at_0 l
    if res.2 then initUnariesLoop res.1 ls
    else { res.1 with conflicting := true }

/-- `p_init_unaries()`. -/
def p_init_unaries (st : PropState) : PropState :=
  initUnariesLoop st st.unaryClauses

/-- The partner loop of `p_init_binary_watches`. -/
def binaryWatchInner : PropState → List Nat → PropState × Bool
  | st, [] => (st, true)
  | st, partner :: rest =>
    let st := { st with unaryClauses := st.unaryClauses ++ [partner] }
    let res := st.p_assign_at_0 partner
    if res.2 then binaryWatchInner res.1 rest else (res.1, false)

/-- The literal loop of `p_init_binary_watches`. -/
def binaryWatchOuter : PropState → List Nat → PropState
  | st, [] => st
  | st, l :: ls =>
    if (st.varState l).is_false l then
      let res := binaryWatchInner st (st.binary_partners_of l)
      if res.2 then binaryWatchOuter res.1 ls else res.1
    else binaryWatchOuter st ls

/-- `p_init_binary_watches()`: iterate over `all_literals()`. -/
def p_init_binary_watches (st : PropState) : PropState :=
  binaryWatchOuter st (List.range (2 * st.numVars))

/-- The literal scan of `p_new_long_clause_on_construction`: the first
two open positions of the clause, or `none` if some literal is true. -/
def clauseScanLoop (st : PropState) (clause : Nat) :
    List Nat → List Nat → Option (List Nat)
  | acc, [] => some acc
  | acc, k :: ks =>
    let l := st.largeClauseDb.getD (clause + k) 0
    let s := (st.varState l).state l
    if s = -1 then
      if acc.length < 2 then clauseScanLoop st clause (acc ++ [k]) ks
      else clauseScanLoop st clause acc ks
    else if s = 1 then none
    else clauseScanLoop st clause acc ks

/-- `std::swap` of two arena positions. -/
def swapDb (db : List Nat) (i j : Nat) : List Nat :=
  (db.set i (db.getD j 0)).set j (db.getD i 0)

/-- `p_new_long_clause_on_construction(ref, literals)`. -/
def p_new_long_clause_on_construction (st : PropState) (ref : Nat) : PropState :=
  let len := st.clause_length ref
  match clauseScanLoop st ref [] (List.range len) with
  | none => st
  | some [] =>
    { st with conflicting := true, conflictReason := Reason.clause len ref }
  | some [k] =>
    let forced := st.largeClauseDb.getD (ref + k) 0
    let st := { st with unaryClauses := st.unaryClauses ++ [forced] }
    (st.p_assign_at_0 forced).1
  | some (k1 :: k2 :: _) =>
    let db1 := swapDb st.largeClauseDb (ref + k1) ref
    let db2 := swapDb db1 (ref + k2) (ref + 1)
    let st := { st with largeClauseDb := db2 }
    let w1 := st.largeClauseDb.getD ref 0
    let w2 := st.largeClauseDb.getD (ref + 1) 0
    (st.pushWatcher w1 ⟨w2, ref⟩).pushWatcher w2 ⟨w1, ref⟩

/-- The clause loop of `p_init_watches`
(`for ref = first_longer_clause(); ref < longer_clause_end(); ...`). -/
def initLongLoop : Nat → PropState → Nat → PropState
  | 0, st, _ => st
  | fuel + 1, st, ref =>
    if ref < st.largeClauseDb.length + 1 then
      let st := st.p_new_long_clause_on_construction ref
      if st.conflicting then st
      else initLongLoop fuel st (ref + st.clause_length ref + 1)
    else st

/-- `p_init_watches()` of the propagator constructor. -/
def p_init_watches (st : PropState) : PropState :=
  let st := st.p_init_unaries
  if st.conflicting then st
  else
    let st := { st with watchers := List.replicate (2 * st.numVars) [] }
    let st := initLongLoop (st.largeClauseDb.length + 1) st 1
    if st.conflicting then st
    else st.p_init_binary_watches

/-- `std::vector::resize` on the binary-partner table. -/
def resizeTo (n : Nat) (xs : List (List Nat)) : List (List Nat) :=
  xs.take n ++ List.replicate (n - xs.length) []

/-- `p_process_short_clauses()`: sort and deduplicate each partner
list, then resize the table to `2 * num_vars`. -/
def p_process_short_clauses (st : PropState) : PropState :=
  { st with
      binaryClauses :=
        resizeTo (st.numVars * 2)
          (st.binaryClauses.map
            (fun l => ModelBuilder.uniqueAdjacent (l.insertionSort (· ≤ ·)))) }

/-- `p_import_large_clauses(clauses)`: append each clause to the arena
behind its length header. -/
def p_import_large_clauses (st : PropState) (clauses : List (List Nat)) :
    PropState :=
  { st with
      largeClauseDb :=
        st.largeClauseDb ++ (clauses.map (fun c => c.length :: c)).flatten }

/-- `Propagator::Propagator(const ModelBuilder&)`: initialise the state
from the model, build the watch structures, and (when construction did
not already conflict) run the initial propagation. -/
def construct (model : ModelBuilder) : Option PropState :=
  let nv := model.currentLit / 2
  let st0 : PropState :=
    { unaryClauses := model.unaryClauses
      binaryClauses := model.binaryClauses
      largeClauseDb := []
      numVars := nv
      vars := List.replicate nv defaultVar
      watchers := []
      trailLits := []
      trailReasons := []
      levels := [⟨0, 0⟩]
      trailQueueHead := 0 }
  let st := st0.p_process_short_clauses
  let st := st.p_import_large_clauses model.longerClauses
  let st := st.p_init_watches
  if st.conflicting then some st
  else
    match propagate (st.trailLits.length + st.numVars + 1) st with
    | none => none
    | some (_, st') => some st'

/-- The propagator states reachable by legal API usage: construction
from a model followed by any sequence of `push_level`, `pop_level`,
`propagate` and `resolve_conflicts` calls that did not hit an error. -/
inductive Reachable : PropState → Prop where
  | init : ∀ (model : ModelBuilder) (st : PropState),
      PropState.construct model = some st → Reachable st
  | push : ∀ (st : PropState) (fuel d : Nat) (b : Bool) (st' : PropState),
      Reachable st → PropState.push_level fuel st d = some (b, st') → Reachable st'
  | pop : ∀ (st st' : PropState),
      Reachable st → PropState.pop_level st = some st' → Reachable st'
  | prop : ∀ (st : PropState) (fuel : Nat) (b : Bool) (st' : PropState),
      Reachable st → PropState.propagate fuel st = some (b, st') → Reachable st'
  | resolve : ∀ (st : PropState) (fuel : Nat) (b : Bool) (st' : PropState),
      Reachable st → PropState.resolve_conflicts fuel st = some (b, st') →
      Reachable st'

/-- Fields of the propagator state that propagation leaves stable
(levels, variable count) or only extends in lockstep (trail and
reasons); the queue head may advance. -/
def PropExt (st st' : PropState) : Prop :=
  (∃ e f, st'.trailLits = st.trailLits ++ e ∧
          st'.trailReasons = st.trailReasons ++ f ∧ e.length = f.length) ∧
  st'.levels = st.levels ∧
  st'.numVars = st.numVars ∧
  st'.vars.length = st.vars.length

/-- `PropExt` plus an unchanged queue head: what a single
`p_propagate(lit)` call guarantees. -/
def StableExt (st st' : PropState) : Prop :=
  PropExt st st' ∧ st'.trailQueueHead = st.trailQueueHead

/-- Fields conflict analysis (stamping, redundancy filtering) leaves
unchanged: it writes only stamps, the stamp counter and the learn
buffer. -/
def AnalysisEq (st st' : PropState) : Prop :=
  st'.trailLits = st.trailLits ∧
  st'.trailReasons = st.trailReasons ∧
  st'.levels.length = st.levels.length ∧
  st'.trailQueueHead = st.trailQueueHead ∧
  st'.numVars = st.numVars ∧
  st'.vars.length = st.vars.length ∧
  st'.conflicting = st.conflicting

end PropState

/-- A tiny two-variable propagator state used to witness the variable
state trichotomy: variable 0 open, variable 1 assigned true at level 2. -/
def stateWitness : PropState :=
  { unaryClauses := []
    binaryClauses := []
    largeClauseDb := []
    numVars := 2
    vars := [PropState.defaultVar, ⟨4, 0, 0⟩]
    watchers := []
    trailLits := [2]
    trailReasons := [Reason.unary 2]
    levels := [⟨0, 0⟩]
    trailQueueHead := 1 }

/-- A conflicting one-variable state whose only variable is open: the
input for the `push_level` conflict-check counterexample. -/
def c3state : PropState :=
  { unaryClauses := []
    binaryClauses := []
    largeClauseDb := []
    numVars := 1
    vars := [PropState.defaultVar]
    watchers := []
    trailLits := []
    trailReasons := []
    levels := [⟨0, 0⟩]
    trailQueueHead := 0
    conflicting := true }

/-- A non-conflicting one-variable state with no clauses, used to
exercise the successful branch of `push_level`. -/
def c3wit : PropState :=
  { unaryClauses := []
    binaryClauses := []
    largeClauseDb := []
    numVars := 1
    vars := [PropState.defaultVar]
    watchers := []
    trailLits := []
    trailReasons := []
    levels := [⟨0, 0⟩]
    trailQueueHead := 0 }

/-- The state after pushing decision literal `0` on `c3wit`. -/
def c3wout : PropState := ((PropState.push_level 2 c3wit 0).getD (false, c3wit)).2

/-- A two-variable, level-0 state with binary clauses `(1 ∨ 2)` and
`(1 ∨ 3)` (in literal encoding): deciding literal `0` propagates `2`
and then conflicts on `3`. -/
def c10st : PropState :=
  { unaryClauses := []
    binaryClauses := [[], [2, 3], [1], [1]]
    largeClauseDb := []
    numVars := 2
    vars := [PropState.defaultVar, PropState.defaultVar]
    watchers := [[], [], [], []]
    trailLits := []
    trailReasons := []
    levels := [⟨0, 0⟩]
    trailQueueHead := 0 }

/-- The conflicting state reached by pushing decision literal `0` on
`c10st`. -/
def c10out : PropState := ((PropState.push_level 3 c10st 0).getD (true, c10st)).2

/-- A one-variable, clause-free, level-0 state for the push/pop
roundtrip witness. -/
def c6st : PropState :=
  { unaryClauses := []
    binaryClauses := []
    largeClauseDb := []
    numVars := 1
    vars := [PropState.defaultVar]
    watchers := []
    trailLits := []
    trailReasons := []
    levels := [⟨0, 0⟩]
    trailQueueHead := 0 }

/-- The state after pushing decision literal `0` on `c6st`. -/
def c6out1 : PropState := ((PropState.push_level 2 c6st 0).getD (false, c6st)).2

/-- A two-variable conflicting state at level 1: the decision `0`
propagated `2` through the binary clause `(1 ∨ 2)` and then conflicted
on `(1 ∨ 3)`. -/
def c2state : PropState :=
  { unaryClauses := []
    binaryClauses := [[], [2, 3], [1], [1]]
    largeClauseDb := []
    numVars := 2
    vars := [⟨2, 0, 0⟩, ⟨2, 0, 1⟩]
    watchers := [[], [], [], []]
    trailLits := [0, 2]
    trailReasons := [Reason.decision, Reason.binary 1 2]
    levels := [⟨0, 0⟩, ⟨0, 0⟩]
    trailQueueHead := 2
    conflictReason := Reason.binary 1 3
    conflictLit := 3
    conflicting := true }

/-- The state after resolving the conflict of `c2state`. -/
def c2out : PropState :=
  ((PropState.resolve_conflicts 3 c2state).getD (false, c2state)).2

/-- A one-variable, clause-free model for the reachability witness. -/
def c8model : ModelBuilder :=
  { currentLit := 2
    unaryClauses := []
    binaryClauses := []
    longerClauses := []
    currentClauseBuffer := [] }

/-- The propagator constructed from `c8model`. -/
def c8state : PropState :=
  (PropState.construct c8model).getD
    { unaryClauses := []
      binaryClauses := []
      largeClauseDb := []
      numVars := 0
      vars := []
      watchers := []
      trailLits := []
      trailReasons := []
      levels := []
      trailQueueHead := 1 }

/-- The state after an explicit `propagate()` call on `c8state`. -/
def c8out : PropState :=
  ((PropState.propagate 2 c8state).getD (false, c8state)).2

/-! ### Theorems -/

namespace lit

theorem negate_two_mul (k : Nat) : negate (2 * k) = 2 * k + 1 := by
  have h := Nat.xor_bit false k true 0
  simpa [negate, Nat.bit] using h

theorem negate_two_mul_add_one (k : Nat) : negate (2 * k + 1) = 2 * k := by
  have h := Nat.xor_bit true k true 0
  simpa [negate, Nat.bit] using h

theorem negate_eq (l : Nat) : negate l = if l % 2 = 0 then l + 1 else l - 1 := by
  rcases Nat.even_or_odd l with ⟨k, hk⟩ | ⟨k, hk⟩
  · have hk' : l = 2 * k := by omega
    subst hk'
    simp [negate_two_mul, Nat.mul_mod_right]
  · subst hk
    rw [negate_two_mul_add_one]
    simp [Nat.add_mod, Nat.mul_mod_right]

theorem var_negate (l : Nat) : var (negate l) = var l := by
  rw [negate_eq]
  rcases Nat.even_or_odd l with ⟨k, hk⟩ | ⟨k, hk⟩
  · have hk' : l = 2 * k := by omega
    subst hk'
    simp only [var, Nat.shiftRight_one, Nat.mul_mod_right, if_pos]
    omega
  · subst hk
    have : (2 * k + 1) % 2 ≠ 0 := by omega
    simp only [var, Nat.shiftRight_one, this, if_neg, ite_false]
    omega

end lit

namespace VariableState

theorem land_one_left (n : Nat) : 1 &&& n = n % 2 := by
  rw [Nat.land_comm]; exact Nat.and_one_is_mod n

theorem asr32_of_lt {x : Nat} (h : x < 2 ^ 31) (k : Nat) : asr32 x k = x / 2 ^ k := by
  rw [asr32, if_pos h, Nat.shiftRight_eq_div_pow]

theorem state_of_open {vs : VariableState} (h : vs.valueCode = mask32) (l : Nat) :
    vs.state l = -1 := by
  unfold state
  rw [h]
  have h31 : asr32 mask32 31 = mask32 := by decide
  rw [h31, land_one_left]
  rcases Nat.mod_two_eq_zero_or_one (not32 l ^^^ mask32) with h2 | h2 <;> rw [h2]
  · rw [Nat.or_zero]; decide
  · decide

theorem state_of_assigned {vs : VariableState} (hvc : vs.valueCode < 2 ^ 31)
    {l : Nat} (hl : l < 2 ^ 32) :
    vs.state l = if l % 2 = vs.valueCode % 2 then 1 else 0 := by
  unfold state
  rw [asr32_of_lt hvc, Nat.div_eq_of_lt hvc, Nat.zero_or,
    land_one_left, Nat.xor_mod_two_eq]
  have hm : not32 l = mask32 - l := by
    rw [not32, Nat.mod_eq_of_lt hl]
  rw [hm]
  have key : (mask32 - l + vs.valueCode) % 2 = if l % 2 = vs.valueCode % 2 then 1 else 0 := by
    unfold mask32 at *
    split <;> omega
  rw [key]
  split <;> simp [toInt32]

theorem is_open_iff {vs : VariableState} (hwf : vs.WF) :
    vs.is_open = true ↔ vs.valueCode = mask32 := by
  rcases hwf with h | h <;> simp [is_open, h, mask32] <;> omega

theorem is_true_of_open {vs : VariableState} (h : vs.valueCode = mask32) (l : Nat) :
    vs.is_true l = false := by
  have h31 : asr32 mask32 31 = mask32 := by decide
  simp only [is_true, h, h31]
  have hz : not32 mask32 = 0 := by decide
  simp [hz]

theorem is_false_of_open {vs : VariableState} (h : vs.valueCode = mask32) (l : Nat) :
    vs.is_false l = false := by
  have h31 : asr32 mask32 31 = mask32 := by decide
  simp only [is_false, h, h31]
  have hz : not32 mask32 = 0 := by decide
  simp [hz]

theorem not32_asr32_of_lt {x : Nat} (h : x < 2 ^ 31) : not32 (asr32 x 31) = mask32 := by
  rw [asr32_of_lt h, Nat.div_eq_of_lt h]
  decide

theorem mask32_land_one : mask32 &&& 1 = 1 := by decide

theorem is_true_of_assigned {vs : VariableState} (hvc : vs.valueCode < 2 ^ 31)
    {l : Nat} (hl : l < 2 ^ 32) :
    vs.is_true l = decide (l % 2 = vs.valueCode % 2) := by
  simp only [is_true, not32_asr32_of_lt hvc]
  have hm : not32 l = mask32 - l := by rw [not32, Nat.mod_eq_of_lt hl]
  have hexpr : mask32 &&& 1 &&& (not32 l ^^^ vs.valueCode) =
      if l % 2 = vs.valueCode % 2 then 1 else 0 := by
    rw [mask32_land_one, land_one_left, Nat.xor_mod_two_eq, hm]
    unfold mask32
    split <;> omega
  rw [hexpr]
  by_cases hp : l % 2 = vs.valueCode % 2 <;> simp [hp]

theorem is_false_of_assigned {vs : VariableState} (hvc : vs.valueCode < 2 ^ 31)
    {l : Nat} (hl : l < 2 ^ 32) :
    vs.is_false l = decide (l % 2 ≠ vs.valueCode % 2) := by
  simp only [is_false, not32_asr32_of_lt hvc]
  have hexpr : mask32 &&& 1 &&& (l % 2 ^ 32 ^^^ vs.valueCode) =
      if l % 2 = vs.valueCode % 2 then 0 else 1 := by
    rw [mask32_land_one, land_one_left, Nat.xor_mod_two_eq, Nat.mod_eq_of_lt hl]
    split <;> omega
  rw [hexpr]
  by_cases hp : l % 2 = vs.valueCode % 2 <;> simp [hp]

theorem is_open_or_true_of_open {vs : VariableState} (h : vs.valueCode = mask32) (l : Nat) :
    vs.is_open_or_true l = true := by
  have h31 : asr32 mask32 31 = mask32 := by decide
  simp only [is_open_or_true, h, h31]
  have hall : ∀ y : Nat, (mask32 ||| y) &&& 1 = 1 := by
    intro y
    rw [Nat.and_one_is_mod]
    have hb : (mask32 ||| y).testBit 0 = true := by
      rw [Nat.testBit_lor]
      simp [mask32]
    rw [Nat.testBit_zero] at hb
    simpa using hb
  simp [hall]

theorem is_open_or_true_of_assigned {vs : VariableState} (hvc : vs.valueCode < 2 ^ 31)
    {l : Nat} (hl : l < 2 ^ 32) :
    vs.is_open_or_true l = decide (l % 2 = vs.valueCode % 2) := by
  simp only [is_open_or_true]
  rw [asr32_of_lt hvc, Nat.div_eq_of_lt hvc, Nat.zero_or, Nat.and_one_is_mod,
    Nat.xor_mod_two_eq]
  have hm : not32 l = mask32 - l := by rw [not32, Nat.mod_eq_of_lt hl]
  rw [hm]
  have key : (mask32 - l + vs.valueCode) % 2 = if l % 2 = vs.valueCode % 2 then 1 else 0 := by
    unfold mask32
    split <;> omega
  rw [key]
  by_cases hp : l % 2 = vs.valueCode % 2 <;> simp [hp]

theorem level_of_assigned {vs : VariableState} (hvc : vs.valueCode < 2 ^ 31) :
    vs.level = (vs.valueCode / 2 : Nat) := by
  rw [level, asr32_of_lt hvc, pow_one]
  unfold toInt32
  rw [if_pos (lt_of_le_of_lt (Nat.div_le_self _ _) hvc)]

theorem level_of_open {vs : VariableState} (h : vs.valueCode = mask32) :
    vs.level = -1 := by
  rw [level, h]; decide

end VariableState

namespace StampSet

theorem length_insert (s : StampSet) (v : Nat) :
    (s.insert v).stamps.length = s.stamps.length := by
  simp [insert]

theorem currentStamp_insert (s : StampSet) (v : Nat) :
    (s.insert v).currentStamp = s.currentStamp := rfl

theorem length_foldl_insert (s : StampSet) (lst : List Nat) :
    (lst.foldl insert s).stamps.length = s.stamps.length := by
  induction lst generalizing s with
  | nil => rfl
  | cons a ls ih => simp [List.foldl_cons, ih, length_insert]

theorem currentStamp_foldl_insert (s : StampSet) (lst : List Nat) :
    (lst.foldl insert s).currentStamp = s.currentStamp := by
  induction lst generalizing s with
  | nil => rfl
  | cons a ls ih => simp [List.foldl_cons, ih, currentStamp_insert]

theorem getD_foldl_insert (s : StampSet) (lst : List Nat) (v : Nat)
    (hv : v < s.stamps.length) :
    (lst.foldl insert s).stamps.getD v 0 = s.currentStamp ↔
      v ∈ lst ∨ s.stamps.getD v 0 = s.currentStamp := by
  induction lst generalizing s with
  | nil => simp
  | cons a ls ih =>
    rw [List.foldl_cons]
    have h2 := ih (s.insert a) (by simpa [length_insert] using hv)
    rw [currentStamp_insert] at h2
    rw [h2]
    by_cases hav : a = v
    · subst hav
      simp only [insert, List.getD_eq_getElem?_getD]
      rw [List.getElem?_set_self (by simpa using hv)]
      simp
    · simp only [insert, List.getD_eq_getElem?_getD]
      rw [List.getElem?_set_ne hav]
      simp only [List.mem_cons]
      constructor
      · rintro (h | h)
        · exact Or.inl (Or.inr h)
        · exact Or.inr h
      · rintro (h | h)
        · rcases h with h | h
          · exact absurd h.symm hav
          · exact Or.inl h
        · exact Or.inr h

theorem clear_stamps_lt (s : StampSet) (h : s.SWF) :
    ∀ x ∈ (clear s).stamps, x < (clear s).currentStamp := by
  obtain ⟨hle, h1, hub⟩ := h
  intro x hx
  unfold clear at hx ⊢
  by_cases hc : (s.currentStamp + 1) % 2 ^ 16 = 0
  · simp only [hc, if_pos] at hx ⊢
    simp only [List.mem_map] at hx
    obtain ⟨y, _, rfl⟩ := hx
    norm_num
  · simp only [hc, if_neg, ite_false] at hx ⊢
    have := hle x hx
    omega

theorem clear_length (s : StampSet) : (clear s).stamps.length = s.stamps.length := by
  unfold clear
  split <;> simp

theorem count_assign (s : StampSet) (lst : List Nat) (v : Nat)
    (h : s.SWF) (hv : v < s.stamps.length) :
    (s.assign lst).count v = lst.contains v := by
  have hlen : v < (clear s).stamps.length := by rw [clear_length]; exact hv
  have hstrict := clear_stamps_lt s h
  unfold assign count
  rw [currentStamp_foldl_insert]
  rw [Bool.eq_iff_iff, beq_iff_eq, getD_foldl_insert _ _ _ hlen]
  have hne : ¬ (clear s).stamps.getD v 0 = (clear s).currentStamp := by
    intro hcontra
    have hmem : (clear s).stamps.getD v 0 ∈ (clear s).stamps := by
      rw [List.getD_eq_getElem?_getD, List.getElem?_eq_getElem hlen]
      exact List.getElem_mem hlen
    have := hstrict _ hmem
    omega
  rw [List.getD_eq_getElem?_getD] at hne
  simp [hne]

theorem SWF_clear (s : StampSet) (h : s.SWF) : (clear s).SWF := by
  obtain ⟨hle, h1, hub⟩ := h
  refine ⟨fun x hx => le_of_lt (clear_stamps_lt s ⟨hle, h1, hub⟩ x hx), ?_, ?_⟩ <;>
    unfold clear <;> split <;> simp_all <;> omega

theorem SWF_foldl_insert (t : StampSet) (lst : List Nat) (h : t.SWF) :
    (lst.foldl insert t).SWF := by
  induction lst generalizing t with
  | nil => exact h
  | cons a ls ih =>
    rw [List.foldl_cons]
    refine ih (t.insert a) ⟨?_, h.2.1, h.2.2⟩
    intro x hx
    rcases List.mem_or_eq_of_mem_set hx with hmem | rfl
    · exact h.1 x hmem
    · exact le_refl _

theorem SWF_assign (s : StampSet) (lst : List Nat) (h : s.SWF) :
    (s.assign lst).SWF :=
  SWF_foldl_insert _ _ (SWF_clear s h)

theorem length_assign (s : StampSet) (lst : List Nat) :
    (s.assign lst).stamps.length = s.stamps.length := by
  unfold assign
  rw [length_foldl_insert, clear_length]

end StampSet

theorem p_init_watches_none_of_mem_nil (clauses : List (List Nat)) :
    [] ∈ clauses → ∀ (watching : List (List Nat)) (ci : Nat),
      SubChecker.p_init_watches watching clauses ci = none := by
  induction clauses with
  | nil => intro h; exact absurd h (List.not_mem_nil _)
  | cons cl cls ih =>
    intro h watching ci
    rcases List.mem_cons.mp h with rfl | hmem
    · rfl
    · cases cl with
      | nil => rfl
      | cons l0 rest => exact ih hmem _ _

/-- C1 (code_bug evidence): the clause buffer `[0, 2, 3]` is already
sorted and duplicate-free and contains the adjacent tautological pair
`2, negate 2 = 3`, yet `add_clause` does not discard it: the long-clause
bucket of the model grows and the clause count changes from 0 to 1.
The tautology loop of `ModelBuilder::p_add` never advances `prev`, so a
complementary pair not involving the minimum literal is missed. -/
theorem c1_tautological_clause_not_discarded :
    ModelBuilder.hasTautPair [0, 2, 3] ∧
    ModelBuilder.add_clause ⟨4, [], [], [], []⟩ [0, 2, 3] =
      some ⟨4, [], [], [[0, 2, 3]], []⟩ ∧
    ModelBuilder.clauseCount ⟨4, [], [], [], []⟩ = 0 ∧
    ModelBuilder.clauseCount ⟨4, [], [], [[0, 2, 3]], []⟩ = 1 := by
  refine ⟨by decide, ?_, by decide, by decide⟩
  decide

/-- C5 (counterexample): on the input `[[]]` — a clause list containing
an empty clause — `eliminate_subsumed` hits the out-of-bounds read
`cl[0]` in `p_init_watches` (modelled by `none`): the empty clause is
not treated as a tombstone. -/
theorem c5_empty_clause_out_of_bounds :
    eliminate_subsumed [[]] 3 = none := by decide

/-- C5 (amended): for every input clause list that contains an empty
clause, `eliminate_subsumed` reaches the out-of-bounds access
`literals[0]` during watch initialisation; empty input clauses are not
supported as deletion tombstones. -/
theorem c5_empty_clause_always_out_of_bounds
    (clauses : List (List Nat)) (nAll : Nat) (h : [] ∈ clauses) :
    eliminate_subsumed clauses nAll = none := by
  unfold eliminate_subsumed SubChecker.init
  rw [p_init_watches_none_of_mem_nil clauses h]
  rfl

/-- C5 (amended, witness): concrete instance of the amended claim. -/
theorem c5_empty_clause_always_out_of_bounds_witness :
    eliminate_subsumed [[0, 2], []] 3 = none :=
  c5_empty_clause_always_out_of_bounds [[0, 2], []] 3 (by decide)

namespace SubChecker

theorem walkAux_flag_iff (clauses : List (List Nat)) (inCl : StampSet) (index : Nat)
    (rest : List Nat) :
    ∀ (watching : List (List Nat)) (out : List Nat),
      (walkAux clauses inCl index watching out rest).2.2 = true ↔
        ∃ j ∈ rest, j ≠ index ∧ clauses.getD j [] ≠ [] ∧
          ∀ x ∈ clauses.getD j [], inCl.count x = true := by
  induction rest with
  | nil => intro watching out; simp [walkAux]
  | cons cother rest ih =>
    intro watching out
    by_cases hself : cother = index
    · subst hself
      rw [walkAux, if_pos rfl, ih]
      constructor
      · rintro ⟨j, hj, hrest⟩
        exact ⟨j, List.mem_cons_of_mem _ hj, hrest⟩
      · rintro ⟨j, hj, hne, hrest⟩
        rcases List.mem_cons.mp hj with rfl | hj'
        · exact absurd rfl hne
        · exact ⟨j, hj', hne, hrest⟩
    · rw [walkAux, if_neg hself]
      by_cases hempty : clauses.getD cother [] = []
      · rw [if_pos hempty, ih]
        constructor
        · rintro ⟨j, hj, hrest⟩
          exact ⟨j, List.mem_cons_of_mem _ hj, hrest⟩
        · rintro ⟨j, hj, hne, hcl, hsub⟩
          rcases List.mem_cons.mp hj with rfl | hj'
          · exact absurd hempty hcl
          · exact ⟨j, hj', hne, hcl, hsub⟩
      · rw [if_neg hempty]
        rcases hfind : (clauses.getD cother []).find? (fun lx => !(inCl.count lx)) with
          _ | ⟨repl⟩
        · simp only []
          constructor
          · intro _
            refine ⟨cother, List.mem_cons_self _ _, hself, hempty, ?_⟩
            intro x hx
            have := List.find?_eq_none.mp hfind x hx
            simpa using this
          · intro _; trivial
        · simp only []
          rw [ih]
          constructor
          · rintro ⟨j, hj, hrest⟩
            exact ⟨j, List.mem_cons_of_mem _ hj, hrest⟩
          · rintro ⟨j, hj, hne, hcl, hsub⟩
            rcases List.mem_cons.mp hj with rfl | hj'
            · exfalso
              have hp := List.find?_some hfind
              have hmem := List.mem_of_find?_eq_some hfind
              have := hsub repl hmem
              simp [this] at hp
            · exact ⟨j, hj', hne, hcl, hsub⟩

theorem walkAux_watching_grow (clauses : List (List Nat)) (inCl : StampSet) (index : Nat)
    (rest : List Nat) :
    ∀ (watching : List (List Nat)) (out : List Nat) (l' : Nat) (j : Nat),
      j ∈ watching.getD l' [] →
      j ∈ (walkAux clauses inCl index watching out rest).1.getD l' [] := by
  induction rest with
  | nil => intro watching out l' j hj; simpa [walkAux] using hj
  | cons cother rest ih =>
    intro watching out l' j hj
    rw [walkAux]
    by_cases hself : cother = index
    · rw [if_pos hself]; exact ih _ _ _ _ hj
    · rw [if_neg hself]
      by_cases hempty : clauses.getD cother [] = []
      · rw [if_pos hempty]; exact ih _ _ _ _ hj
      · rw [if_neg hempty]
        rcases hfind : (clauses.getD cother []).find? (fun lx => !(inCl.count lx)) with
          _ | ⟨repl⟩
        · simpa using hj
        · simp only []
          refine ih _ _ _ _ ?_
          unfold appendAt
          by_cases hl : l' = repl
          · subst hl
            rcases Nat.lt_or_ge l' watching.length with hlt | hge
            · rw [List.getD_eq_getElem?_getD, List.getElem?_set_self (by exact hlt)]
              simp only [Option.getD_some]
              exact List.mem_append_left _ hj
            · rw [List.getD_eq_getElem?_getD,
                List.getElem?_eq_none (by simpa using hge)] at hj
              simp at hj
          · rw [List.getD_eq_getElem?_getD, List.getElem?_set_ne (fun h => hl h.symm)]
            rw [List.getD_eq_getElem?_getD] at hj
            exact hj

theorem walkAux_watching_length (clauses : List (List Nat)) (inCl : StampSet) (index : Nat)
    (rest : List Nat) :
    ∀ (watching : List (List Nat)) (out : List Nat),
      (walkAux clauses inCl index watching out rest).1.length = watching.length := by
  induction rest with
  | nil => intro watching out; simp [walkAux]
  | cons cother rest ih =>
    intro watching out
    rw [walkAux]
    by_cases hself : cother = index
    · rw [if_pos hself]; exact ih _ _
    · rw [if_neg hself]
      by_cases hempty : clauses.getD cother [] = []
      · rw [if_pos hempty]; exact ih _ _
      · rw [if_neg hempty]
        rcases hfind : (clauses.getD cother []).find? (fun lx => !(inCl.count lx)) with
          _ | ⟨repl⟩
        · simp
        · simp only []
          rw [ih]
          unfold appendAt
          simp

theorem walkAux_watching_src (clauses : List (List Nat)) (inCl : StampSet) (index : Nat)
    (rest : List Nat) :
    ∀ (watching : List (List Nat)) (out : List Nat) (l' j : Nat),
      j ∈ (walkAux clauses inCl index watching out rest).1.getD l' [] →
      j ∈ watching.getD l' [] ∨ j ∈ rest := by
  induction rest with
  | nil =>
    intro watching out l' j hj
    simp only [walkAux] at hj
    exact Or.inl hj
  | cons cother rest ih =>
    intro watching out l' j hj
    rw [walkAux] at hj
    by_cases hself : cother = index
    · rw [if_pos hself] at hj
      rcases ih _ _ _ _ hj with h | h
      · exact Or.inl h
      · exact Or.inr (List.mem_cons_of_mem _ h)
    · rw [if_neg hself] at hj
      by_cases hempty : clauses.getD cother [] = []
      · rw [if_pos hempty] at hj
        rcases ih _ _ _ _ hj with h | h
        · exact Or.inl h
        · exact Or.inr (List.mem_cons_of_mem _ h)
      · rw [if_neg hempty] at hj
        rcases hfind : (clauses.getD cother []).find? (fun lx => !(inCl.count lx)) with
          _ | ⟨repl⟩
        · rw [hfind] at hj
          simp only [] at hj
          exact Or.inl hj
        · rw [hfind] at hj
          simp only [] at hj
          rcases ih _ _ _ _ hj with h | h
          · unfold appendAt at h
            by_cases hl : l' = repl
            · subst hl
              rcases Nat.lt_or_ge l' watching.length with hlt | hge
              · rw [List.getD_eq_getElem?_getD, List.getElem?_set_self (by exact hlt)] at h
                simp only [Option.getD_some] at h
                rcases List.mem_append.mp h with h2 | h2
                · exact Or.inl h2
                · simp at h2
                  subst h2
                  exact Or.inr (List.mem_cons_self _ _)
              · rw [List.getD_eq_getElem?_getD, List.set_eq_of_length_le (by simpa using hge),
                  List.getElem?_eq_none (by simpa using hge)] at h
                simp at h
            · rw [List.getD_eq_getElem?_getD, List.getElem?_set_ne (fun hc => hl hc.symm),
                ← List.getD_eq_getElem?_getD] at h
              exact Or.inl h
          · exact Or.inr (List.mem_cons_of_mem _ h)

theorem appendAt_length (ws : List (List Nat)) (i : Nat) (x : Nat) :
    (appendAt ws i x).length = ws.length := by
  unfold appendAt
  simp

theorem appendAt_getD_self (ws : List (List Nat)) (i : Nat) (x : Nat)
    (hi : i < ws.length) :
    (appendAt ws i x).getD i [] = ws.getD i [] ++ [x] := by
  unfold appendAt
  rw [List.getD_eq_getElem?_getD, List.getElem?_set_self (by exact hi)]
  simp

theorem appendAt_getD_ne (ws : List (List Nat)) (i : Nat) (x : Nat) (l' : Nat)
    (h : l' ≠ i) :
    (appendAt ws i x).getD l' [] = ws.getD l' [] := by
  unfold appendAt
  rw [List.getD_eq_getElem?_getD, List.getElem?_set_ne (fun hc => h hc.symm),
    ← List.getD_eq_getElem?_getD]

/-- Persistence of live entries through one watch-list walk: an entry of
a non-empty clause `j` that is in the output region or still to be
processed either ends in the final output region, or has been re-watched
onto a literal of clause `j` that is not in the stamp set. -/
theorem walkAux_keep (clauses : List (List Nat)) (inCl : StampSet) (index : Nat)
    (rest : List Nat) :
    ∀ (watching : List (List Nat)) (out : List Nat)
      (hb : ∀ jj x, x ∈ clauses.getD jj [] → x < watching.length)
      (j : Nat), clauses.getD j [] ≠ [] → (j ∈ out ∨ j ∈ rest) →
      j ∈ (walkAux clauses inCl index watching out rest).2.1 ∨
      ∃ lr, lr ∈ clauses.getD j [] ∧ inCl.count lr = false ∧
        j ∈ (walkAux clauses inCl index watching out rest).1.getD lr [] := by
  induction rest with
  | nil =>
    intro watching out hb j hlive hmem
    rcases hmem with h | h
    · left; simpa [walkAux] using h
    · exact absurd h (List.not_mem_nil _)
  | cons cother rest ih =>
    intro watching out hb j hlive hmem
    rw [walkAux]
    by_cases hself : cother = index
    · rw [if_pos hself]
      refine ih _ _ hb j hlive ?_
      rcases hmem with h | h
      · exact Or.inl (List.mem_append_left _ h)
      · rcases List.mem_cons.mp h with rfl | h2
        · exact Or.inl (List.mem_append_right _ (List.mem_singleton_self _))
        · exact Or.inr h2
    · rw [if_neg hself]
      by_cases hempty : clauses.getD cother [] = []
      · rw [if_pos hempty]
        refine ih _ _ hb j hlive ?_
        rcases hmem with h | h
        · exact Or.inl h
        · rcases List.mem_cons.mp h with rfl | h2
          · exact absurd hempty hlive
          · exact Or.inr h2
      · rw [if_neg hempty]
        rcases hfind : (clauses.getD cother []).find? (fun lx => !(inCl.count lx)) with
          _ | ⟨repl⟩
        · left
          simp only []
          rcases hmem with h | h
          · exact List.mem_append_left _ h
          · exact List.mem_append_right _ h
        · simp only []
          by_cases hjc : j = cother
          · subst hjc
            have hreplmem : repl ∈ clauses.getD j [] := List.mem_of_find?_eq_some hfind
            have hreplcount : inCl.count repl = false := by
              have := List.find?_some hfind
              simpa using this
            have hreplb : repl < watching.length := hb j repl hreplmem
            right
            refine ⟨repl, hreplmem, hreplcount, ?_⟩
            refine walkAux_watching_grow clauses inCl index rest _ _ repl j ?_
            rw [appendAt_getD_self _ _ _ hreplb]
            exact List.mem_append_right _ (List.mem_singleton_self _)
          · have hb' : ∀ jj x, x ∈ clauses.getD jj [] → x < (appendAt watching repl cother).length := by
              intro jj x hx
              rw [appendAt_length]
              exact hb jj x hx
            refine ih _ _ hb' j hlive ?_
            rcases hmem with h | h
            · exact Or.inl h
            · rcases List.mem_cons.mp h with rfl | h2
              · exact absurd rfl hjc
              · exact Or.inr h2

theorem walkAux_out_src (clauses : List (List Nat)) (inCl : StampSet) (index : Nat)
    (rest : List Nat) :
    ∀ (watching : List (List Nat)) (out : List Nat) (j : Nat),
      j ∈ (walkAux clauses inCl index watching out rest).2.1 →
      j ∈ out ∨ j ∈ rest := by
  induction rest with
  | nil =>
    intro watching out j hj
    simp only [walkAux] at hj
    exact Or.inl hj
  | cons cother rest ih =>
    intro watching out j hj
    rw [walkAux] at hj
    by_cases hself : cother = index
    · rw [if_pos hself] at hj
      rcases ih _ _ _ hj with h | h
      · rcases List.mem_append.mp h with h2 | h2
        · exact Or.inl h2
        · simp at h2; subst h2; exact Or.inr (List.mem_cons_self _ _)
      · exact Or.inr (List.mem_cons_of_mem _ h)
    · rw [if_neg hself] at hj
      by_cases hempty : clauses.getD cother [] = []
      · rw [if_pos hempty] at hj
        rcases ih _ _ _ hj with h | h
        · exact Or.inl h
        · exact Or.inr (List.mem_cons_of_mem _ h)
      · rw [if_neg hempty] at hj
        rcases hfind : (clauses.getD cother []).find? (fun lx => !(inCl.count lx)) with
          _ | ⟨repl⟩
        · rw [hfind] at hj
          simp only [] at hj
          rcases List.mem_append.mp hj with h2 | h2
          · exact Or.inl h2
          · exact Or.inr h2
        · rw [hfind] at hj
          simp only [] at hj
          rcases ih _ _ _ hj with h | h
          · exact Or.inl h
          · exact Or.inr (List.mem_cons_of_mem _ h)

theorem pw_clauses (st : SubChecker) (index l : Nat) :
    (p_walk_watch_list st index l).1.clauses = st.clauses := by
  unfold p_walk_watch_list
  rcases walkAux st.clauses st.inClause index st.watching [] (st.watching.getD l []) with
    ⟨w', out, flag⟩
  rfl

theorem pw_inClause (st : SubChecker) (index l : Nat) :
    (p_walk_watch_list st index l).1.inClause = st.inClause := by
  unfold p_walk_watch_list
  rcases walkAux st.clauses st.inClause index st.watching [] (st.watching.getD l []) with
    ⟨w', out, flag⟩
  rfl

theorem pw_watch_len (st : SubChecker) (index l : Nat) :
    (p_walk_watch_list st index l).1.watching.length = st.watching.length := by
  unfold p_walk_watch_list
  rcases hw : walkAux st.clauses st.inClause index st.watching [] (st.watching.getD l []) with
    ⟨w', out, flag⟩
  have := walkAux_watching_length st.clauses st.inClause index
    (st.watching.getD l []) st.watching []
  rw [hw] at this
  simpa using this

theorem pw_flag_iff (st : SubChecker) (index l : Nat) :
    (p_walk_watch_list st index l).2 = true ↔
      ∃ j ∈ st.watching.getD l [], j ≠ index ∧ st.clauses.getD j [] ≠ [] ∧
        ∀ x ∈ st.clauses.getD j [], st.inClause.count x = true := by
  unfold p_walk_watch_list
  rcases hw : walkAux st.clauses st.inClause index st.watching [] (st.watching.getD l []) with
    ⟨w', out, flag⟩
  have := walkAux_flag_iff st.clauses st.inClause index
    (st.watching.getD l []) st.watching []
  rw [hw] at this
  simpa using this

theorem pw_entries_src (st : SubChecker) (index l : Nat) (l' j : Nat)
    (hj : j ∈ (p_walk_watch_list st index l).1.watching.getD l' []) :
    ∃ l₀, j ∈ st.watching.getD l₀ [] := by
  revert hj
  unfold p_walk_watch_list
  rcases hw : walkAux st.clauses st.inClause index st.watching [] (st.watching.getD l []) with
    ⟨w', out, flag⟩
  intro hj
  simp only [] at hj
  by_cases hl : l' = l
  · subst hl
    rcases Nat.lt_or_ge l' w'.length with hlt | hge
    · rw [List.getD_eq_getElem?_getD, List.getElem?_set_self (by exact hlt)] at hj
      simp only [Option.getD_some] at hj
      have := walkAux_out_src st.clauses st.inClause index
        (st.watching.getD l' []) st.watching [] j
      rw [hw] at this
      rcases this hj with h | h
      · exact absurd h (List.not_mem_nil _)
      · exact ⟨l', h⟩
    · rw [List.getD_eq_getElem?_getD, List.set_eq_of_length_le (by simpa using hge),
        List.getElem?_eq_none (by simpa using hge)] at hj
      simp at hj
  · rw [List.getD_eq_getElem?_getD, List.getElem?_set_ne (fun hc => hl hc.symm),
      ← List.getD_eq_getElem?_getD] at hj
    have := walkAux_watching_src st.clauses st.inClause index
      (st.watching.getD l []) st.watching [] l' j
    rw [hw] at this
    rcases this hj with h | h
    · exact ⟨l', h⟩
    · exact ⟨l, h⟩

/-- Persistence of live entries through `p_walk_watch_list`: a live
clause watched on one of its own literals stays watched on one of its
own literals. -/
theorem pw_keep (st : SubChecker) (index l : Nat)
    (hb : ∀ jj x, x ∈ st.clauses.getD jj [] → x < st.watching.length)
    (hl : l < st.watching.length)
    (hcl : st.inClause.count l = true)
    (j : Nat) (hlive : st.clauses.getD j [] ≠ [])
    (hentry : ∃ l'', l'' ∈ st.clauses.getD j [] ∧ j ∈ st.watching.getD l'' []) :
    ∃ l'', l'' ∈ st.clauses.getD j [] ∧
      j ∈ (p_walk_watch_list st index l).1.watching.getD l'' [] := by
  obtain ⟨l'', hmem'', hentry''⟩ := hentry
  revert hentry''
  unfold p_walk_watch_list
  rcases hw : walkAux st.clauses st.inClause index st.watching [] (st.watching.getD l []) with
    ⟨w', out, flag⟩
  intro hentry''
  simp only []
  have hwlen : w'.length = st.watching.length := by
    have := walkAux_watching_length st.clauses st.inClause index
      (st.watching.getD l []) st.watching []
    rw [hw] at this
    simpa using this
  by_cases hll : l'' = l
  · subst hll
    have hkeep := walkAux_keep st.clauses st.inClause index
      (st.watching.getD l'' []) st.watching [] hb j hlive (Or.inr hentry'')
    rw [hw] at hkeep
    simp only [] at hkeep
    rcases hkeep with h | ⟨lr, hlrmem, hlrcount, hlr⟩
    · refine ⟨l'', hmem'', ?_⟩
      rw [List.getD_eq_getElem?_getD, List.getElem?_set_self (by rwa [hwlen])]
      simpa using h
    · have hlrne : lr ≠ l'' := by
        intro hc
        rw [hc] at hlrcount
        rw [hcl] at hlrcount
        exact absurd hlrcount (by simp)
      refine ⟨lr, hlrmem, ?_⟩
      rw [List.getD_eq_getElem?_getD, List.getElem?_set_ne (fun hc => hlrne hc.symm),
        ← List.getD_eq_getElem?_getD]
      exact hlr
  · have hgrow := walkAux_watching_grow st.clauses st.inClause index
      (st.watching.getD l []) st.watching [] l'' j hentry''
    rw [hw] at hgrow
    simp only [] at hgrow
    refine ⟨l'', hmem'', ?_⟩
    rw [List.getD_eq_getElem?_getD, List.getElem?_set_ne (fun hc => hll hc.symm),
      ← List.getD_eq_getElem?_getD]
    exact hgrow

theorem emptyLoop_clauses_cases (index : Nat) (ls : List Nat) :
    ∀ st : SubChecker, (emptyLoop st index ls).clauses = st.clauses ∨
      (emptyLoop st index ls).clauses = st.clauses.set index [] := by
  induction ls with
  | nil => intro st; exact Or.inl rfl
  | cons l ls ih =>
    intro st
    rw [emptyLoop]
    by_cases hf : (p_walk_watch_list st index l).2 = true
    · rw [if_pos hf]
      right
      simp [pw_clauses]
    · rw [if_neg hf]
      rcases ih (p_walk_watch_list st index l).1 with h | h <;>
        rw [h, pw_clauses]
      · exact Or.inl rfl
      · exact Or.inr rfl

theorem emptyLoop_inClause (index : Nat) (ls : List Nat) :
    ∀ st : SubChecker, (emptyLoop st index ls).inClause = st.inClause := by
  induction ls with
  | nil => intro st; rfl
  | cons l ls ih =>
    intro st
    rw [emptyLoop]
    by_cases hf : (p_walk_watch_list st index l).2 = true
    · rw [if_pos hf]
      simp [pw_inClause]
    · rw [if_neg hf, ih, pw_inClause]

theorem emptyLoop_watch_len (index : Nat) (ls : List Nat) :
    ∀ st : SubChecker, (emptyLoop st index ls).watching.length = st.watching.length := by
  induction ls with
  | nil => intro st; rfl
  | cons l ls ih =>
    intro st
    rw [emptyLoop]
    by_cases hf : (p_walk_watch_list st index l).2 = true
    · rw [if_pos hf]
      simpa using pw_watch_len st index l
    · rw [if_neg hf, ih, pw_watch_len]

theorem emptyLoop_entries_src (index : Nat) (ls : List Nat) :
    ∀ (st : SubChecker) (l' j : Nat),
      j ∈ (emptyLoop st index ls).watching.getD l' [] →
      ∃ l₀, j ∈ st.watching.getD l₀ [] := by
  induction ls with
  | nil => intro st l' j hj; exact ⟨l', hj⟩
  | cons l ls ih =>
    intro st l' j hj
    rw [emptyLoop] at hj
    by_cases hf : (p_walk_watch_list st index l).2 = true
    · rw [if_pos hf] at hj
      exact pw_entries_src st index l l' j hj
    · rw [if_neg hf] at hj
      obtain ⟨l₀, hl₀⟩ := ih _ _ _ hj
      exact pw_entries_src st index l l₀ j hl₀

/-- Soundness of one clause round: if the processed clause got emptied,
some other live clause's literals are all in the stamp set. -/
theorem emptyLoop_sound (index : Nat) (ls : List Nat) (P : Nat → Prop) :
    ∀ st : SubChecker,
      (∀ l' j, j ∈ st.watching.getD l' [] → P j) →
      st.clauses.getD index [] ≠ [] →
      (emptyLoop st index ls).clauses.getD index [] = [] →
      ∃ j, P j ∧ j ≠ index ∧ st.clauses.getD j [] ≠ [] ∧
        ∀ x ∈ st.clauses.getD j [], st.inClause.count x = true := by
  induction ls with
  | nil =>
    intro st _ hlive hdead
    exact absurd hdead hlive
  | cons l ls ih =>
    intro st hwb hlive hdead
    rw [emptyLoop] at hdead
    by_cases hf : (p_walk_watch_list st index l).2 = true
    · obtain ⟨j, hjmem, hjne, hjlive, hjsub⟩ := (pw_flag_iff st index l).mp hf
      exact ⟨j, hwb l j hjmem, hjne, hjlive, hjsub⟩
    · rw [if_neg hf] at hdead
      have hwb' : ∀ l' j, j ∈ (p_walk_watch_list st index l).1.watching.getD l' [] → P j := by
        intro l' j hj
        obtain ⟨l₀, hl₀⟩ := pw_entries_src st index l l' j hj
        exact hwb l₀ j hl₀
      have hres := ih (p_walk_watch_list st index l).1 hwb'
      rw [pw_clauses, pw_inClause] at hres
      exact hres hlive hdead

/-- Completeness of one clause round: if some other live clause is
watched on a literal among those still to be walked and all its literals
are in the stamp set, the processed clause gets emptied. -/
theorem emptyLoop_complete (index : Nat) (ls : List Nat) :
    ∀ st : SubChecker,
      (∀ j, j ≠ index → st.clauses.getD j [] ≠ [] →
        (∀ x ∈ st.clauses.getD j [], st.inClause.count x = true) →
        (∃ l'', l'' ∈ ls ∧ j ∈ st.watching.getD l'' []) →
        (emptyLoop st index ls).clauses.getD index [] = []) := by
  induction ls with
  | nil =>
    intro st j _ _ _ hentry
    obtain ⟨l'', hl'', _⟩ := hentry
    exact absurd hl'' (List.not_mem_nil _)
  | cons l ls ih =>
    intro st j hjne hjlive hjsub hentry
    rw [emptyLoop]
    by_cases hf : (p_walk_watch_list st index l).2 = true
    · rw [if_pos hf]
      simp only []
      rcases Nat.lt_or_ge index st.clauses.length with hlt | hge
      · rw [pw_clauses, List.getD_eq_getElem?_getD, List.getElem?_set_self (by exact hlt)]
        rfl
      · rw [pw_clauses, List.getD_eq_getElem?_getD, List.set_eq_of_length_le (by simpa using hge),
          List.getElem?_eq_none (by simpa using hge)]
        rfl
    · rw [if_neg hf]
      obtain ⟨l'', hl''ls, hl''w⟩ := hentry
      rcases List.mem_cons.mp hl''ls with rfl | hl''tail
      · -- the entry's list is walked right now: the flag must have fired
        exfalso
        apply hf
        rw [pw_flag_iff]
        exact ⟨j, hl''w, hjne, hjlive, hjsub⟩
      · -- the entry's list is walked later; the entry survives this walk
        have hgrow : j ∈ (p_walk_watch_list st index l).1.watching.getD l'' [] := by
          revert hl''w
          unfold p_walk_watch_list
          rcases hw : walkAux st.clauses st.inClause index st.watching []
            (st.watching.getD l []) with ⟨w', out, flag⟩
          intro hl''w
          simp only []
          by_cases hll : l'' = l
          · subst hll
            -- j would have fired the flag if its list were the walked one;
            -- but this case is impossible only when the flag is false,
            -- so handle it via the flag characterisation instead
            exfalso
            apply hf
            rw [pw_flag_iff]
            exact ⟨j, hl''w, hjne, hjlive, hjsub⟩
          · have hgrow := walkAux_watching_grow st.clauses st.inClause index
              (st.watching.getD l []) st.watching [] l'' j hl''w
            rw [hw] at hgrow
            simp only [] at hgrow
            rw [List.getD_eq_getElem?_getD, List.getElem?_set_ne (fun hc => hll hc.symm),
              ← List.getD_eq_getElem?_getD]
            exact hgrow
        have hres := ih (p_walk_watch_list st index l).1 j hjne
        rw [pw_clauses, pw_inClause] at hres
        exact hres hjlive hjsub ⟨l'', hl''tail, hgrow⟩

/-- Persistence of live entries through a whole clause round. -/
theorem emptyLoop_keep (index : Nat) (ls : List Nat) :
    ∀ st : SubChecker,
      (∀ jj x, x ∈ st.clauses.getD jj [] → x < st.watching.length) →
      (∀ l0, l0 ∈ ls → st.inClause.count l0 = true) →
      (∀ l0, l0 ∈ ls → l0 < st.watching.length) →
      ∀ j, st.clauses.getD j [] ≠ [] →
      (∃ l'', l'' ∈ st.clauses.getD j [] ∧ j ∈ st.watching.getD l'' []) →
      ∃ l'', l'' ∈ st.clauses.getD j [] ∧ j ∈ (emptyLoop st index ls).watching.getD l'' [] := by
  induction ls with
  | nil =>
    intro st _ _ _ j _ hentry
    exact hentry
  | cons l ls ih =>
    intro st hb hcount hbound j hlive hentry
    have hkeep := pw_keep st index l hb (hbound l (List.mem_cons_self _ _))
      (hcount l (List.mem_cons_self _ _)) j hlive hentry
    rw [emptyLoop]
    by_cases hf : (p_walk_watch_list st index l).2 = true
    · rw [if_pos hf]
      simpa using hkeep
    · rw [if_neg hf]
      have hres := ih (p_walk_watch_list st index l).1 ?_ ?_ ?_ j ?_ ?_
      · rw [pw_clauses] at hres
        exact hres
      · intro jj x hx
        rw [pw_clauses] at hx
        rw [pw_watch_len]
        exact hb jj x hx
      · intro l0 hl0
        rw [pw_inClause]
        exact hcount l0 (List.mem_cons_of_mem _ hl0)
      · intro l0 hl0
        rw [pw_watch_len]
        exact hbound l0 (List.mem_cons_of_mem _ hl0)
      · rw [pw_clauses]
        exact hlive
      · rw [pw_clauses]
        exact hkeep

theorem round_def (st : SubChecker) (c : Nat) :
    p_empty_if_subsumed st c =
      emptyLoop { st with inClause := st.inClause.assign (st.clauses.getD c []) } c
        (st.clauses.getD c []) := rfl

theorem round_clauses_other (st : SubChecker) (c i : Nat) (hne : i ≠ c) :
    (p_empty_if_subsumed st c).clauses.getD i [] = st.clauses.getD i [] := by
  rw [round_def]
  rcases emptyLoop_clauses_cases c (st.clauses.getD c [])
    { st with inClause := st.inClause.assign (st.clauses.getD c []) } with h | h <;> rw [h]
  rw [List.getD_eq_getElem?_getD, List.getElem?_set_ne (fun hc => hne hc.symm),
    ← List.getD_eq_getElem?_getD]

theorem round_clauses_self (st : SubChecker) (c : Nat) :
    (p_empty_if_subsumed st c).clauses.getD c [] = st.clauses.getD c [] ∨
      (p_empty_if_subsumed st c).clauses.getD c [] = [] := by
  rw [round_def]
  rcases emptyLoop_clauses_cases c (st.clauses.getD c [])
    { st with inClause := st.inClause.assign (st.clauses.getD c []) } with h | h <;> rw [h]
  · exact Or.inl rfl
  · right
    rcases Nat.lt_or_ge c st.clauses.length with hlt | hge
    · rw [List.getD_eq_getElem?_getD, List.getElem?_set_self (by exact hlt)]
      rfl
    · rw [List.getD_eq_getElem?_getD, List.set_eq_of_length_le (by simpa using hge),
        List.getElem?_eq_none (by simpa using hge)]
      rfl

theorem round_clauses_len (st : SubChecker) (c : Nat) :
    (p_empty_if_subsumed st c).clauses.length = st.clauses.length := by
  rw [round_def]
  rcases emptyLoop_clauses_cases c (st.clauses.getD c [])
    { st with inClause := st.inClause.assign (st.clauses.getD c []) } with h | h <;> rw [h] <;>
    simp

theorem round_watch_len (st : SubChecker) (c : Nat) :
    (p_empty_if_subsumed st c).watching.length = st.watching.length := by
  rw [round_def, emptyLoop_watch_len]

theorem round_inClause (st : SubChecker) (c : Nat) :
    (p_empty_if_subsumed st c).inClause = st.inClause.assign (st.clauses.getD c []) := by
  rw [round_def, emptyLoop_inClause]

theorem round_entries_src (st : SubChecker) (c : Nat) (l' j : Nat)
    (hj : j ∈ (p_empty_if_subsumed st c).watching.getD l' []) :
    ∃ l₀, j ∈ st.watching.getD l₀ [] := by
  rw [round_def] at hj
  obtain ⟨l₀, h⟩ := emptyLoop_entries_src c (st.clauses.getD c [])
    { st with inClause := st.inClause.assign (st.clauses.getD c []) } l' j hj
  exact ⟨l₀, h⟩

/-- Round soundness: if the round emptied its clause, some other clause,
live at the round's start, is a subset (as a literal set) of it. -/
theorem round_sound (st : SubChecker) (c : Nat) (P : Nat → Prop)
    (hwb : ∀ l' j, j ∈ st.watching.getD l' [] → P j)
    (hswf : st.inClause.SWF)
    (hsl : ∀ jj x, x ∈ st.clauses.getD jj [] → x < st.inClause.stamps.length)
    (hlive : st.clauses.getD c [] ≠ [])
    (hdead : (p_empty_if_subsumed st c).clauses.getD c [] = []) :
    ∃ j, P j ∧ j ≠ c ∧ st.clauses.getD j [] ≠ [] ∧
      listSubset (st.clauses.getD j []) (st.clauses.getD c []) := by
  rw [round_def] at hdead
  obtain ⟨j, hPj, hjne, hjlive, hjsub⟩ :=
    emptyLoop_sound c (st.clauses.getD c []) P
      { st with inClause := st.inClause.assign (st.clauses.getD c []) } hwb hlive hdead
  refine ⟨j, hPj, hjne, hjlive, ?_⟩
  intro x hx
  have hcnt : (st.inClause.assign (st.clauses.getD c [])).count x = true := hjsub x hx
  have hxb : x < st.inClause.stamps.length := hsl j x hx
  rw [StampSet.count_assign _ _ _ hswf hxb] at hcnt
  exact List.mem_of_elem_eq_true hcnt

/-- Round completeness: a clause is emptied by its round whenever some
other clause, live at the round's start and watched on one of its own
literals, is a subset of it. -/
theorem round_complete (st : SubChecker) (c : Nat)
    (hswf : st.inClause.SWF)
    (hsl : ∀ jj x, x ∈ st.clauses.getD jj [] → x < st.inClause.stamps.length)
    (hkeepInv : ∀ j, st.clauses.getD j [] ≠ [] →
      ∃ l'', l'' ∈ st.clauses.getD j [] ∧ j ∈ st.watching.getD l'' [])
    (j : Nat) (hjne : j ≠ c) (hjlive : st.clauses.getD j [] ≠ [])
    (hjsub : listSubset (st.clauses.getD j []) (st.clauses.getD c [])) :
    (p_empty_if_subsumed st c).clauses.getD c [] = [] := by
  rw [round_def]
  obtain ⟨l'', hl''mem, hl''w⟩ := hkeepInv j hjlive
  refine emptyLoop_complete c (st.clauses.getD c [])
    { st with inClause := st.inClause.assign (st.clauses.getD c []) } j hjne hjlive ?_
    ⟨l'', hjsub l'' hl''mem, hl''w⟩
  intro x hx
  have hxb : x < st.inClause.stamps.length := hsl j x hx
  show (st.inClause.assign (st.clauses.getD c [])).count x = true
  rw [StampSet.count_assign _ _ _ hswf hxb]
  exact List.elem_eq_true_of_mem (hjsub x hx)

/-- Round persistence: every clause still live after the round is
watched on one of its own literals. -/
theorem round_keep (st : SubChecker) (c : Nat)
    (hswf : st.inClause.SWF)
    (hsl : ∀ jj x, x ∈ st.clauses.getD jj [] → x < st.inClause.stamps.length)
    (hwlen : st.inClause.stamps.length = st.watching.length)
    (hkeepInv : ∀ j, st.clauses.getD j [] ≠ [] →
      ∃ l'', l'' ∈ st.clauses.getD j [] ∧ j ∈ st.watching.getD l'' []) :
    ∀ j, (p_empty_if_subsumed st c).clauses.getD j [] ≠ [] →
      ∃ l'', l'' ∈ (p_empty_if_subsumed st c).clauses.getD j [] ∧
        j ∈ (p_empty_if_subsumed st c).watching.getD l'' [] := by
  intro j hjlive
  have hjlive₀ : st.clauses.getD j [] ≠ [] := by
    by_cases hjc : j = c
    · subst hjc
      rcases round_clauses_self st j with h | h
      · rwa [h] at hjlive
      · exact absurd h hjlive
    · rwa [round_clauses_other st c j hjc] at hjlive
  have hval : (p_empty_if_subsumed st c).clauses.getD j [] = st.clauses.getD j [] := by
    by_cases hjc : j = c
    · subst hjc
      rcases round_clauses_self st j with h | h
      · exact h
      · exact absurd h hjlive
    · exact round_clauses_other st c j hjc
  rw [hval]
  rw [round_def]
  refine emptyLoop_keep c (st.clauses.getD c [])
    { st with inClause := st.inClause.assign (st.clauses.getD c []) } ?_ ?_ ?_ j hjlive₀
    (hkeepInv j hjlive₀)
  · intro jj x hx
    show x < st.watching.length
    have := hsl jj x hx
    omega
  · intro l0 hl0
    have hxb : l0 < st.inClause.stamps.length := hsl c l0 hl0
    show (st.inClause.assign (st.clauses.getD c [])).count l0 = true
    rw [StampSet.count_assign _ _ _ hswf hxb]
    exact List.elem_eq_true_of_mem hl0
  · intro l0 hl0
    show l0 < st.watching.length
    have := hsl c l0 hl0
    omega

theorem InvO.hsl {orig : List (List Nat)} {nAll : Nat} {st : SubChecker}
    (hb : ∀ cl ∈ orig, ∀ x ∈ cl, x < 2 * nAll) (hinv : InvO orig nAll st) :
    ∀ jj x, x ∈ st.clauses.getD jj [] → x < st.inClause.stamps.length := by
  obtain ⟨hlen, hP1, _, hstlen, _, _, _⟩ := hinv
  intro jj x hx
  rw [hstlen]
  rcases Nat.lt_or_ge jj orig.length with hjj | hjj
  · rcases hP1 jj hjj with h | h
    · rw [h] at hx
      have hmem : orig.getD jj [] ∈ orig := by
        rw [List.getD_eq_getElem _ _ hjj]
        exact List.getElem_mem hjj
      exact hb _ hmem x hx
    · rw [h] at hx
      exact absurd hx (List.not_mem_nil _)
  · rw [List.getD_eq_getElem?_getD, List.getElem?_eq_none (by omega)] at hx
    exact absurd hx (List.not_mem_nil _)

theorem round_preserves_InvO {orig : List (List Nat)} {nAll : Nat} {st : SubChecker}
    (hb : ∀ cl ∈ orig, ∀ x ∈ cl, x < 2 * nAll) (hinv : InvO orig nAll st) (c : Nat) :
    InvO orig nAll (p_empty_if_subsumed st c) := by
  have hsl := hinv.hsl hb
  obtain ⟨hlen, hP1, hwlen, hstlen, hswf, hwb, hkeep⟩ := hinv
  refine ⟨?_, ?_, ?_, ?_, ?_, ?_, ?_⟩
  · rw [round_clauses_len, hlen]
  · intro i hi
    by_cases hic : i = c
    · subst hic
      rcases round_clauses_self st i with h | h
      · rw [h]; exact hP1 i hi
      · rw [h]; exact Or.inr rfl
    · rw [round_clauses_other st c i hic]
      exact hP1 i hi
  · rw [round_watch_len, hwlen]
  · rw [round_inClause, StampSet.length_assign, hstlen]
  · rw [round_inClause]
    exact StampSet.SWF_assign _ _ hswf
  · intro l' j hj
    obtain ⟨l₀, h₀⟩ := round_entries_src st c l' j hj
    exact hwb l₀ j h₀
  · exact round_keep st c hswf hsl (by rw [hstlen, hwlen]) hkeep

theorem removeLoop_zero (st : SubChecker) : removeLoop st 0 = st := rfl

theorem removeLoop_succ (st : SubChecker) (k : Nat) :
    removeLoop st (k + 1) =
      removeLoop (p_empty_if_subsumed st (st.clauses.length - (k + 1))) k := rfl

theorem loop_preserves_InvO {orig : List (List Nat)} {nAll : Nat}
    (hb : ∀ cl ∈ orig, ∀ x ∈ cl, x < 2 * nAll) :
    ∀ (k : Nat) (st : SubChecker), InvO orig nAll st → InvO orig nAll (removeLoop st k) := by
  intro k
  induction k with
  | zero => intro st h; exact h
  | succ k ih =>
    intro st h
    rw [removeLoop_succ]
    exact ih _ (round_preserves_InvO hb h _)

theorem loop_dead_stays :
    ∀ (k : Nat) (st : SubChecker) (i : Nat), st.clauses.getD i [] = [] →
      (removeLoop st k).clauses.getD i [] = [] := by
  intro k
  induction k with
  | zero => intro st i h; exact h
  | succ k ih =>
    intro st i h
    rw [removeLoop_succ]
    refine ih _ i ?_
    by_cases hic : i = st.clauses.length - (k + 1)
    · rcases round_clauses_self st (st.clauses.length - (k + 1)) with h2 | h2
      · rw [hic, h2, ← hic]; exact h
      · rw [hic, h2]
    · rw [round_clauses_other _ _ _ hic]; exact h

theorem loop_live_back :
    ∀ (k : Nat) (st : SubChecker) (i : Nat),
      (removeLoop st k).clauses.getD i [] ≠ [] → st.clauses.getD i [] ≠ [] := by
  intro k st i hlive hdead
  exact hlive (loop_dead_stays k st i hdead)

theorem loop_preserves_below :
    ∀ (k : Nat) (st : SubChecker), k ≤ st.clauses.length →
      ∀ i, i < st.clauses.length - k →
        (removeLoop st k).clauses.getD i [] = st.clauses.getD i [] := by
  intro k
  induction k with
  | zero => intro st _ i _; rfl
  | succ k ih =>
    intro st hk i hi
    rw [removeLoop_succ]
    have hlen : (p_empty_if_subsumed st (st.clauses.length - (k + 1))).clauses.length =
        st.clauses.length := round_clauses_len _ _
    have hik : i ≠ st.clauses.length - (k + 1) := by omega
    rw [ih _ (by omega) i (by omega), round_clauses_other _ _ _ hik]

/-- Chain lemma: every clause live when its round is still to come is a
superset (as a literal set) of some clause that survives the whole run. -/
theorem loop_chain {orig : List (List Nat)} {nAll : Nat}
    (hb : ∀ cl ∈ orig, ∀ x ∈ cl, x < 2 * nAll) :
    ∀ (k : Nat) (st : SubChecker), InvO orig nAll st → k ≤ st.clauses.length →
      ∀ i, i < st.clauses.length → st.clauses.length - k ≤ i →
        st.clauses.getD i [] ≠ [] →
        ∃ j, j < st.clauses.length ∧ (removeLoop st k).clauses.getD j [] ≠ [] ∧
          listSubset (orig.getD j []) (orig.getD i []) := by
  intro k
  induction k with
  | zero =>
    intro st hinv hk i hiL hik hlive
    exact ⟨i, hiL, hlive, fun x hx => hx⟩
  | succ k ih =>
    intro st hinv hk i hiL hik hlive
    have hsl := hinv.hsl hb
    have horiglen : st.clauses.length = orig.length := hinv.1
    rw [removeLoop_succ]
    set c := st.clauses.length - (k + 1) with hc
    have hlen : (p_empty_if_subsumed st c).clauses.length = st.clauses.length :=
      round_clauses_len _ _
    have hinv' : InvO orig nAll (p_empty_if_subsumed st c) := round_preserves_InvO hb hinv c
    by_cases hic : i = c
    · subst hic
      rcases round_clauses_self st c with hsame | hdead
      · -- clause i survives its own round, hence the whole run
        refine ⟨c, hiL, ?_, fun x hx => hx⟩
        rw [loop_preserves_below k _ (by omega) c (by omega), hsame]
        exact hlive
      · -- clause i was emptied: recurse through its subsumer
        obtain ⟨j₀, hj₀L, hj₀ne, hj₀live, hj₀sub⟩ :=
          round_sound st c (fun j => j < orig.length)
            hinv.2.2.2.2.2.1 hinv.2.2.2.2.1 hsl hlive hdead
        have hval_i : st.clauses.getD c [] = orig.getD c [] := by
          rcases hinv.2.1 c (by omega) with h | h
          · exact h
          · exact absurd h hlive
        have hval_j₀ : st.clauses.getD j₀ [] = orig.getD j₀ [] := by
          rcases hinv.2.1 j₀ (by omega) with h | h
          · exact h
          · exact absurd h hj₀live
        have hsub₀ : listSubset (orig.getD j₀ []) (orig.getD c []) := by
          rw [← hval_i, ← hval_j₀]
          exact hj₀sub
        rcases Nat.lt_or_ge j₀ c with hj₀lt | hj₀ge
        · -- the subsumer survived its own earlier round: it survives the run
          refine ⟨j₀, by omega, ?_, hsub₀⟩
          rw [loop_preserves_below k _ (by omega) j₀ (by omega),
            round_clauses_other _ _ _ hj₀ne]
          exact hj₀live
        · -- the subsumer's round is still to come: recurse
          obtain ⟨j, hjL, hjlive, hjsub⟩ := ih (p_empty_if_subsumed st c) hinv' (by omega) j₀
            (by omega) (by omega)
            (by rw [round_clauses_other _ _ _ hj₀ne]; exact hj₀live)
          refine ⟨j, by omega, hjlive, ?_⟩
          intro x hx
          exact hsub₀ x (hjsub x hx)
    · -- clause i's round is still to come
      obtain ⟨j, hjL, hjlive, hjsub⟩ := ih (p_empty_if_subsumed st c) hinv' (by omega) i
        (by omega) (by omega)
        (by rw [round_clauses_other _ _ _ hic]; exact hlive)
      exact ⟨j, by omega, hjlive, hjsub⟩

/-- No-subsumption-among-survivors lemma: a surviving clause is never a
subset of a distinct surviving clause whose round is still to come. -/
theorem loop_nosub {orig : List (List Nat)} {nAll : Nat}
    (hb : ∀ cl ∈ orig, ∀ x ∈ cl, x < 2 * nAll) :
    ∀ (k : Nat) (st : SubChecker), InvO orig nAll st → k ≤ st.clauses.length →
      ∀ a b, a ≠ b → b < st.clauses.length → st.clauses.length - k ≤ b →
        (removeLoop st k).clauses.getD a [] ≠ [] →
        (removeLoop st k).clauses.getD b [] ≠ [] →
        ¬ listSubset (orig.getD a []) (orig.getD b []) := by
  intro k
  induction k with
  | zero =>
    intro st hinv hk a b hab hbL hbk _ _
    omega
  | succ k ih =>
    intro st hinv hk a b hab hbL hbk halive hblive
    have hsl := hinv.hsl hb
    have horiglen : st.clauses.length = orig.length := hinv.1
    rw [removeLoop_succ] at halive hblive
    set c := st.clauses.length - (k + 1) with hc
    have hlen : (p_empty_if_subsumed st c).clauses.length = st.clauses.length :=
      round_clauses_len _ _
    have hinv' : InvO orig nAll (p_empty_if_subsumed st c) := round_preserves_InvO hb hinv c
    by_cases hbc : b = c
    · -- clause b's round runs now; a live subset a would have emptied it
      subst hbc
      intro hsub
      have halive₁ : (p_empty_if_subsumed st c).clauses.getD a [] ≠ [] :=
        loop_live_back k _ a halive
      have hblive₁ : (p_empty_if_subsumed st c).clauses.getD c [] ≠ [] :=
        loop_live_back k _ c hblive
      have halive₀ : st.clauses.getD a [] ≠ [] := by
        rwa [round_clauses_other _ _ _ hab] at halive₁
      have hblive₀ : st.clauses.getD c [] ≠ [] := by
        rcases round_clauses_self st c with h | h
        · rwa [h] at hblive₁
        · exact absurd h hblive₁
      have haL : a < st.clauses.length := by
        by_contra hge
        rw [List.getD_eq_getElem?_getD, List.getElem?_eq_none (by omega)] at halive₀
        exact halive₀ rfl
      have hval_a : st.clauses.getD a [] = orig.getD a [] := by
        rcases hinv.2.1 a (by omega) with h | h
        · exact h
        · exact absurd h halive₀
      have hval_b : st.clauses.getD c [] = orig.getD c [] := by
        rcases hinv.2.1 c (by omega) with h | h
        · exact h
        · exact absurd h hblive₀
      have hdead := round_complete st c hinv.2.2.2.2.1 hsl hinv.2.2.2.2.2.2 a hab halive₀
        (by rw [hval_a, hval_b]; exact hsub)
      exact hblive₁ hdead
    · exact ih (p_empty_if_subsumed st c) hinv' (by omega) a b hab (by omega) (by omega)
        halive hblive

theorem init_watches_some :
    ∀ (cls : List (List Nat)) (w : List (List Nat)) (ci : Nat),
      (∀ cl ∈ cls, cl ≠ []) → ∃ w', p_init_watches w cls ci = some w' := by
  intro cls
  induction cls with
  | nil => intro w ci _; exact ⟨w, rfl⟩
  | cons cl cls ih =>
    intro w ci hne
    cases cl with
    | nil => exact absurd rfl (hne [] (List.mem_cons_self _ _))
    | cons l0 restcl =>
      obtain ⟨w', hw'⟩ := ih (appendAt w l0 ci) (ci + 1)
        (fun c hc => hne c (List.mem_cons_of_mem _ hc))
      exact ⟨w', hw'⟩

theorem init_watches_length :
    ∀ (cls : List (List Nat)) (w : List (List Nat)) (ci : Nat) (w' : List (List Nat)),
      p_init_watches w cls ci = some w' → w'.length = w.length := by
  intro cls
  induction cls with
  | nil =>
    intro w ci w' h
    cases h
    rfl
  | cons cl cls ih =>
    intro w ci w' h
    cases cl with
    | nil => cases h
    | cons l0 restcl =>
      have := ih (appendAt w l0 ci) (ci + 1) w' h
      rwa [appendAt_length] at this

theorem init_watches_grow :
    ∀ (cls : List (List Nat)) (w : List (List Nat)) (ci : Nat) (w' : List (List Nat)),
      p_init_watches w cls ci = some w' →
      ∀ l' j, j ∈ w.getD l' [] → j ∈ w'.getD l' [] := by
  intro cls
  induction cls with
  | nil =>
    intro w ci w' h l' j hj
    cases h
    exact hj
  | cons cl cls ih =>
    intro w ci w' h l' j hj
    cases cl with
    | nil => cases h
    | cons l0 restcl =>
      refine ih (appendAt w l0 ci) (ci + 1) w' h l' j ?_
      by_cases hl : l' = l0
      · subst hl
        rcases Nat.lt_or_ge l' w.length with hlt | hge
        · rw [appendAt_getD_self _ _ _ hlt]
          exact List.mem_append_left _ hj
        · rw [List.getD_eq_getElem?_getD, List.getElem?_eq_none (by simpa using hge)] at hj
          simp at hj
      · rw [appendAt_getD_ne _ _ _ _ hl]
        exact hj

theorem init_watches_src :
    ∀ (cls : List (List Nat)) (w : List (List Nat)) (ci : Nat) (w' : List (List Nat)),
      p_init_watches w cls ci = some w' →
      ∀ l' j, j ∈ w'.getD l' [] → j ∈ w.getD l' [] ∨ (ci ≤ j ∧ j < ci + cls.length) := by
  intro cls
  induction cls with
  | nil =>
    intro w ci w' h l' j hj
    cases h
    exact Or.inl hj
  | cons cl cls ih =>
    intro w ci w' h l' j hj
    cases cl with
    | nil => cases h
    | cons l0 restcl =>
      rcases ih (appendAt w l0 ci) (ci + 1) w' h l' j hj with h2 | h2
      · unfold appendAt at h2
        by_cases hl : l' = l0
        · subst hl
          rcases Nat.lt_or_ge l' w.length with hlt | hge
          · rw [List.getD_eq_getElem?_getD, List.getElem?_set_self (by exact hlt)] at h2
            simp only [Option.getD_some] at h2
            rcases List.mem_append.mp h2 with h3 | h3
            · exact Or.inl h3
            · simp at h3
              subst h3
              right
              constructor
              · exact le_refl _
              · simp
          · rw [List.getD_eq_getElem?_getD, List.set_eq_of_length_le (by simpa using hge),
              List.getElem?_eq_none (by simpa using hge)] at h2
            simp at h2
        · rw [List.getD_eq_getElem?_getD, List.getElem?_set_ne (fun hc => hl hc.symm),
            ← List.getD_eq_getElem?_getD] at h2
          exact Or.inl h2
      · right
        simp only [List.length_cons]
        omega

theorem init_watches_entry :
    ∀ (cls : List (List Nat)) (w : List (List Nat)) (ci : Nat) (w' : List (List Nat)),
      p_init_watches w cls ci = some w' →
      (∀ cl ∈ cls, ∀ x ∈ cl, x < w.length) →
      ∀ k, k < cls.length → cls.getD k [] ≠ [] →
      ∃ l'', l'' ∈ cls.getD k [] ∧ (ci + k) ∈ w'.getD l'' [] := by
  intro cls
  induction cls with
  | nil =>
    intro w ci w' h hb k hk
    simp at hk
  | cons cl cls ih =>
    intro w ci w' h hb k hk hkne
    cases cl with
    | nil => cases h
    | cons l0 restcl =>
      cases k with
      | zero =>
        refine ⟨l0, List.mem_cons_self _ _, ?_⟩
        have hl0 : l0 < w.length :=
          hb (l0 :: restcl) (List.mem_cons_self _ _) l0 (List.mem_cons_self _ _)
        refine init_watches_grow cls (appendAt w l0 ci) (ci + 1) w' h l0 (ci + 0) ?_
        rw [appendAt_getD_self _ _ _ hl0]
        simp
      | succ k' =>
        have hres := ih (appendAt w l0 ci) (ci + 1) w' h
          (fun c hc x hx => by rw [appendAt_length]; exact hb c (List.mem_cons_of_mem _ hc) x hx)
          k' (by simpa using Nat.lt_of_succ_lt_succ hk) (by simpa using hkne)
        obtain ⟨l'', hl''mem, hl''w⟩ := hres
        refine ⟨l'', by simpa using hl''mem, ?_⟩
        have harith : ci + 1 + k' = ci + (k' + 1) := by omega
        rwa [harith] at hl''w

theorem init_watches_some_no_empty :
    ∀ (cls : List (List Nat)) (w : List (List Nat)) (ci : Nat) (w' : List (List Nat)),
      p_init_watches w cls ci = some w' → ∀ cl ∈ cls, cl ≠ [] := by
  intro cls
  induction cls with
  | nil => intro w ci w' _ cl hcl; exact absurd hcl (List.not_mem_nil _)
  | cons cl0 cls ih =>
    intro w ci w' h cl hcl
    cases cl0 with
    | nil => cases h
    | cons l0 restcl =>
      rcases List.mem_cons.mp hcl with rfl | hmem
      · simp
      · exact ih _ _ _ h cl hmem

theorem getD_replicate_nil (n l' : Nat) :
    (List.replicate n ([] : List Nat)).getD l' [] = [] := by
  rcases Nat.lt_or_ge l' n with h | h
  · rw [List.getD_eq_getElem _ _ (by simpa using h)]
    apply List.getElem_replicate
  · rw [List.getD_eq_getElem?_getD, List.getElem?_eq_none (by simpa using h)]
    rfl

theorem init_InvO (orig : List (List Nat)) (nAll : Nat)
    (hb : ∀ cl ∈ orig, ∀ x ∈ cl, x < 2 * nAll)
    (hne : ∀ cl ∈ orig, cl ≠ [])
    (w₀ : List (List Nat))
    (hw₀ : p_init_watches (List.replicate (2 * nAll) []) orig 0 = some w₀) :
    InvO orig nAll ⟨orig, StampSet.init (2 * nAll), w₀⟩ := by
  have hlen := init_watches_length orig _ 0 w₀ hw₀
  rw [List.length_replicate] at hlen
  refine ⟨rfl, fun i _ => Or.inl rfl, hlen, by simp [StampSet.init], ?_, ?_, ?_⟩
  · refine ⟨?_, by simp [StampSet.init], by simp [StampSet.init]⟩
    intro x hx
    rw [StampSet.init] at hx
    simp only [List.mem_replicate] at hx
    omega
  · intro l' j hj
    rcases init_watches_src orig _ 0 w₀ hw₀ l' j hj with h | h
    · rw [getD_replicate_nil] at h
      exact absurd h (List.not_mem_nil _)
    · simpa using h.2
  · intro j hlive
    have hjlt : j < orig.length := by
      by_contra hge
      rw [show (⟨orig, StampSet.init (2 * nAll), w₀⟩ : SubChecker).clauses = orig from rfl,
        List.getD_eq_getElem?_getD, List.getElem?_eq_none (by omega)] at hlive
      exact hlive rfl
    obtain ⟨l'', hl''mem, hl''w⟩ := init_watches_entry orig _ 0 w₀ hw₀
      (fun cl hc x hx => by simpa using hb cl hc x hx) j hjlt hlive
    exact ⟨l'', hl''mem, by simpa using hl''w⟩

end SubChecker

/-- The main correctness content of `eliminate_subsumed`, shared by the
claims about it: headline removal of strictly subsumed clauses, output
membership, covering of every input clause, no duplicates, and
antichain-ness of the output. -/
theorem eliminate_subsumed_main (clauses : List (List Nat)) (nAll : Nat)
    (out : List (List Nat))
    (hne : ∀ cl ∈ clauses, cl ≠ [])
    (hbound : ∀ cl ∈ clauses, ∀ x ∈ cl, x < 2 * nAll)
    (hrun : eliminate_subsumed clauses nAll = some out) :
    (∀ cl ∈ clauses,
      (∃ cl' ∈ clauses, listSubset cl' cl ∧ ¬ listSubset cl cl') → cl ∉ out) ∧
    (∀ cl ∈ out, cl ∈ clauses) ∧
    (∀ cl ∈ clauses, ∃ d ∈ out, listSubset d cl) ∧
    out.Nodup ∧
    (∀ d1 ∈ out, ∀ d2 ∈ out, d1 ≠ d2 → ¬ listSubset d2 d1) := by
  classical
  -- unpack the run
  obtain ⟨w₀, hw₀⟩ := SubChecker.init_watches_some clauses (List.replicate (2 * nAll) []) 0 hne
  have hinit : SubChecker.init clauses nAll =
      some ⟨clauses, StampSet.init (2 * nAll), w₀⟩ := by
    unfold SubChecker.init
    rw [hw₀]
    rfl
  have hout : out = SubChecker.remove_subsumed ⟨clauses, StampSet.init (2 * nAll), w₀⟩ := by
    unfold eliminate_subsumed at hrun
    rw [hinit] at hrun
    simpa using hrun.symm
  set st₀ : SubChecker := ⟨clauses, StampSet.init (2 * nAll), w₀⟩ with hst₀
  have hst₀len : st₀.clauses.length = clauses.length := rfl
  have hinv₀ : SubChecker.InvO clauses nAll st₀ :=
    SubChecker.init_InvO clauses nAll hbound hne w₀ hw₀
  set F : SubChecker := SubChecker.removeLoop st₀ clauses.length with hF
  have houtF : out = F.clauses.filter (fun cl => !cl.isEmpty) := by
    rw [hout]
    rfl
  have hinvF : SubChecker.InvO clauses nAll F :=
    SubChecker.loop_preserves_InvO hbound clauses.length st₀ hinv₀
  have hFlen : F.clauses.length = clauses.length := hinvF.1
  -- value of a live final slot
  have hFval : ∀ i, i < clauses.length → F.clauses.getD i [] ≠ [] →
      F.clauses.getD i [] = clauses.getD i [] := by
    intro i hi hlive
    rcases hinvF.2.1 i hi with h | h
    · exact h
    · exact absurd h hlive
  -- conclusion (c): chain to a surviving subset
  have hchain : ∀ i, i < clauses.length →
      ∃ j, j < clauses.length ∧ F.clauses.getD j [] ≠ [] ∧
        listSubset (clauses.getD j []) (clauses.getD i []) := by
    intro i hi
    have hlive₀ : st₀.clauses.getD i [] ≠ [] := by
      show clauses.getD i [] ≠ []
      rw [List.getD_eq_getElem _ _ hi]
      exact hne _ (List.getElem_mem hi)
    exact SubChecker.loop_chain hbound clauses.length st₀ hinv₀ (le_refl _) i hi
      (by omega) hlive₀
  -- survivors are pairwise non-subsuming
  have hnosub : ∀ a b, a ≠ b → b < clauses.length →
      F.clauses.getD a [] ≠ [] → F.clauses.getD b [] ≠ [] →
      ¬ listSubset (clauses.getD a []) (clauses.getD b []) := by
    intro a b hab hbL halive hblive
    exact SubChecker.loop_nosub hbound clauses.length st₀ hinv₀ (le_refl _) a b hab hbL
      (by omega) halive hblive
  -- membership in the output
  have hmem_out : ∀ j, j < clauses.length → F.clauses.getD j [] ≠ [] →
      clauses.getD j [] ∈ out := by
    intro j hj hlive
    rw [houtF]
    rw [List.mem_filter]
    constructor
    · rw [← hFval j hj hlive, List.getD_eq_getElem _ _ (by omega)]
      exact List.getElem_mem _
    · have : clauses.getD j [] ≠ [] := by
        rw [← hFval j hj hlive]
        exact hlive
      simpa [List.isEmpty_iff] using this
  -- every output clause is a live final slot
  have hout_mem : ∀ cl ∈ out, ∃ i, i < clauses.length ∧ cl = clauses.getD i [] ∧
      F.clauses.getD i [] ≠ [] := by
    intro cl hcl
    rw [houtF, List.mem_filter] at hcl
    obtain ⟨hclF, hclne⟩ := hcl
    obtain ⟨i, hi, hival⟩ := List.getElem_of_mem hclF
    have hgetD : F.clauses.getD i [] = cl := by
      rw [List.getD_eq_getElem _ _ hi, hival]
    have hclne' : cl ≠ [] := by
      intro hnil
      rw [hnil] at hclne
      simp at hclne
    refine ⟨i, by omega, ?_, by rw [hgetD]; exact hclne'⟩
    rw [← hFval i (by omega) (by rw [hgetD]; exact hclne'), hgetD]
  have hconc_b : ∀ cl ∈ out, cl ∈ clauses := by
    intro cl hcl
    obtain ⟨i, hi, hval, _⟩ := hout_mem cl hcl
    rw [hval, List.getD_eq_getElem _ _ hi]
    exact List.getElem_mem hi
  have hconc_c : ∀ cl ∈ clauses, ∃ d ∈ out, listSubset d cl := by
    intro cl hcl
    obtain ⟨i, hi, hival⟩ := List.getElem_of_mem hcl
    obtain ⟨j, hjL, hjlive, hjsub⟩ := hchain i hi
    refine ⟨clauses.getD j [], hmem_out j hjL hjlive, ?_⟩
    rw [← hival, ← List.getD_eq_getElem _ _ hi]
    exact hjsub
  have hconc_d : ∀ d1 ∈ out, ∀ d2 ∈ out, d1 ≠ d2 → ¬ listSubset d2 d1 := by
    intro d1 hd1 d2 hd2 hne12 hsub
    obtain ⟨i1, hi1, hval1, hlive1⟩ := hout_mem d1 hd1
    obtain ⟨i2, hi2, hval2, hlive2⟩ := hout_mem d2 hd2
    have hne_idx : i2 ≠ i1 := by
      intro h
      rw [h] at hval2
      exact hne12 (hval1.trans hval2.symm)
    refine hnosub i2 i1 hne_idx hi1 hlive2 hlive1 ?_
    rw [← hval1, ← hval2]
    exact hsub
  have hpairwiseF : List.Pairwise (fun x y => x ≠ [] → y ≠ [] → x ≠ y) F.clauses := by
    rw [List.pairwise_iff_getElem]
    intro i j hi hj hij hxne hyne
    have hiL : i < clauses.length := by omega
    have hjL : j < clauses.length := by omega
    have hgi : F.clauses.getD i [] = F.clauses[i] := List.getD_eq_getElem _ _ hi
    have hgj : F.clauses.getD j [] = F.clauses[j] := List.getD_eq_getElem _ _ hj
    have hlivei : F.clauses.getD i [] ≠ [] := by rw [hgi]; exact hxne
    have hlivej : F.clauses.getD j [] ≠ [] := by rw [hgj]; exact hyne
    intro heq
    refine hnosub i j (by omega) hjL hlivei hlivej ?_
    have hveq : clauses.getD i [] = clauses.getD j [] := by
      rw [← hFval i hiL hlivei, ← hFval j hjL hlivej, hgi, hgj, heq]
    rw [hveq]
    exact fun x hx => hx
  have hconc_a : out.Nodup := by
    have hpw_out := hpairwiseF.filter (fun cl => !cl.isEmpty)
    rw [← houtF] at hpw_out
    refine List.Pairwise.imp_of_mem ?_ hpw_out
    intro a b ha hb hR
    rw [houtF, List.mem_filter] at ha hb
    have hane : a ≠ [] := by
      intro h
      rw [h] at ha
      simp at ha
    have hbne : b ≠ [] := by
      intro h
      rw [h] at hb
      simp at hb
    exact hR hane hbne
  have hconc_hl : ∀ cl ∈ clauses,
      (∃ cl' ∈ clauses, listSubset cl' cl ∧ ¬ listSubset cl cl') → cl ∉ out := by
    rintro cl hcl ⟨cl', hcl', hsub', hnsub⟩ hclout
    obtain ⟨d, hdout, hdsub⟩ := hconc_c cl' hcl'
    have hdsubcl : listSubset d cl := fun x hx => hsub' x (hdsub x hx)
    have hdnecl : d ≠ cl := by
      rintro rfl
      exact hnsub hdsub
    exact hconc_d cl hclout d hdout (Ne.symm hdnecl) hdsubcl
  exact ⟨hconc_hl, hconc_b, hconc_c, hconc_a, hconc_d⟩

/-- C4: the contract of `eliminate_subsumed`.  For an input clause list
over `nAll` variables in which every clause is a sorted list of distinct
literals, no clause is empty, and all literals are below `2 * nAll`, a
successful run produces an output such that: every input clause strictly
subsumed by another input clause is removed; every output clause was an
input clause; every input clause is a superset (as a literal set) of
some output clause; the output has no duplicates; and no output clause
is a superset of any other output clause. -/
theorem c4_eliminate_subsumed_correct (clauses : List (List Nat)) (nAll : Nat)
    (out : List (List Nat))
    (hsorted : ∀ cl ∈ clauses, List.Pairwise (· < ·) cl)
    (hne : ∀ cl ∈ clauses, cl ≠ [])
    (hbound : ∀ cl ∈ clauses, ∀ x ∈ cl, x < 2 * nAll)
    (hrun : eliminate_subsumed clauses nAll = some out) :
    (∀ cl ∈ clauses,
      (∃ cl' ∈ clauses, listSubset cl' cl ∧ ¬ listSubset cl cl') → cl ∉ out) ∧
    (∀ cl ∈ out, cl ∈ clauses) ∧
    (∀ cl ∈ clauses, ∃ d ∈ out, listSubset d cl) ∧
    out.Nodup ∧
    (∀ d1 ∈ out, ∀ d2 ∈ out, d1 ≠ d2 → ¬ listSubset d2 d1) :=
  eliminate_subsumed_main clauses nAll out hne hbound hrun

/-- The second run of the subsumption loop never empties a clause when
the clause list is an antichain under set inclusion. -/
theorem loop_noop {out : List (List Nat)} {nAll : Nat}
    (hb : ∀ cl ∈ out, ∀ x ∈ cl, x < 2 * nAll)
    (hnemp : ∀ cl ∈ out, cl ≠ [])
    (hns : ∀ a b, a ≠ b → a < out.length → b < out.length →
      ¬ listSubset (out.getD a []) (out.getD b [])) :
    ∀ (k : Nat) (st : SubChecker), SubChecker.InvO out nAll st →
      k ≤ st.clauses.length →
      (∀ i, st.clauses.getD i [] = out.getD i []) →
      ∀ i, (SubChecker.removeLoop st k).clauses.getD i [] = out.getD i [] := by
  intro k
  induction k with
  | zero => intro st _ _ hpt i; exact hpt i
  | succ k ih =>
    intro st hinv hk hpt i
    have hsl := hinv.hsl hb
    have hstL : st.clauses.length = out.length := hinv.1
    rw [SubChecker.removeLoop_succ]
    set c := st.clauses.length - (k + 1) with hc
    have hcL : c < out.length := by omega
    have hpt' : ∀ i', (SubChecker.p_empty_if_subsumed st c).clauses.getD i' [] =
        out.getD i' [] := by
      intro i'
      by_cases hic : i' = c
      · subst hic
        rcases SubChecker.round_clauses_self st c with hsame | hdead
        · rw [hsame]; exact hpt c
        · exfalso
          have hlive : st.clauses.getD c [] ≠ [] := by
            rw [hpt c, List.getD_eq_getElem _ _ (by omega)]
            exact hnemp _ (List.getElem_mem _)
          obtain ⟨j, hjP, hjne, hjlive, hjsub⟩ :=
            SubChecker.round_sound st c (fun j => j < out.length)
              hinv.2.2.2.2.2.1 hinv.2.2.2.2.1 hsl hlive hdead
          refine hns j c hjne hjP hcL ?_
          rw [← hpt j, ← hpt c]
          exact hjsub
      · rw [SubChecker.round_clauses_other st c i' hic]
        exact hpt i'
    refine ih (SubChecker.p_empty_if_subsumed st c)
      (SubChecker.round_preserves_InvO hb hinv c) ?_ hpt' i
    rw [SubChecker.round_clauses_len]
    omega

/-- C7: `eliminate_subsumed` is idempotent.  Whenever a first
application (over in-range literals) succeeds with output `out`,
applying `eliminate_subsumed` to `out` succeeds and returns `out`
unchanged. -/
theorem c7_eliminate_subsumed_idempotent (clauses : List (List Nat)) (nAll : Nat)
    (out : List (List Nat))
    (hbound : ∀ cl ∈ clauses, ∀ x ∈ cl, x < 2 * nAll)
    (hrun : eliminate_subsumed clauses nAll = some out) :
    eliminate_subsumed out nAll = some out := by
  classical
  -- a successful run means no input clause was empty
  have hne : ∀ cl ∈ clauses, cl ≠ [] := by
    rcases hw : SubChecker.p_init_watches (List.replicate (2 * nAll) []) clauses 0 with
      _ | ⟨w₀⟩
    · exfalso
      unfold eliminate_subsumed SubChecker.init at hrun
      rw [hw] at hrun
      simp at hrun
    · exact SubChecker.init_watches_some_no_empty clauses _ 0 w₀ hw
  obtain ⟨_, hb_mem, _, hnodup, hd⟩ := eliminate_subsumed_main clauses nAll out hne hbound hrun
  have hne' : ∀ cl ∈ out, cl ≠ [] := fun cl hcl => hne cl (hb_mem cl hcl)
  have hb' : ∀ cl ∈ out, ∀ x ∈ cl, x < 2 * nAll := fun cl hcl => hbound cl (hb_mem cl hcl)
  -- the output is an antichain under set inclusion, at the index level
  have hns : ∀ a b, a ≠ b → a < out.length → b < out.length →
      ¬ listSubset (out.getD a []) (out.getD b []) := by
    intro a b hab haL hbL hsub
    have hvne : out.getD a [] ≠ out.getD b [] := by
      rw [List.getD_eq_getElem _ _ haL, List.getD_eq_getElem _ _ hbL]
      intro hcontra
      exact hab ((List.Nodup.getElem_inj_iff hnodup).mp hcontra)
    refine hd (out.getD b []) ?_ (out.getD a []) ?_ (Ne.symm hvne) hsub
    · rw [List.getD_eq_getElem _ _ hbL]
      exact List.getElem_mem _
    · rw [List.getD_eq_getElem _ _ haL]
      exact List.getElem_mem _
  -- the second run
  obtain ⟨w₀', hw₀'⟩ := SubChecker.init_watches_some out (List.replicate (2 * nAll) []) 0 hne'
  have hinit' : SubChecker.init out nAll =
      some ⟨out, StampSet.init (2 * nAll), w₀'⟩ := by
    unfold SubChecker.init
    rw [hw₀']
    rfl
  set st₀' : SubChecker := ⟨out, StampSet.init (2 * nAll), w₀'⟩ with hst₀'
  have hinv₀' : SubChecker.InvO out nAll st₀' :=
    SubChecker.init_InvO out nAll hb' hne' w₀' hw₀'
  have hpt : ∀ i, (SubChecker.removeLoop st₀' out.length).clauses.getD i [] =
      out.getD i [] :=
    loop_noop hb' hne' hns out.length st₀' hinv₀' (le_refl _) (fun _ => rfl)
  have hlenF : (SubChecker.removeLoop st₀' out.length).clauses.length = out.length :=
    (SubChecker.loop_preserves_InvO hb' out.length st₀' hinv₀').1
  have hclsF : (SubChecker.removeLoop st₀' out.length).clauses = out := by
    refine List.ext_getElem hlenF ?_
    intro i h1 h2
    have := hpt i
    rwa [List.getD_eq_getElem _ _ h1, List.getD_eq_getElem _ _ h2] at this
  have hfilter : out.filter (fun cl => !cl.isEmpty) = out := by
    rw [List.filter_eq_self]
    intro a ha
    simpa [List.isEmpty_iff] using hne' a ha
  unfold eliminate_subsumed
  rw [hinit']
  show some (SubChecker.remove_subsumed st₀') = some out
  unfold SubChecker.remove_subsumed
  rw [show st₀'.clauses.length = out.length from rfl, hclsF, hfilter]

/-- C7 (witness): idempotence instantiated on the repository's own
subsumption corner-case test input. -/
theorem c7_eliminate_subsumed_idempotent_witness :
    (∀ cl ∈ ([[0], [2], [2], [2, 4], [2, 5], [0], [0, 3], [3, 6], [1, 3, 5]] :
        List (List Nat)), ∀ x ∈ cl, x < 2 * 4) ∧
    eliminate_subsumed [[0], [2], [2], [2, 4], [2, 5], [0], [0, 3], [3, 6], [1, 3, 5]] 4 =
      some [[2], [0], [3, 6], [1, 3, 5]] ∧
    eliminate_subsumed [[2], [0], [3, 6], [1, 3, 5]] 4 =
      some [[2], [0], [3, 6], [1, 3, 5]] :=
  ⟨by decide, by decide,
    c7_eliminate_subsumed_idempotent
      [[0], [2], [2], [2, 4], [2, 5], [0], [0, 3], [3, 6], [1, 3, 5]] 4
      [[2], [0], [3, 6], [1, 3, 5]] (by decide) (by decide)⟩

/-- C4 (witness): the contract instantiated on the repository's own
subsumption corner-case test input. -/
theorem c4_eliminate_subsumed_correct_witness :
    (∀ cl ∈ ([[0], [2], [2], [2, 4], [2, 5], [0], [0, 3], [3, 6], [1, 3, 5]] :
        List (List Nat)), List.Pairwise (· < ·) cl) ∧
    (∀ cl ∈ ([[0], [2], [2], [2, 4], [2, 5], [0], [0, 3], [3, 6], [1, 3, 5]] :
        List (List Nat)), cl ≠ []) ∧
    (∀ cl ∈ ([[0], [2], [2], [2, 4], [2, 5], [0], [0, 3], [3, 6], [1, 3, 5]] :
        List (List Nat)), ∀ x ∈ cl, x < 2 * 4) ∧
    eliminate_subsumed [[0], [2], [2], [2, 4], [2, 5], [0], [0, 3], [3, 6], [1, 3, 5]] 4 =
      some [[2], [0], [3, 6], [1, 3, 5]] ∧
    ((∀ cl ∈ ([[0], [2], [2], [2, 4], [2, 5], [0], [0, 3], [3, 6], [1, 3, 5]] :
        List (List Nat)),
      (∃ cl' ∈ ([[0], [2], [2], [2, 4], [2, 5], [0], [0, 3], [3, 6], [1, 3, 5]] :
        List (List Nat)), listSubset cl' cl ∧ ¬ listSubset cl cl') →
      cl ∉ ([[2], [0], [3, 6], [1, 3, 5]] : List (List Nat))) ∧
    (∀ cl ∈ ([[2], [0], [3, 6], [1, 3, 5]] : List (List Nat)),
      cl ∈ ([[0], [2], [2], [2, 4], [2, 5], [0], [0, 3], [3, 6], [1, 3, 5]] :
        List (List Nat))) ∧
    (∀ cl ∈ ([[0], [2], [2], [2, 4], [2, 5], [0], [0, 3], [3, 6], [1, 3, 5]] :
        List (List Nat)),
      ∃ d ∈ ([[2], [0], [3, 6], [1, 3, 5]] : List (List Nat)), listSubset d cl) ∧
    ([[2], [0], [3, 6], [1, 3, 5]] : List (List Nat)).Nodup ∧
    (∀ d1 ∈ ([[2], [0], [3, 6], [1, 3, 5]] : List (List Nat)),
      ∀ d2 ∈ ([[2], [0], [3, 6], [1, 3, 5]] : List (List Nat)),
        d1 ≠ d2 → ¬ listSubset d2 d1)) :=
  ⟨by decide, by decide, by decide, by decide,
    c4_eliminate_subsumed_correct _ 4 _ (by decide) (by decide) (by decide) (by decide)⟩

namespace PropState

theorem PropExt_refl (st : PropState) : PropExt st st :=
  ⟨⟨[], [], by simp, by simp, rfl⟩, rfl, rfl, rfl⟩

theorem PropExt_trans {s1 s2 s3 : PropState} (h1 : PropExt s1 s2)
    (h2 : PropExt s2 s3) : PropExt s1 s3 := by
  obtain ⟨⟨e1, f1, he1, hf1, hl1⟩, hv1, hn1, hw1⟩ := h1
  obtain ⟨⟨e2, f2, he2, hf2, hl2⟩, hv2, hn2, hw2⟩ := h2
  exact ⟨⟨e1 ++ e2, f1 ++ f2, by rw [he2, he1, List.append_assoc],
    by rw [hf2, hf1, List.append_assoc], by simp [hl1, hl2]⟩,
    hv2.trans hv1, hn2.trans hn1, hw2.trans hw1⟩

theorem StableExt_refl (st : PropState) : StableExt st st :=
  ⟨PropExt_refl st, rfl⟩

theorem StableExt_trans {s1 s2 s3 : PropState} (h1 : StableExt s1 s2)
    (h2 : StableExt s2 s3) : StableExt s1 s3 :=
  ⟨PropExt_trans h1.1 h2.1, h2.2.trans h1.2⟩

theorem p_assign_at_StableExt (st : PropState) (level literal : Nat) (r : Reason) :
    StableExt st (st.p_assign_at level literal r) :=
  ⟨⟨⟨[literal], [r], rfl, rfl, rfl⟩, rfl, rfl,
    by simp [PropState.p_assign_at, PropState.setVarState]⟩, rfl⟩

theorem p_assign_at_conflicting (st : PropState) (level literal : Nat) (r : Reason) :
    (st.p_assign_at level literal r).conflicting = st.conflicting := rfl

theorem p_propagate_binary_facts (st : PropState) (lfalse other level : Nat) :
    StableExt st (st.p_propagate_binary lfalse other level).1 ∧
    ((st.p_propagate_binary lfalse other level).2 = true →
      (st.p_propagate_binary lfalse other level).1.conflicting = st.conflicting) ∧
    ((st.p_propagate_binary lfalse other level).2 = false →
      (st.p_propagate_binary lfalse other level).1.conflicting = true) := by
  unfold PropState.p_propagate_binary
  by_cases h1 : (st.varState other).is_open
  · simp only [h1, if_pos]
    exact ⟨p_assign_at_StableExt st level other _, fun _ => rfl, fun h => by simp at h⟩
  · simp only [h1, ite_false]
    by_cases h2 : (st.varState other).is_false other
    · simp only [h2, if_pos]
      exact ⟨⟨⟨⟨[], [], by simp, by simp, rfl⟩, rfl, rfl, rfl⟩, rfl⟩,
        fun h => by simp at h, fun _ => rfl⟩
    · simp only [h2, ite_false]
      exact ⟨StableExt_refl st, fun _ => rfl, fun h => by simp at h⟩

theorem binWalk_facts (lfalse level : Nat) :
    ∀ (partners : List Nat) (st : PropState),
      StableExt st (PropState.binWalk lfalse level st partners).1 ∧
      ((PropState.binWalk lfalse level st partners).2 = true →
        (PropState.binWalk lfalse level st partners).1.conflicting = st.conflicting) ∧
      ((PropState.binWalk lfalse level st partners).2 = false →
        (PropState.binWalk lfalse level st partners).1.conflicting = true) := by
  intro partners
  induction partners with
  | nil =>
    intro st
    exact ⟨StableExt_refl st, fun _ => rfl, fun h => by simp [PropState.binWalk] at h⟩
  | cons other rest ih =>
    intro st
    obtain ⟨hse, htrue, hfalse⟩ := p_propagate_binary_facts st lfalse other level
    rw [PropState.binWalk]
    by_cases hb : (st.p_propagate_binary lfalse other level).2 = true
    · rw [if_pos hb]
      obtain ⟨hse', htrue', hfalse'⟩ := ih (st.p_propagate_binary lfalse other level).1
      refine ⟨StableExt_trans hse hse', ?_, hfalse'⟩
      intro hb2
      rw [htrue' hb2, htrue hb]
    · rw [if_neg hb]
      rw [Bool.not_eq_true] at hb
      exact ⟨hse, fun h => absurd (h ▸ hb) (by simp), fun _ => hfalse hb⟩

theorem StableExt_of_fields {st st' : PropState}
    (h1 : st'.trailLits = st.trailLits) (h2 : st'.trailReasons = st.trailReasons)
    (h3 : st'.levels = st.levels) (h4 : st'.numVars = st.numVars)
    (h5 : st'.trailQueueHead = st.trailQueueHead)
    (h6 : st'.vars.length = st.vars.length) : StableExt st st' :=
  ⟨⟨⟨[], [], by simp [h1], by simp [h2], rfl⟩, h3, h4, h6⟩, h5⟩

theorem longWalk_StableExt (lfalse level : Nat) :
    ∀ (rest : List Watcher) (st : PropState) (out : List Watcher),
      StableExt st (PropState.longWalk lfalse level st out rest).1 := by
  intro rest
  induction rest with
  | nil => intro st out; exact StableExt_refl st
  | cons w rest ih =>
    intro st out
    rw [PropState.longWalk]
    repeat'
      first
        | split
        | dsimp only
    all_goals
      first
        | exact ih _ _
        | exact StableExt_of_fields rfl rfl rfl rfl rfl rfl
        | exact StableExt_trans (StableExt_of_fields rfl rfl rfl rfl rfl rfl) (ih _ _)
        | exact StableExt_trans (StableExt_of_fields rfl rfl rfl rfl rfl rfl)
            (StableExt_trans (p_assign_at_StableExt _ level _ _) (ih _ _))

theorem p_propagate_through_longer_facts (st : PropState) (ltrue : Nat) :
    StableExt st (st.p_propagate_through_longer ltrue).1 ∧
    ((st.p_propagate_through_longer ltrue).2 = true →
      (st.p_propagate_through_longer ltrue).1.conflicting = false) ∧
    ((st.p_propagate_through_longer ltrue).2 = false →
      (st.p_propagate_through_longer ltrue).1.conflicting = true) := by
  unfold PropState.p_propagate_through_longer
  refine ⟨StableExt_trans (longWalk_StableExt _ _ _ _ _)
    (StableExt_of_fields rfl rfl rfl rfl rfl rfl), ?_, ?_⟩
  · intro h
    simpa using h
  · intro h
    simpa using h

theorem p_propagate_facts (st : PropState) (ltrue : Nat) :
    StableExt st (st.p_propagate ltrue).1 ∧
    ((st.p_propagate ltrue).2 = true → (st.p_propagate ltrue).1.conflicting = false) ∧
    ((st.p_propagate ltrue).2 = false → (st.p_propagate ltrue).1.conflicting = true) := by
  unfold PropState.p_propagate PropState.p_propagate_through_binaries
  obtain ⟨hse, htrue, hfalse⟩ :=
    binWalk_facts (lit.negate ltrue) (st.levels.length - 1)
      (st.binary_partners_of (lit.negate ltrue)) st
  by_cases hb :
      (PropState.binWalk (lit.negate ltrue) (st.levels.length - 1) st
        (st.binary_partners_of (lit.negate ltrue))).2 = true
  · rw [if_pos hb]
    obtain ⟨hse2, ht2, hf2⟩ :=
      p_propagate_through_longer_facts
        (PropState.binWalk (lit.negate ltrue) (st.levels.length - 1) st
          (st.binary_partners_of (lit.negate ltrue))).1 ltrue
    exact ⟨StableExt_trans hse hse2, ht2, hf2⟩
  · rw [if_neg hb]
    rw [Bool.not_eq_true] at hb
    exact ⟨hse, fun h => absurd (h ▸ hb) (by simp), fun _ => hfalse hb⟩

theorem propagate_facts :
    ∀ (fuel : Nat) (st : PropState) (b : Bool) (st' : PropState),
      PropState.propagate fuel st = some (b, st') →
      PropExt st st' ∧
      st.trailQueueHead ≤ st'.trailQueueHead ∧
      (st.trailQueueHead ≤ st.trailLits.length →
        st'.trailQueueHead ≤ st'.trailLits.length) ∧
      (b = false → st'.conflicting = true) ∧
      (b = true → st'.conflicting = false ∧
        st'.trailLits.length ≤ st'.trailQueueHead) := by
  intro fuel
  induction fuel with
  | zero => intro st b st' h; exact absurd h (by simp [PropState.propagate])
  | succ fuel ih =>
    intro st b st' h
    rw [PropState.propagate] at h
    by_cases hc : st.conflicting = true
    · rw [if_pos hc] at h
      obtain ⟨hb, hst⟩ := Prod.mk.injEq .. ▸ Option.some.injEq .. ▸ h
      subst hst
      exact ⟨PropExt_refl st, le_refl _, fun h => h, fun _ => hc,
        fun ht => absurd (hb ▸ ht) (by simp)⟩
    · rw [if_neg hc] at h
      by_cases hq : st.trailQueueHead < st.trailLits.length
      · rw [if_pos hq] at h
        dsimp only at h
        have hfacts := p_propagate_facts
          ({ st with trailQueueHead := st.trailQueueHead + 1 })
          (st.trailLits.getD st.trailQueueHead 0)
        rcases hres : ({ st with trailQueueHead := st.trailQueueHead + 1 } :
            PropState).p_propagate (st.trailLits.getD st.trailQueueHead 0) with ⟨r1, r2⟩
        rw [hres] at hfacts h
        dsimp only at h
        obtain ⟨⟨hpe, hqh⟩, htT, htF⟩ := hfacts
        have h1 : r1.trailQueueHead = st.trailQueueHead + 1 := hqh
        have hQ : PropExt st { st with trailQueueHead := st.trailQueueHead + 1 } :=
          ⟨⟨[], [], by simp, by simp, rfl⟩, rfl, rfl, rfl⟩
        have hlen1 : st.trailLits.length ≤ r1.trailLits.length := by
          obtain ⟨⟨e, f, he, _, _⟩, _, _, _⟩ := hpe
          have he' : r1.trailLits = st.trailLits ++ e := he
          rw [he']
          simp
        by_cases hr : r2 = true
        · rw [if_pos hr] at h
          obtain ⟨hpe', hmono', hinv', hbf', hbt'⟩ := ih r1 b st' h
          refine ⟨PropExt_trans hQ (PropExt_trans hpe hpe'), ?_, ?_, hbf', hbt'⟩
          · omega
          · intro _
            apply hinv'
            omega
        · rw [if_neg hr] at h
          rw [Bool.not_eq_true] at hr
          obtain ⟨hb, hst⟩ := Prod.mk.injEq .. ▸ Option.some.injEq .. ▸ h
          have hco : st'.conflicting = true := hst ▸ htF hr
          have h1' : st'.trailQueueHead = st.trailQueueHead + 1 := hst ▸ h1
          have hlen1' : st.trailLits.length ≤ st'.trailLits.length := hst ▸ hlen1
          refine ⟨PropExt_trans hQ (hst ▸ hpe), ?_, ?_, fun _ => hco, ?_⟩
          · omega
          · intro _
            omega
          · intro ht
            rw [← hb] at ht
            exact absurd ht (by simp)
      · rw [if_neg hq] at h
        obtain ⟨hb, hst⟩ := Prod.mk.injEq .. ▸ Option.some.injEq .. ▸ h
        subst hst
        refine ⟨PropExt_refl st, le_refl _, fun h => h, ?_, ?_⟩
        · intro hf
          exact absurd (hb ▸ hf) (by simp)
        · intro _
          exact ⟨by simpa using hc, by omega⟩

/-- Shared shape of every successful `push_level` call: the decision
variable was open, exactly one level was appended, and the trail was
extended by the decision (with reason *Decision*) and the literals
propagation asserted after it; a `false` result means a conflict. -/
theorem push_level_some (fuel : Nat) (st : PropState) (d : Nat) (b : Bool)
    (st₁ : PropState) (h : PropState.push_level fuel st d = some (b, st₁)) :
    (st.varState d).is_open = true ∧
    st₁.levels = st.levels ++ [(⟨st.trailLits.length, 0⟩ : LevelInfo)] ∧
    st₁.numVars = st.numVars ∧ st₁.vars.length = st.vars.length ∧
    (∃ e f, st₁.trailLits = st.trailLits ++ d :: e ∧
      st₁.trailReasons = st.trailReasons ++ Reason.decision :: f ∧
      e.length = f.length) ∧
    (b = false → st₁.conflicting = true) ∧
    (b = true → st₁.conflicting = false) := by
  rw [PropState.push_level] at h
  by_cases hop : (st.varState d).is_open = true
  · rw [if_pos hop] at h
    set stL : PropState := { st with levels := st.levels ++ [(⟨st.trailLits.length, 0⟩ : LevelInfo)] }
      with hstL
    set stA := stL.p_assign_at st.levels.length d Reason.decision with hstA
    obtain ⟨⟨⟨e, f, he, hf, hef⟩, hlv, hnv, hvl⟩, _, _, hbf, hbt⟩ :=
      propagate_facts fuel stA b st₁ h
    refine ⟨hop, ?_, ?_, ?_, ?_, hbf, fun ht => (hbt ht).1⟩
    · rw [hlv]
      rfl
    · exact hnv.trans rfl
    · refine hvl.trans ?_
      simp [hstA, hstL, PropState.p_assign_at, PropState.setVarState]
    · refine ⟨e, f, ?_, ?_, hef⟩
      · rw [he]
        simp [hstA, hstL, PropState.p_assign_at, PropState.setVarState]
      · rw [hf]
        simp [hstA, hstL, PropState.p_assign_at, PropState.setVarState]
  · rw [if_neg hop] at h
    exact absurd h (by simp)

theorem getD_set_self {α : Type} :
    ∀ (l : List α) (i : Nat) (a d : α), i < l.length → (l.set i a).getD i d = a
  | _ :: _, 0, _, _, _ => rfl
  | _ :: xs, i + 1, a, d, h => getD_set_self xs i a d (by simpa using h)

theorem getD_set_ne {α : Type} :
    ∀ (l : List α) (i j : Nat) (a d : α), i ≠ j → (l.set i a).getD j d = l.getD j d
  | [], _, _, _, _, _ => rfl
  | _ :: _, 0, 0, _, _, hne => absurd rfl hne
  | _ :: _, 0, _ + 1, _, _, _ => rfl
  | _ :: _, _ + 1, 0, _, _, _ => rfl
  | _ :: xs, i + 1, j + 1, a, d, hne =>
    getD_set_ne xs i j a d (fun h => hne (by rw [h]))

theorem set_oob {α : Type} :
    ∀ (l : List α) (i : Nat) (a : α), l.length ≤ i → l.set i a = l
  | [], _, _, _ => rfl
  | x :: _, 0, _, h => absurd h (by simp)
  | x :: xs, i + 1, a, h => by
    rw [List.set_cons_succ, set_oob xs i a (by simpa using h)]

theorem make_open_is_open (vs : VariableState) : vs.make_open.is_open = true := by
  show decide (2 ^ 31 ≤ mask32) = true
  decide

theorem undoLits_open_persist :
    ∀ (ls : List Nat) (vars0 : List VariableState) (v : Nat),
      (vars0.getD v defaultVar).is_open = true →
      ((PropState.undoLits vars0 ls).getD v defaultVar).is_open = true := by
  intro ls
  induction ls with
  | nil => intro vars0 v h; exact h
  | cons l ls ih =>
    intro vars0 v h
    rw [PropState.undoLits]
    apply ih
    by_cases hv : lit.var l = v
    · subst hv
      by_cases hb : lit.var l < vars0.length
      · rw [getD_set_self _ _ _ _ hb]
        exact make_open_is_open _
      · rw [set_oob _ _ _ (Nat.le_of_not_lt hb)]
        exact h
    · rw [getD_set_ne _ _ _ _ _ hv]
      exact h

/-- Rolling back a state whose top level was pushed at trail position
`st.trailLits.length` (with the pre-push trail and reasons intact below
it) truncates trail, reasons and levels back to their pre-push values
and unassigns exactly the pushed segment. -/
theorem p_rollback_level_concat (st₁ st : PropState) (d : Nat) (e : List Nat)
    (f : List Reason)
    (hlev : st₁.levels = st.levels ++ [(⟨st.trailLits.length, 0⟩ : LevelInfo)])
    (he : st₁.trailLits = st.trailLits ++ d :: e)
    (hf : st₁.trailReasons = st.trailReasons ++ Reason.decision :: f)
    (hr : st.trailReasons.length = st.trailLits.length) :
    st₁.p_rollback_level =
      { st₁ with
          vars := PropState.undoLits st₁.vars
            ((st₁.trailLits.drop st.trailLits.length).reverse)
          trailLits := st.trailLits
          trailReasons := st.trailReasons
          levels := st.levels } := by
  unfold PropState.p_rollback_level
  rw [hlev, List.getLastD_concat]
  dsimp only
  by_cases hL : st.trailLits.length = 0
  · rw [if_pos hL]
    have h0 : st.trailLits = [] := List.eq_nil_of_length_eq_zero hL
    have h0r : st.trailReasons = [] := List.eq_nil_of_length_eq_zero (by omega)
    rw [List.dropLast_concat, h0, h0r]
    simp
  · rw [if_neg hL]
    rw [List.dropLast_concat, he, hf, List.take_left, List.take_left' hr]

theorem undoLits_mem_open :
    ∀ (ls : List Nat) (vars0 : List VariableState) (l : Nat),
      l ∈ ls → lit.var l < vars0.length →
      ((PropState.undoLits vars0 ls).getD (lit.var l) defaultVar).is_open = true := by
  intro ls
  induction ls with
  | nil => intro _ _ h _; exact absurd h (List.not_mem_nil _)
  | cons x ls ih =>
    intro vars0 l hmem hb
    rw [PropState.undoLits]
    rcases List.mem_cons.mp hmem with h | h
    · subst h
      apply undoLits_open_persist
      rw [getD_set_self _ _ _ _ hb]
      exact make_open_is_open _
    · apply ih _ _ h
      rw [List.length_set]
      exact hb

theorem undoLits_length :
    ∀ (ls : List Nat) (vars0 : List VariableState),
      (PropState.undoLits vars0 ls).length = vars0.length := by
  intro ls
  induction ls with
  | nil => intro vars0; rfl
  | cons l ls ih =>
    intro vars0
    rw [PropState.undoLits, ih, List.length_set]

theorem take_clamp {α : Type} (l : List α) (n : Nat) :
    l.take n = l.take (min n l.length) := by
  conv_lhs => rw [show l = l.take l.length from (List.take_length l).symm]
  rw [List.take_take]

theorem AnalysisEq_refl (st : PropState) : AnalysisEq st st :=
  ⟨rfl, rfl, rfl, rfl, rfl, rfl, rfl⟩

theorem AnalysisEq_trans {s1 s2 s3 : PropState} (h1 : AnalysisEq s1 s2)
    (h2 : AnalysisEq s2 s3) : AnalysisEq s1 s3 :=
  ⟨h2.1.trans h1.1, h2.2.1.trans h1.2.1, h2.2.2.1.trans h1.2.2.1,
   h2.2.2.2.1.trans h1.2.2.2.1, h2.2.2.2.2.1.trans h1.2.2.2.2.1,
   h2.2.2.2.2.2.1.trans h1.2.2.2.2.2.1, h2.2.2.2.2.2.2.trans h1.2.2.2.2.2.2⟩

theorem setVarStamp_AnalysisEq (st : PropState) (v s : Nat) :
    AnalysisEq st (st.setVarStamp v s) :=
  ⟨rfl, rfl, rfl, rfl, rfl, by simp [PropState.setVarStamp], rfl⟩

theorem p_stamp_level_AnalysisEq (st : PropState) (level : Nat) :
    AnalysisEq st (st.p_stamp_level level) :=
  ⟨rfl, rfl, by simp [PropState.p_stamp_level], rfl, rfl, rfl, rfl⟩

theorem learnPush_AnalysisEq (st : PropState) (l : Nat) :
    AnalysisEq st { st with learnBuffer := st.learnBuffer ++ [l] } :=
  ⟨rfl, rfl, rfl, rfl, rfl, rfl, rfl⟩

theorem p_increase_stamp_AnalysisEq (st : PropState) :
    AnalysisEq st (st.p_increase_stamp).2 := by
  unfold PropState.p_increase_stamp
  dsimp only
  by_cases hc : st.stampCounter ≥ (2 ^ 32 - 1) - 6
  · rw [if_pos hc]
    exact ⟨rfl, rfl, by simp, rfl, rfl, by simp, rfl⟩
  · rw [if_neg hc]
    exact ⟨rfl, rfl, rfl, rfl, rfl, rfl, rfl⟩

theorem stampAndCountLoop_AnalysisEq (level : Nat) :
    ∀ (ls : List Nat) (st : PropState) (count : Nat),
      AnalysisEq st (PropState.stampAndCountLoop level st count ls).1 := by
  intro ls
  induction ls with
  | nil => intro st count; exact AnalysisEq_refl st
  | cons l ls ih =>
    intro st count
    rw [PropState.stampAndCountLoop]
    repeat'
      first
        | split
        | dsimp only
    all_goals
      first
        | exact ih _ _
        | exact AnalysisEq_trans (setVarStamp_AnalysisEq _ _ _) (ih _ _)
        | exact AnalysisEq_trans (p_stamp_level_AnalysisEq _ _)
            (AnalysisEq_trans (learnPush_AnalysisEq _ _)
              (AnalysisEq_trans (setVarStamp_AnalysisEq _ _ _) (ih _ _)))

theorem conflictWalk_AnalysisEq (level : Nat) :
    ∀ (trailRev : List Nat) (st : PropState) (onC : Nat)
      (reasonsRev : List Reason) (res : PropState × List Nat × List Reason),
      PropState.conflictWalk level st onC trailRev reasonsRev = some res →
      AnalysisEq st res.1 := by
  intro trailRev
  induction trailRev with
  | nil =>
    intro st onC reasonsRev res h
    rw [PropState.conflictWalk] at h
    by_cases h1 : onC ≤ 1
    · rw [if_pos h1] at h
      injection h with h2
      subst h2
      exact AnalysisEq_refl st
    · rw [if_neg h1] at h
      exact Option.noConfusion h
  | cons l trailRev ih =>
    intro st onC reasonsRev res h
    rw [PropState.conflictWalk.eq_def] at h
    dsimp only at h
    by_cases h1 : onC ≤ 1
    · rw [if_pos h1] at h
      injection h with h2
      subst h2
      exact AnalysisEq_refl st
    · rw [if_neg h1] at h
      cases reasonsRev with
      | nil =>
        dsimp only at h
        exact Option.noConfusion h
      | cons r reasonsRev =>
        dsimp only at h
        by_cases h2 :
            (st.vars.getD (lit.var l) PropState.defaultVar).stamp ≥ st.stampCounter
        · rw [if_pos h2] at h
          exact AnalysisEq_trans (stampAndCountLoop_AnalysisEq level _ st 0)
            (ih _ _ _ _ h)
        · rw [if_neg h2] at h
          exact ih _ _ _ _ h

theorem redundantLoop_AnalysisEq_of (fuel : Nat)
    (hP : ∀ (st : PropState) (v : Nat) (b : Bool) (st' : PropState),
      PropState.p_is_redundant fuel st v = some (b, st') → AnalysisEq st st') :
    ∀ (ls : List Nat) (v : Nat) (st : PropState) (b : Bool) (st' : PropState),
      PropState.redundantLoop fuel v st ls = some (b, st') → AnalysisEq st st' := by
  intro ls
  induction ls with
  | nil =>
    intro v st b st' h
    rw [PropState.redundantLoop] at h
    injection h with h2
    obtain ⟨_, h4⟩ := Prod.mk.injEq .. ▸ h2
    exact h4 ▸ AnalysisEq_refl st
  | cons rl rest ihl =>
    intro v st b st' h
    rw [PropState.redundantLoop] at h
    dsimp only at h
    by_cases hc1 : lit.var rl = v
    · rw [if_pos hc1] at h
      exact ihl _ _ _ _ h
    · rw [if_neg hc1] at h
      by_cases hc2 : (st.vars.getD (lit.var rl) PropState.defaultVar).level = 0
      · rw [if_pos hc2] at h
        exact ihl _ _ _ _ h
      · rw [if_neg hc2] at h
        by_cases hc3 : (st.vars.getD (lit.var rl) PropState.defaultVar).stamp =
            st.stampCounter + 2
        · rw [if_pos hc3] at h
          injection h with h2
          obtain ⟨_, h4⟩ := Prod.mk.injEq .. ▸ h2
          exact h4 ▸ AnalysisEq_refl st
        · rw [if_neg hc3] at h
          by_cases hc4 : (st.vars.getD (lit.var rl) PropState.defaultVar).stamp <
              st.stampCounter
          · rw [if_pos hc4] at h
            by_cases hc5 : (st.levels.getD
                ((st.vars.getD (lit.var rl) PropState.defaultVar).level).toNat
                ⟨0, 0⟩).stamp < st.stampCounter
            · rw [if_pos hc5] at h
              injection h with h2
              obtain ⟨_, h4⟩ := Prod.mk.injEq .. ▸ h2
              exact h4 ▸ AnalysisEq_refl st
            · rw [if_neg hc5] at h
              rcases hred : PropState.p_is_redundant fuel st (lit.var rl)
                with _ | ⟨br, str⟩
              · rw [hred] at h
                exact Option.noConfusion h
              · rw [hred] at h
                cases br
                · dsimp only at h
                  injection h with h2
                  obtain ⟨_, h4⟩ := Prod.mk.injEq .. ▸ h2
                  exact h4 ▸ hP _ _ _ _ hred
                · dsimp only at h
                  exact AnalysisEq_trans (hP _ _ _ _ hred) (ihl _ _ _ _ h)
          · rw [if_neg hc4] at h
            exact ihl _ _ _ _ h

theorem p_is_redundant_AnalysisEq :
    ∀ (fuel : Nat) (st : PropState) (v : Nat) (b : Bool) (st' : PropState),
      PropState.p_is_redundant fuel st v = some (b, st') → AnalysisEq st st' := by
  intro fuel
  induction fuel with
  | zero =>
    intro st v b st' h
    simp only [PropState.p_is_redundant] at h
    exact Option.noConfusion h
  | succ fuel ih =>
    intro st v b st' h
    rw [PropState.p_is_redundant] at h
    dsimp only at h
    by_cases h1 : (st.vars.getD v PropState.defaultVar).stamp = st.stampCounter + 1
    · rw [if_pos h1] at h
      injection h with h2
      obtain ⟨_, h4⟩ := Prod.mk.injEq .. ▸ h2
      exact h4 ▸ AnalysisEq_refl st
    · rw [if_neg h1] at h
      by_cases h2 : (st.vars.getD v PropState.defaultVar).stamp = st.stampCounter + 2
      · rw [if_pos h2] at h
        injection h with h3
        obtain ⟨_, h4⟩ := Prod.mk.injEq .. ▸ h3
        exact h4 ▸ AnalysisEq_refl st
      · rw [if_neg h2] at h
        by_cases h3 : (st.trailReasons.getD
            (st.vars.getD v PropState.defaultVar).trailPos
            Reason.decision).reason_length = 0
        · rw [if_pos h3] at h
          injection h with h4
          obtain ⟨_, h5⟩ := Prod.mk.injEq .. ▸ h4
          exact h5 ▸ setVarStamp_AnalysisEq st v (st.stampCounter + 2)
        · rw [if_neg h3] at h
          rcases hloop : PropState.redundantLoop fuel v st
              (st.reasonLits (st.trailReasons.getD
                (st.vars.getD v PropState.defaultVar).trailPos Reason.decision))
            with _ | ⟨bl, stl⟩
          · rw [hloop] at h
            exact Option.noConfusion h
          · rw [hloop] at h
            cases bl
            · dsimp only at h
              injection h with h4
              obtain ⟨_, h5⟩ := Prod.mk.injEq .. ▸ h4
              exact h5 ▸ redundantLoop_AnalysisEq_of fuel ih _ _ _ _ _ hloop
            · dsimp only at h
              injection h with h4
              obtain ⟨_, h5⟩ := Prod.mk.injEq .. ▸ h4
              refine h5 ▸ AnalysisEq_trans
                (redundantLoop_AnalysisEq_of fuel ih _ _ _ _ _ hloop) ?_
              exact setVarStamp_AnalysisEq stl v (stl.stampCounter + 1)

theorem filterRedLoop_AnalysisEq (fuel : Nat) :
    ∀ (ls : List Nat) (st : PropState) (res : PropState × List Nat),
      PropState.filterRedLoop fuel st ls = some res → AnalysisEq st res.1 := by
  intro ls
  induction ls with
  | nil =>
    intro st res h
    rw [PropState.filterRedLoop] at h
    injection h with h2
    subst h2
    exact AnalysisEq_refl st
  | cons l ls ih =>
    intro st res h
    rw [PropState.filterRedLoop] at h
    by_cases h1 : (st.vars.getD (lit.var l) PropState.defaultVar).level = 0
    · rw [if_pos h1] at h
      exact ih _ _ h
    · rw [if_neg h1] at h
      by_cases h2 : (st.levels.getD
          ((st.vars.getD (lit.var l) PropState.defaultVar).level).toNat
          ⟨0, 0⟩).stamp ≠ st.stampCounter + 1
      · rw [if_pos h2] at h
        rcases hrec : PropState.filterRedLoop fuel st ls with _ | ⟨st2, kept⟩
        · rw [hrec] at h
          exact Option.noConfusion h
        · rw [hrec] at h
          dsimp only at h
          injection h with h3
          subst h3
          exact ih _ (st2, kept) hrec
      · rw [if_neg h2] at h
        rcases hred : PropState.p_is_redundant fuel st (lit.var l) with _ | ⟨br, str⟩
        · rw [hred] at h
          exact Option.noConfusion h
        · rw [hred] at h
          cases br
          · dsimp only at h
            rcases hrec : PropState.filterRedLoop fuel str ls with _ | ⟨st2, kept⟩
            · rw [hrec] at h
              exact Option.noConfusion h
            · rw [hrec] at h
              dsimp only at h
              injection h with h3
              subst h3
              exact AnalysisEq_trans (p_is_redundant_AnalysisEq fuel _ _ _ _ hred)
                (ih _ (st2, kept) hrec)
          · dsimp only at h
            exact AnalysisEq_trans (p_is_redundant_AnalysisEq fuel _ _ _ _ hred)
              (ih _ _ h)

theorem p_filter_redundancies_AnalysisEq (fuel : Nat) (st st' : PropState)
    (h : PropState.p_filter_redundancies fuel st = some st') : AnalysisEq st st' := by
  unfold PropState.p_filter_redundancies at h
  dsimp only at h
  rcases hrec : PropState.filterRedLoop fuel
      { st with learnBuffer := PropState.swapFrontBack st.learnBuffer }
      (PropState.swapFrontBack st.learnBuffer).tail with _ | ⟨st2, kept⟩
  · rw [hrec] at h
    exact Option.noConfusion h
  · rw [hrec] at h
    dsimp only at h
    injection h with h2
    subst h2
    refine AnalysisEq_trans (⟨rfl, rfl, rfl, rfl, rfl, rfl, rfl⟩ :
      AnalysisEq st { st with learnBuffer := PropState.swapFrontBack st.learnBuffer }) ?_
    exact AnalysisEq_trans (filterRedLoop_AnalysisEq fuel _ _ _ hrec)
      ⟨rfl, rfl, rfl, rfl, rfl, rfl, rfl⟩

theorem p_compute_conflict_clause_AnalysisEq (fuel : Nat) (st st' : PropState)
    (h : PropState.p_compute_conflict_clause fuel st = some st') :
    AnalysisEq st st' := by
  unfold PropState.p_compute_conflict_clause at h
  rcases hinc : st.p_increase_stamp with ⟨sc, st1⟩
  rw [hinc] at h
  dsimp only at h
  simp only [Option.bind_eq_bind, Option.bind_eq_some] at h
  obtain ⟨⟨stW, trailRev, rr⟩, hw, h⟩ := h
  obtain ⟨uip, hu, hfil⟩ := h
  have h1 : AnalysisEq st st1 := by
    have h0 := p_increase_stamp_AnalysisEq st
    rw [hinc] at h0
    exact h0
  refine AnalysisEq_trans h1 (AnalysisEq_trans
    (stampAndCountLoop_AnalysisEq (st1.levels.length - 1)
      (st1.reasonLits st1.conflictReason) st1 0) ?_)
  refine AnalysisEq_trans
    (conflictWalk_AnalysisEq _ _ _ _ _ _ hw : AnalysisEq _ (stW, trailRev, rr).1) ?_
  exact AnalysisEq_trans (learnPush_AnalysisEq stW (lit.negate uip))
    (p_filter_redundancies_AnalysisEq fuel _ _ hfil)

theorem p_rollback_level_facts (st : PropState) :
    (∃ m, m ≤ st.trailLits.length ∧
      st.p_rollback_level.trailLits = st.trailLits.take m) ∧
    st.p_rollback_level.levels = st.levels.dropLast ∧
    st.p_rollback_level.trailQueueHead = st.trailQueueHead ∧
    st.p_rollback_level.numVars = st.numVars ∧
    st.p_rollback_level.vars.length = st.vars.length ∧
    st.p_rollback_level.learnBuffer = st.learnBuffer ∧
    st.p_rollback_level.conflicting = st.conflicting := by
  unfold PropState.p_rollback_level
  dsimp only
  by_cases h0 : (st.levels.getLastD ⟨0, 0⟩).trailPos = 0
  · rw [if_pos h0]
    exact ⟨⟨0, Nat.zero_le _, by simp⟩, rfl, rfl, rfl, undoLits_length _ _, rfl, rfl⟩
  · rw [if_neg h0]
    refine ⟨⟨min (st.levels.getLastD ⟨0, 0⟩).trailPos st.trailLits.length,
      Nat.min_le_right _ _, ?_⟩, rfl, rfl, rfl, undoLits_length _ _, rfl, rfl⟩
    exact take_clamp _ _

theorem rollbackTo_facts (tlvl : Nat) :
    ∀ (fuel : Nat) (st : PropState),
      (∃ m, m ≤ st.trailLits.length ∧
        (PropState.rollbackTo tlvl fuel st).trailLits = st.trailLits.take m) ∧
      (PropState.rollbackTo tlvl fuel st).levels.length ≤ st.levels.length ∧
      (1 ≤ st.levels.length → 1 ≤ (PropState.rollbackTo tlvl fuel st).levels.length) ∧
      (PropState.rollbackTo tlvl fuel st).numVars = st.numVars ∧
      (PropState.rollbackTo tlvl fuel st).vars.length = st.vars.length ∧
      (PropState.rollbackTo tlvl fuel st).learnBuffer = st.learnBuffer ∧
      (PropState.rollbackTo tlvl fuel st).conflicting = st.conflicting := by
  intro fuel
  induction fuel with
  | zero =>
    intro st
    exact ⟨⟨st.trailLits.length, le_refl _, (List.take_length _).symm⟩,
      le_refl _, fun h => h, rfl, rfl, rfl, rfl⟩
  | succ fuel ih =>
    intro st
    rw [PropState.rollbackTo]
    by_cases hc : tlvl + 1 < st.levels.length
    · rw [if_pos hc]
      obtain ⟨⟨m1, hm1le, hm1⟩, hl, hq, hn, hv, hb, hcf⟩ := p_rollback_level_facts st
      obtain ⟨⟨m2, hm2le, hm2⟩, hl2, hg2, hn2, hv2, hb2, hcf2⟩ :=
        ih st.p_rollback_level
      refine ⟨⟨min m2 m1, by omega, ?_⟩, ?_, ?_, hn2.trans hn, hv2.trans hv,
        hb2.trans hb, hcf2.trans hcf⟩
      · rw [hm2, hm1, List.take_take]
      · rw [hl] at hl2
        have := List.length_dropLast st.levels
        omega
      · intro h1
        apply hg2
        rw [hl, List.length_dropLast]
        omega
    · rw [if_neg hc]
      exact ⟨⟨st.trailLits.length, le_refl _, (List.take_length _).symm⟩,
        le_refl _, fun h => h, rfl, rfl, rfl, rfl⟩

theorem p_jumpback_facts (st : PropState) :
    (∃ m, m ≤ st.trailLits.length ∧
      ((st.p_jumpback_to_target).2).trailLits = st.trailLits.take m) ∧
    ((st.p_jumpback_to_target).2).trailQueueHead =
      ((st.p_jumpback_to_target).2).trailLits.length ∧
    (1 ≤ st.levels.length →
      ((st.p_jumpback_to_target).2).levels.length < st.levels.length) ∧
    (2 ≤ st.levels.length → 1 ≤ ((st.p_jumpback_to_target).2).levels.length) ∧
    ((st.p_jumpback_to_target).2).numVars = st.numVars ∧
    ((st.p_jumpback_to_target).2).vars.length = st.vars.length ∧
    ((st.p_jumpback_to_target).2).learnBuffer = st.learnBuffer ∧
    ((st.p_jumpback_to_target).2).conflicting = st.conflicting := by
  unfold PropState.p_jumpback_to_target
  dsimp only
  obtain ⟨⟨m1, hm1le, hm1⟩, hl, hq, hn, hv, hb, hcf⟩ := p_rollback_level_facts st
  obtain ⟨⟨m2, hm2le, hm2⟩, hl2, hg2, hn2, hv2, hb2, hcf2⟩ :=
    rollbackTo_facts (st.p_target_level).1 st.p_rollback_level.levels.length
      st.p_rollback_level
  refine ⟨⟨min m2 m1, by omega, ?_⟩, rfl, ?_, ?_, hn2.trans hn, hv2.trans hv,
    hb2.trans hb, hcf2.trans hcf⟩
  · rw [hm2, hm1, List.take_take]
  · intro h1
    have hx : st.p_rollback_level.levels.length = st.levels.length - 1 := by
      rw [hl, List.length_dropLast]
    omega
  · intro h2
    apply hg2
    rw [hl, List.length_dropLast]
    omega

theorem p_insert_preserves (st : PropState) :
    ((st.p_insert_conflict_clause).2).trailLits = st.trailLits ∧
    ((st.p_insert_conflict_clause).2).trailReasons = st.trailReasons ∧
    ((st.p_insert_conflict_clause).2).levels = st.levels ∧
    ((st.p_insert_conflict_clause).2).trailQueueHead = st.trailQueueHead ∧
    ((st.p_insert_conflict_clause).2).numVars = st.numVars ∧
    ((st.p_insert_conflict_clause).2).vars = st.vars ∧
    ((st.p_insert_conflict_clause).2).learnBuffer = st.learnBuffer ∧
    ((st.p_insert_conflict_clause).2).conflicting = st.conflicting := by
  unfold PropState.p_insert_conflict_clause
  split
  · exact ⟨rfl, rfl, rfl, rfl, rfl, rfl, rfl, rfl⟩
  · exact ⟨rfl, rfl, rfl, rfl, rfl, rfl, rfl, rfl⟩
  · exact ⟨rfl, rfl, rfl, rfl, rfl, rfl, rfl, rfl⟩

theorem p_new_watch_preserves (st : PropState) (learnt target clause : Nat)
    (st' : PropState) (h : st.p_new_watch learnt target clause = some st') :
    st'.trailLits = st.trailLits ∧
    st'.levels = st.levels ∧
    st'.trailQueueHead = st.trailQueueHead ∧
    st'.numVars = st.numVars ∧
    st'.vars = st.vars ∧
    st'.learnBuffer = st.learnBuffer ∧
    st'.conflicting = st.conflicting := by
  unfold PropState.p_new_watch at h
  dsimp only at h
  split at h
  · exact Option.noConfusion h
  · injection h with h2
    subst h2
    exact ⟨rfl, rfl, rfl, rfl, rfl, rfl, rfl⟩

/-- `p_handle_conflict_clause`: the learnt-clause insertion and
backjump always leave the queue head within the trail, drop at least
one level (strictly below the pre-call level count, staying nonempty
from level ≥ 1), and produce a trail that is a prefix of the old trail
followed by the freshly asserted learnt literal. -/
theorem p_handle_conflict_clause_facts (st st' : PropState)
    (h : st.p_handle_conflict_clause = some st') :
    st'.trailQueueHead ≤ st'.trailLits.length ∧
    st'.numVars = st.numVars ∧
    (1 ≤ st.levels.length → st'.levels.length < st.levels.length) ∧
    (2 ≤ st.levels.length → 1 ≤ st'.levels.length) ∧
    (∃ m l e, m ≤ st.trailLits.length ∧
      st'.trailLits = st.trailLits.take m ++ l :: e) := by
  unfold PropState.p_handle_conflict_clause at h
  rcases hins : st.p_insert_conflict_clause with ⟨cref, stI⟩
  rw [hins] at h
  dsimp only at h
  have hinsf := p_insert_preserves st
  rw [hins] at hinsf
  dsimp only at hinsf
  obtain ⟨hIt, hIr, hIl, hIq, hIn, hIv, hIb, hIc⟩ := hinsf
  rcases hJ : stI.p_jumpback_to_target with ⟨⟨tlvl, tlit⟩, stJ⟩
  rw [hJ] at h
  dsimp only at h
  have hJf := p_jumpback_facts stI
  rw [hJ] at hJf
  dsimp only at hJf
  obtain ⟨⟨mJ, hmJle, hJt⟩, hJq, hJlt, hJge, hJn, hJv, hJb, hJc⟩ := hJf
  have hstep : ∃ stB : PropState, st' = { stB with learnBuffer := [] } ∧
      stB.trailLits = stJ.trailLits ++ [stJ.learnBuffer.headD 0] ∧
      stB.trailQueueHead = stJ.trailQueueHead ∧
      stB.levels = stJ.levels ∧ stB.numVars = stJ.numVars := by
    rcases hbuf : stJ.learnBuffer with _ | ⟨l1, rest1⟩
    · rw [hbuf] at h
      dsimp only at h
      simp only [Option.bind_eq_bind, Option.bind_eq_some] at h
      obtain ⟨stB, hB, h2⟩ := h
      obtain ⟨hNt, hNl, hNq, hNn, _, _, _⟩ := p_new_watch_preserves _ _ _ _ _ hB
      injection h2 with h2
      refine ⟨stB, h2.symm, ?_, hNq.trans rfl, hNl.trans rfl, hNn.trans rfl⟩
      rw [hNt]
      rfl
    · rcases rest1 with _ | ⟨l2, rest2⟩
      · rw [hbuf] at h
        dsimp only at h
        injection h with h2
        refine ⟨_, h2.symm, ?_, rfl, rfl, rfl⟩
        rfl
      · rcases rest2 with _ | ⟨l3, rest3⟩
        · rw [hbuf] at h
          dsimp only at h
          injection h with h2
          refine ⟨_, h2.symm, ?_, rfl, rfl, rfl⟩
          rfl
        · rw [hbuf] at h
          dsimp only at h
          simp only [Option.bind_eq_bind, Option.bind_eq_some] at h
          obtain ⟨stB, hB, h2⟩ := h
          obtain ⟨hNt, hNl, hNq, hNn, _, _, _⟩ := p_new_watch_preserves _ _ _ _ _ hB
          injection h2 with h2
          refine ⟨stB, h2.symm, ?_, hNq.trans rfl, hNl.trans rfl, hNn.trans rfl⟩
          rw [hNt]
          rfl
  obtain ⟨stB, hst', hKt, hKq, hKl, hKn⟩ := hstep
  subst hst'
  refine ⟨?_, ?_, ?_, ?_, ?_⟩
  · show stB.trailQueueHead ≤ stB.trailLits.length
    have h1 : stB.trailQueueHead = stJ.trailLits.length := hKq.trans hJq
    have h2 : stB.trailLits.length = stJ.trailLits.length + 1 := by
      rw [hKt]
      simp
    omega
  · show stB.numVars = st.numVars
    exact hKn.trans (hJn.trans hIn)
  · intro h1
    show stB.levels.length < st.levels.length
    rw [hKl]
    have h2 := hJlt (by rw [hIl]; exact h1)
    rw [hIl] at h2
    exact h2
  · intro h2
    show 1 ≤ stB.levels.length
    rw [hKl]
    exact hJge (by rw [hIl]; exact h2)
  · refine ⟨mJ, stJ.learnBuffer.headD 0, [], ?_, ?_⟩
    · rw [hIt] at hmJle
      exact hmJle
    · show stB.trailLits = st.trailLits.take mJ ++ stJ.learnBuffer.headD 0 :: []
      rw [hKt, hJt, hIt]

theorem take_mid_split {α : Type} (base : List α) (m₁ : Nat) (x : α) (rest : List α)
    (m₂ : Nat) (y : α) (tail2 : List α) :
    ∃ m z e, m ≤ base.length ∧
      (base.take m₁ ++ x :: rest).take m₂ ++ y :: tail2 = base.take m ++ z :: e := by
  by_cases hm : m₂ ≤ (base.take m₁).length
  · refine ⟨min (min m₂ m₁) base.length, y, tail2, Nat.min_le_right _ _, ?_⟩
    rw [List.take_append_eq_append_take]
    have h0 : m₂ - (base.take m₁).length = 0 := by omega
    rw [h0, List.take_take, List.take_zero, List.append_nil]
    congr 1
    exact take_clamp base (min m₂ m₁)
  · push_neg at hm
    have hlen : (base.take m₁).length = min m₁ base.length := List.length_take _ _
    refine ⟨min m₁ base.length, x,
      rest.take (m₂ - (base.take m₁).length - 1) ++ y :: tail2,
      Nat.min_le_right _ _, ?_⟩
    rw [List.take_append_eq_append_take]
    have h1 : (x :: rest).take (m₂ - (base.take m₁).length) =
        x :: rest.take (m₂ - (base.take m₁).length - 1) := by
      rw [show m₂ - (base.take m₁).length =
        (m₂ - (base.take m₁).length - 1) + 1 from by omega, List.take_succ_cons]
      simp
    rw [h1, List.take_of_length_le (le_of_lt hm), take_clamp base m₁]
    simp

/-- The master contract of `resolve_conflicts`: the queue-head
invariant is preserved; a `false` result leaves a conflicting state at
level count 1 (current level 0); a `true` result on a conflicting
state resolves the conflict, strictly lowers the level count (keeping
it positive), and asserts a fresh literal after a prefix of the old
trail. -/
theorem resolve_conflicts_main :
    ∀ (fuel : Nat) (st : PropState) (b : Bool) (st' : PropState),
      PropState.resolve_conflicts fuel st = some (b, st') →
      (st.trailQueueHead ≤ st.trailLits.length →
        st'.trailQueueHead ≤ st'.trailLits.length) ∧
      (b = false → st'.conflicting = true ∧ st'.levels.length = 1) ∧
      (st.conflicting = true → 1 ≤ st.levels.length → b = true →
        st'.conflicting = false ∧ 1 ≤ st'.levels.length ∧
        st'.levels.length < st.levels.length ∧
        ∃ m l e, m ≤ st.trailLits.length ∧
          st'.trailLits = st.trailLits.take m ++ l :: e) := by
  intro fuel
  induction fuel with
  | zero =>
    intro st b st' h
    simp only [PropState.resolve_conflicts] at h
    exact Option.noConfusion h
  | succ fuel ih =>
    intro st b st' h
    rw [PropState.resolve_conflicts] at h
    by_cases hc : st.conflicting = true
    · rw [if_neg (by simp [hc])] at h
      by_cases hl1 : st.levels.length = 1
      · rw [if_pos hl1] at h
        injection h with h2
        obtain ⟨hb, hst⟩ := Prod.mk.injEq .. ▸ h2
        subst hst
        refine ⟨fun hq => hq, fun _ => ⟨hc, hl1⟩, ?_⟩
        intro _ _ hbt
        rw [← hb] at hbt
        exact absurd hbt (by simp)
      · rw [if_neg hl1] at h
        simp only [Option.bind_eq_bind, Option.bind_eq_some] at h
        obtain ⟨stC, hcomp, h⟩ := h
        obtain ⟨stH, hhandle, h⟩ := h
        obtain ⟨⟨bp, stP⟩, hprop, h⟩ := h
        obtain ⟨hAt, hAr, hAl, hAq, hAn, hAv, hAc⟩ :=
          p_compute_conflict_clause_AnalysisEq _ _ _ hcomp
        obtain ⟨hHq, hHn, hHlt, hHge, ⟨mH, lH, eH, hmHle, hHt⟩⟩ :=
          p_handle_conflict_clause_facts _ _ hhandle
        rw [hAt] at hmHle hHt
        obtain ⟨hPe, hPmono, hPinv, hPbf, hPbt⟩ := propagate_facts _ _ _ _ hprop
        obtain ⟨⟨eP, fP, hPt, hPr, hPef⟩, hPl, hPn, hPv⟩ := hPe
        have hRq : (stH.p_reset_conflict).trailQueueHead ≤
            (stH.p_reset_conflict).trailLits.length := hHq
        have hPq : stP.trailQueueHead ≤ stP.trailLits.length := hPinv hRq
        have hPlv : stP.levels.length = stH.levels.length := by
          rw [hPl]
          rfl
        have hPt' : stP.trailLits = st.trailLits.take mH ++ lH :: (eH ++ eP) := by
          rw [hPt]
          show stH.trailLits ++ eP = _
          rw [hHt]
          simp
        cases bp
        · dsimp only at h
          obtain ⟨hRinv, hRbf, hRbt⟩ := ih stP b st' h
          refine ⟨fun _ => hRinv hPq, hRbf, ?_⟩
          intro _ hlv hbt
          have hPconf : stP.conflicting = true := hPbf rfl
          have hlvC : 2 ≤ stC.levels.length := by omega
          have hHlt2 : stH.levels.length < stC.levels.length := hHlt (by omega)
          have hHge2 : 1 ≤ stH.levels.length := hHge hlvC
          obtain ⟨hfin1, hfin1b, hfin2, mR, lR, eR, hmRle, hRt⟩ :=
            hRbt hPconf (by omega) hbt
          refine ⟨hfin1, hfin1b, by omega, ?_⟩
          rw [hRt, hPt']
          obtain ⟨m3, z3, e3, hm3, heq3⟩ :=
            take_mid_split st.trailLits mH lH (eH ++ eP) mR lR eR
          exact ⟨m3, z3, e3, hm3, heq3⟩
        · dsimp only at h
          injection h with h2
          obtain ⟨hb2, hst2⟩ := Prod.mk.injEq .. ▸ h2
          subst hst2
          refine ⟨fun _ => hPq, ?_, ?_⟩
          · intro hbf
            rw [← hb2] at hbf
            exact absurd hbf (by simp)
          · intro _ hlv _
            have hcf : stP.conflicting = false := (hPbt rfl).1
            have hlvC : 2 ≤ stC.levels.length := by omega
            have hHlt2 : stH.levels.length < stC.levels.length := hHlt (by omega)
            have hHge2 : 1 ≤ stH.levels.length := hHge hlvC
            refine ⟨hcf, by omega, by omega, ?_⟩
            exact ⟨mH, lH, eH ++ eP, hmHle, hPt'⟩
    · rw [Bool.not_eq_true] at hc
      rw [if_pos (by simp [hc])] at h
      injection h with h2
      obtain ⟨hb, hst⟩ := Prod.mk.injEq .. ▸ h2
      subst hst
      refine ⟨fun hq => hq, ?_, ?_⟩
      · intro hbf
        rw [← hb] at hbf
        exact absurd hbf (by simp)
      · intro hconf _ _
        rw [hc] at hconf
        exact absurd hconf (by simp)

theorem p_assign_at_0_queue (st : PropState) (l : Nat) :
    (st.p_assign_at_0 l).1.trailQueueHead = st.trailQueueHead := by
  unfold PropState.p_assign_at_0
  dsimp only
  repeat' split
  all_goals rfl

theorem initUnariesLoop_queue :
    ∀ (ls : List Nat) (st : PropState),
      (PropState.initUnariesLoop st ls).trailQueueHead = st.trailQueueHead := by
  intro ls
  induction ls with
  | nil => intro st; rfl
  | cons l ls ih =>
    intro st
    rw [PropState.initUnariesLoop]
    split
    · exact (ih _).trans (p_assign_at_0_queue st l)
    · exact p_assign_at_0_queue st l

theorem binaryWatchInner_queue :
    ∀ (ls : List Nat) (st : PropState),
      (PropState.binaryWatchInner st ls).1.trailQueueHead = st.trailQueueHead := by
  intro ls
  induction ls with
  | nil => intro st; rfl
  | cons partner rest ih =>
    intro st
    rw [PropState.binaryWatchInner]
    split
    · exact (ih _).trans ((p_assign_at_0_queue _ partner).trans rfl)
    · exact (p_assign_at_0_queue _ partner).trans rfl

theorem binaryWatchOuter_queue :
    ∀ (ls : List Nat) (st : PropState),
      (PropState.binaryWatchOuter st ls).trailQueueHead = st.trailQueueHead := by
  intro ls
  induction ls with
  | nil => intro st; rfl
  | cons l ls ih =>
    intro st
    rw [PropState.binaryWatchOuter]
    split
    · dsimp only
      split
      · exact (ih _).trans (binaryWatchInner_queue _ st)
      · exact binaryWatchInner_queue _ st
    · exact ih st

theorem p_new_long_clause_queue (st : PropState) (ref : Nat) :
    (st.p_new_long_clause_on_construction ref).trailQueueHead =
      st.trailQueueHead := by
  unfold PropState.p_new_long_clause_on_construction
  dsimp only
  split
  · rfl
  · rfl
  · exact (p_assign_at_0_queue _ _).trans rfl
  · rfl

theorem initLongLoop_queue :
    ∀ (fuel : Nat) (st : PropState) (ref : Nat),
      (PropState.initLongLoop fuel st ref).trailQueueHead = st.trailQueueHead := by
  intro fuel
  induction fuel with
  | zero => intro st ref; rfl
  | succ fuel ih =>
    intro st ref
    rw [PropState.initLongLoop]
    split
    · dsimp only
      split
      · exact p_new_long_clause_queue st ref
      · exact (ih _ _).trans (p_new_long_clause_queue st ref)
    · rfl

theorem p_init_watches_queue (st : PropState) :
    (st.p_init_watches).trailQueueHead = st.trailQueueHead := by
  unfold PropState.p_init_watches
  dsimp only
  split
  · exact initUnariesLoop_queue _ st
  · split
    · exact (initLongLoop_queue _ _ _).trans (initUnariesLoop_queue _ st)
    · exact (binaryWatchOuter_queue _ _).trans
        ((initLongLoop_queue _ _ _).trans (initUnariesLoop_queue _ st))

theorem p_import_large_clauses_queue (st : PropState) (cs : List (List Nat)) :
    (st.p_import_large_clauses cs).trailQueueHead = st.trailQueueHead := rfl

theorem p_process_short_clauses_queue (st : PropState) :
    (st.p_process_short_clauses).trailQueueHead = st.trailQueueHead := rfl

theorem construct_queue (model : ModelBuilder) (st : PropState)
    (h : PropState.construct model = some st) :
    st.trailQueueHead ≤ st.trailLits.length := by
  unfold PropState.construct at h
  dsimp only at h
  split at h
  · injection h with h2
    subst h2
    rw [p_init_watches_queue, p_import_large_clauses_queue,
      p_process_short_clauses_queue]
    exact Nat.zero_le _
  · split at h
    · exact Option.noConfusion h
    · rename_i b2 st2 hp2
      injection h with h2
      subst h2
      refine (propagate_facts _ _ _ _ hp2).2.2.1 ?_
      rw [p_init_watches_queue, p_import_large_clauses_queue,
        p_process_short_clauses_queue]
      exact Nat.zero_le _

theorem push_level_queue (fuel : Nat) (st : PropState) (d : Nat) (b : Bool)
    (st₁ : PropState) (h : PropState.push_level fuel st d = some (b, st₁))
    (hq : st.trailQueueHead ≤ st.trailLits.length) :
    st₁.trailQueueHead ≤ st₁.trailLits.length := by
  rw [PropState.push_level] at h
  by_cases hop : (st.varState d).is_open = true
  · rw [if_pos hop] at h
    dsimp only at h
    refine (propagate_facts _ _ _ _ h).2.2.1 ?_
    show st.trailQueueHead ≤ (st.trailLits ++ [d]).length
    rw [List.length_append]
    omega
  · rw [if_neg hop] at h
    exact absurd h (by simp)

theorem pop_level_queue (st st' : PropState)
    (h : PropState.pop_level st = some st') :
    st'.trailQueueHead ≤ st'.trailLits.length := by
  rw [PropState.pop_level] at h
  split at h
  · exact Option.noConfusion h
  · dsimp only at h
    injection h with h2
    subst h2
    split
    · exact Nat.le_refl _
    · exact Nat.le_refl _

end PropState

/-- C9: the branchless three-way predicate `VariableState::state(l)`
returns exactly `-1` when the variable is open (its `value_code` holds
the sentinel `-1`, machine word `mask32`), `1` when the variable is
assigned and the assigned polarity makes `l` true (the low bit of `l`
equals the low bit of `value_code`), and `0` when the variable is
assigned and `l` is false; `Propagator::value_of(l)` accordingly returns
`none`, `some true`, or `some false` in those three cases. -/
theorem c9_state_trichotomy (st : PropState) (l : Nat) (hl : l < 2 ^ 32) :
    ((st.varState l).valueCode = mask32 →
      (st.varState l).state l = -1 ∧ st.value_of l = none) ∧
    ((st.varState l).valueCode < 2 ^ 31 → l % 2 = (st.varState l).valueCode % 2 →
      (st.varState l).state l = 1 ∧ st.value_of l = some true) ∧
    ((st.varState l).valueCode < 2 ^ 31 → l % 2 ≠ (st.varState l).valueCode % 2 →
      (st.varState l).state l = 0 ∧ st.value_of l = some false) := by
  refine ⟨?_, ?_, ?_⟩
  · intro hopen
    have hs := VariableState.state_of_open hopen l
    refine ⟨hs, ?_⟩
    unfold PropState.value_of
    rw [hs]
    norm_num
  · intro hvc hpol
    have hs := VariableState.state_of_assigned hvc hl
    rw [if_pos hpol] at hs
    refine ⟨hs, ?_⟩
    unfold PropState.value_of
    rw [hs]
    norm_num
  · intro hvc hpol
    have hs := VariableState.state_of_assigned hvc hl
    rw [if_neg hpol] at hs
    refine ⟨hs, ?_⟩
    unfold PropState.value_of
    rw [hs]
    norm_num

/-- C9 (witness): the three cases evaluated on a concrete state —
literal 0 (open variable), literal 2 (assigned true), literal 3
(assigned false). -/
theorem c9_state_trichotomy_witness :
    ((stateWitness.varState 0).valueCode = mask32 ∧
      (stateWitness.varState 0).state 0 = -1 ∧ stateWitness.value_of 0 = none) ∧
    ((stateWitness.varState 2).valueCode < 2 ^ 31 ∧
      2 % 2 = (stateWitness.varState 2).valueCode % 2 ∧
      (stateWitness.varState 2).state 2 = 1 ∧ stateWitness.value_of 2 = some true) ∧
    ((stateWitness.varState 3).valueCode < 2 ^ 31 ∧
      3 % 2 ≠ (stateWitness.varState 3).valueCode % 2 ∧
      (stateWitness.varState 3).state 3 = 0 ∧ stateWitness.value_of 3 = some false) :=
  ⟨⟨by decide, ((c9_state_trichotomy stateWitness 0 (by decide)).1 (by decide))⟩,
   ⟨by decide, by decide,
     ((c9_state_trichotomy stateWitness 2 (by decide)).2.1 (by decide) (by decide))⟩,
   ⟨by decide, by decide,
     ((c9_state_trichotomy stateWitness 3 (by decide)).2.2 (by decide) (by decide))⟩⟩

/-- C3 (counterexample): `push_level` does not fail with a diagnostic on
an already-conflicting propagator.  On a conflicting state whose
decision variable is open, the source checks only that the decision is
open, proceeds to push the level and assert the decision, and returns
`false` from propagation instead of raising the claimed error. -/
theorem c3_push_level_missing_conflict_check :
    c3state.is_conflicting = true ∧
    (c3state.varState 0).is_open = true ∧
    PropState.push_level 1 c3state 0 ≠ none ∧
    (∃ st₁, PropState.push_level 1 c3state 0 = some (false, st₁)) := by
  refine ⟨rfl, by decide, by decide, ?_⟩
  exact ⟨((PropState.push_level 1 c3state 0).getD (true, c3state)).2, by decide⟩

/-- C3 (amended): `push_level(decision)` raises its diagnostic exactly
when the decision variable is not open — a conflicting propagator is
not rejected.  When the decision is open it appends one new level
beginning at the current trail end, asserts the decision with reason
*Decision* (followed only by propagated literals), and returns `true`
iff no conflict arose. -/
theorem c3_push_level_checks_open_only (fuel : Nat) (st : PropState) (d : Nat)
    (b : Bool) (st₁ : PropState) :
    ((st.varState d).is_open = false → PropState.push_level fuel st d = none) ∧
    (PropState.push_level fuel st d = some (b, st₁) →
      (st.varState d).is_open = true ∧
      st₁.levels = st.levels ++ [(⟨st.trailLits.length, 0⟩ : LevelInfo)] ∧
      (∃ e, st₁.trailLits = st.trailLits ++ d :: e) ∧
      (∃ f, st₁.trailReasons = st.trailReasons ++ Reason.decision :: f) ∧
      (b = true ↔ st₁.conflicting = false)) := by
  constructor
  · intro hop
    rw [PropState.push_level, if_neg (by simp [hop])]
  · intro h
    obtain ⟨hop, hlev, _, _, ⟨e, f, he, hf, _⟩, hbf, hbt⟩ :=
      PropState.push_level_some fuel st d b st₁ h
    refine ⟨hop, hlev, ⟨e, he⟩, ⟨f, hf⟩, hbt, ?_⟩
    intro hcf
    by_cases hb : b = true
    · exact hb
    · rw [Bool.not_eq_true] at hb
      have h1 := hbf hb
      rw [hcf] at h1
      exact absurd h1 (by simp)

/-- C3 (witness): the amended contract evaluated on a concrete
successful `push_level` call. -/
theorem c3_push_level_checks_open_only_witness :
    (c3wit.varState 0).is_open = true ∧
    c3wout.levels = c3wit.levels ++ [(⟨c3wit.trailLits.length, 0⟩ : LevelInfo)] ∧
    (∃ e, c3wout.trailLits = c3wit.trailLits ++ 0 :: e) ∧
    (∃ f, c3wout.trailReasons = c3wit.trailReasons ++ Reason.decision :: f) ∧
    (true = true ↔ c3wout.conflicting = false) :=
  (c3_push_level_checks_open_only 2 c3wit 0 true c3wout).2 (by decide)

/-- C10: whenever `push_level(decision)` returns `false`, the
propagator is conflicting, its current level is one plus the pre-call
current level, the new decision level remains on the level stack, and
the trail still carries the decision (with reason *Decision*) and the
literals propagated before the conflict — no rollback has occurred. -/
theorem c10_push_level_false_keeps_conflict_level (fuel : Nat) (st : PropState)
    (d : Nat) (st₁ : PropState)
    (h : PropState.push_level fuel st d = some (false, st₁))
    (hlv : 1 ≤ st.levels.length) :
    st₁.is_conflicting = true ∧
    st₁.get_current_level = st.get_current_level + 1 ∧
    st₁.levels = st.levels ++ [(⟨st.trailLits.length, 0⟩ : LevelInfo)] ∧
    (∃ e, st₁.trailLits = st.trailLits ++ d :: e) ∧
    (∃ f, st₁.trailReasons = st.trailReasons ++ Reason.decision :: f) := by
  obtain ⟨hop, hlev, _, _, ⟨e, f, he, hf, _⟩, hbf, _⟩ :=
    PropState.push_level_some fuel st d false st₁ h
  refine ⟨hbf rfl, ?_, hlev, ⟨e, he⟩, ⟨f, hf⟩⟩
  unfold PropState.get_current_level
  rw [hlev]
  simp only [List.length_append, List.length_singleton]
  omega

/-- C10 (witness): the contract evaluated on the concrete conflicting
push. -/
theorem c10_push_level_false_keeps_conflict_level_witness :
    PropState.push_level 3 c10st 0 = some (false, c10out) ∧
    (c10out.is_conflicting = true ∧
     c10out.get_current_level = c10st.get_current_level + 1 ∧
     c10out.levels = c10st.levels ++ [(⟨c10st.trailLits.length, 0⟩ : LevelInfo)] ∧
     (∃ e, c10out.trailLits = c10st.trailLits ++ 0 :: e) ∧
     (∃ f, c10out.trailReasons = c10st.trailReasons ++ Reason.decision :: f)) :=
  ⟨by decide,
   c10_push_level_false_keeps_conflict_level 3 c10st 0 c10out (by decide) (by decide)⟩

/-- C6: on a propagator with no pending propagation work (queue head at
the trail end, reasons in lockstep with the trail), any completed
`push_level(d)` followed by `pop_level()` restores trail, reasons and
level stack bit-identically, restores the queue head, and every
variable assigned during the push is open again afterwards. -/
theorem c6_push_pop_roundtrip (fuel : Nat) (st : PropState) (d : Nat) (b : Bool)
    (st₁ : PropState)
    (hq : st.trailQueueHead = st.trailLits.length)
    (hr : st.trailReasons.length = st.trailLits.length)
    (hlv : 1 ≤ st.levels.length)
    (hpush : PropState.push_level fuel st d = some (b, st₁)) :
    ∃ st₂, PropState.pop_level st₁ = some st₂ ∧
      st₂.trailLits = st.trailLits ∧
      st₂.trailReasons = st.trailReasons ∧
      st₂.levels = st.levels ∧
      st₂.trailQueueHead = st.trailQueueHead ∧
      (∀ l ∈ st₁.trailLits.drop st.trailLits.length,
        lit.var l < st.vars.length → (st₂.varState l).is_open = true) := by
  obtain ⟨hop, hlev, hnv, hvl, ⟨e, f, he, hf, hef⟩, _, _⟩ :=
    PropState.push_level_some fuel st d b st₁ hpush
  have hlen1 : st₁.levels.length = st.levels.length + 1 := by
    rw [hlev]
    simp
  have key := PropState.p_rollback_level_concat st₁ st d e f hlev he hf hr
  rw [PropState.pop_level, if_neg (by omega)]
  rw [key]
  dsimp only
  have hopen : ∀ l ∈ st₁.trailLits.drop st.trailLits.length,
      lit.var l < st.vars.length →
      ((PropState.undoLits st₁.vars
        ((st₁.trailLits.drop st.trailLits.length).reverse)).getD (lit.var l)
          PropState.defaultVar).is_open = true := by
    intro l hmem hb
    exact PropState.undoLits_mem_open _ _ _ (List.mem_reverse.mpr hmem)
      (by rw [hvl]; exact hb)
  by_cases hcf : st₁.conflicting = true
  · rw [if_pos hcf]
    refine ⟨_, rfl, rfl, rfl, rfl, hq.symm, ?_⟩
    intro l hmem hb
    exact hopen l hmem hb
  · rw [if_neg hcf]
    refine ⟨_, rfl, rfl, rfl, rfl, hq.symm, ?_⟩
    intro l hmem hb
    exact hopen l hmem hb

/-- C6 (witness): the roundtrip evaluated on a concrete push/pop pair. -/
theorem c6_push_pop_roundtrip_witness :
    (c6st.trailQueueHead = c6st.trailLits.length ∧
     c6st.trailReasons.length = c6st.trailLits.length ∧
     1 ≤ c6st.levels.length ∧
     PropState.push_level 2 c6st 0 = some (true, c6out1)) ∧
    (∃ st₂, PropState.pop_level c6out1 = some st₂ ∧
      st₂.trailLits = c6st.trailLits ∧
      st₂.trailReasons = c6st.trailReasons ∧
      st₂.levels = c6st.levels ∧
      st₂.trailQueueHead = c6st.trailQueueHead ∧
      (∀ l ∈ c6out1.trailLits.drop c6st.trailLits.length,
        lit.var l < c6st.vars.length → (st₂.varState l).is_open = true)) :=
  ⟨⟨rfl, rfl, by decide, by decide⟩,
   c6_push_pop_roundtrip 2 c6st 0 true c6out1 rfl rfl (by decide) (by decide)⟩

/-- C2: on a conflicting propagator (with the level stack nonempty, as
in every constructed propagator), if `resolve_conflicts` returns `true`
then the propagator is non-conflicting, its level count has strictly
decreased while staying positive (so the current level
`levels.length - 1` is strictly below the pre-call current level), and
the trail consists of a prefix of the old trail followed by at least
one freshly asserted literal (the negated UIP of the learnt clause);
whenever it returns `false`, the propagator is conflicting and its
level count is 1, i.e. the current level is 0. -/
theorem c2_resolve_conflicts_contract (fuel : Nat) (st : PropState) (b : Bool)
    (st' : PropState) (h : PropState.resolve_conflicts fuel st = some (b, st'))
    (hconf : st.is_conflicting = true) (hlv : 1 ≤ st.levels.length) :
    (b = true → st'.is_conflicting = false ∧
      st'.get_current_level < st.get_current_level ∧
      ∃ m l e, m ≤ st.trailLits.length ∧
        st'.trailLits = st.trailLits.take m ++ l :: e) ∧
    (b = false → st'.is_conflicting = true ∧ st'.get_current_level = 0) := by
  obtain ⟨_, hbf, hbt⟩ := PropState.resolve_conflicts_main fuel st b st' h
  constructor
  · intro ht
    obtain ⟨h1, h2, h3, h4⟩ := hbt hconf hlv ht
    refine ⟨h1, ?_, h4⟩
    unfold PropState.get_current_level
    omega
  · intro hf
    obtain ⟨h1, h2⟩ := hbf hf
    refine ⟨h1, ?_⟩
    unfold PropState.get_current_level
    omega

/-- C2 (witness): the contract evaluated on a concrete conflict
resolution that learns the unit clause `¬x0` and backjumps to
level 0. -/
theorem c2_resolve_conflicts_contract_witness :
    (PropState.resolve_conflicts 3 c2state = some (true, c2out) ∧
     c2state.is_conflicting = true ∧ 1 ≤ c2state.levels.length) ∧
    ((true = true → c2out.is_conflicting = false ∧
      c2out.get_current_level < c2state.get_current_level ∧
      ∃ m l e, m ≤ c2state.trailLits.length ∧
        c2out.trailLits = c2state.trailLits.take m ++ l :: e) ∧
     (true = false → c2out.is_conflicting = true ∧
      c2out.get_current_level = 0)) :=
  ⟨⟨by decide, rfl, by decide⟩,
   c2_resolve_conflicts_contract 3 c2state true c2out (by decide) rfl (by decide)⟩

/-- C8: in every propagator state reachable by legal API usage
(construction from a model, then `push_level` / `pop_level` /
`propagate` / `resolve_conflicts`), `trail_queue_head` is at most the
trail length; and whenever `propagate()` returns `true` the two are
equal — propagation has no outstanding work exactly at equality. -/
theorem c8_queue_head_invariant (st : PropState) (h : PropState.Reachable st) :
    st.trailQueueHead ≤ st.trailLits.length ∧
    (∀ (fuel : Nat) (st' : PropState),
      PropState.propagate fuel st = some (true, st') →
      st'.trailQueueHead = st'.trailLits.length) := by
  have key : st.trailQueueHead ≤ st.trailLits.length := by
    induction h with
    | init model st hc => exact PropState.construct_queue model st hc
    | push st fuel d b st' _ hp ih =>
      exact PropState.push_level_queue fuel st d b st' hp ih
    | pop st st' _ hp _ => exact PropState.pop_level_queue st st' hp
    | prop st fuel b st' _ hp ih =>
      exact (PropState.propagate_facts fuel st b st' hp).2.2.1 ih
    | resolve st fuel b st' _ hr ih =>
      exact (PropState.resolve_conflicts_main fuel st b st' hr).1 ih
  refine ⟨key, ?_⟩
  intro fuel st' hp
  obtain ⟨_, _, hinv, _, hbt⟩ := PropState.propagate_facts fuel st true st' hp
  have h1 := hinv key
  have h2 := (hbt rfl).2
  omega

/-- C8 (witness): the invariant evaluated on the concrete constructed
propagator and one concrete `propagate()` call returning `true`. -/
theorem c8_queue_head_invariant_witness :
    PropState.construct c8model = some c8state ∧
    c8state.trailQueueHead ≤ c8state.trailLits.length ∧
    PropState.propagate 2 c8state = some (true, c8out) ∧
    c8out.trailQueueHead = c8out.trailLits.length :=
  ⟨by decide,
   (c8_queue_head_invariant c8state
     (PropState.Reachable.init c8model c8state (by decide))).1,
   by decide,
   (c8_queue_head_invariant c8state
     (PropState.Reachable.init c8model c8state (by decide))).2 2 c8out (by decide)⟩

end Sprop

